import Mathlib

/-!
# CPP-FileProcessor: the concurrent engine, the progress bus and the pipeline

A shallow embedding of

* `include/common.h` (`ProcessResult`, `ThreadSafeQueue`),
* `src/observers/Observer.h` (`ProgressEvent`, `Subject`),
* `src/core/FileProcessor.h` (`FileProcessor::process`),
* `src/core/ThreadPool.h`, `src/core/ThreadPool.cpp` (`ThreadPool`),

followed by the theorems about them.

Conventions.  A C++ failure is a `std::exception` object, identified by its
`what()` text: every `throw` of the repository throws `std::runtime_error`.
`size_t` values are natural numbers; the only arithmetic on them here is the
`++`/`--` pair of the task wrapper, which cannot wrap.  Clock readings are
supplied by the environment.  Threads are interleaved one atomic action at a
time by an explicit schedule.
-/

namespace FileProcessorSpec

/-! ## Data model -/

/-- A raised `std::exception`, identified by its `what()` text. -/
structure StdException where
  what : String
deriving DecidableEq, Repr

/-- The record `ProcessResult` of `include/common.h`; `processing_time` is in
milliseconds and `metadata` lists the key/value pairs of the map. -/
structure ProcessResult where
  success : Bool
  message : String
  bytes_processed : Nat
  processing_time : Nat
  metadata : List (String × String)
deriving DecidableEq, Repr

/-- The default constructor `ProcessResult()`:
`success(false), bytes_processed(0), processing_time(0)`. -/
def ProcessResult.default : ProcessResult :=
  { success := false, message := "", bytes_processed := 0, processing_time := 0, metadata := [] }

/-- The payload `ProgressEvent` of `src/observers/Observer.h`.  The member
`percentage` is a `double`: it is kept as the rational number that the double
is.  The capture timestamp is not part of the model. -/
structure ProgressEvent where
  filename : String
  bytes_processed : Nat
  total_bytes : Nat
  percentage : ℚ
  status : String
deriving DecidableEq, Repr

/-- The integer nearest to `s`, the even one of the two when `s` lies halfway:
the rounding of a significand under round-to-nearest, ties-to-even. -/
def round_half_even (s : ℚ) : ℤ :=
  if s - ⌊s⌋ < 1 / 2 then ⌊s⌋
  else if 1 / 2 < s - ⌊s⌋ then ⌊s⌋ + 1
  else if ⌊s⌋ % 2 = 0 then ⌊s⌋ else ⌊s⌋ + 1

/-- The `double` an arithmetic result `x ≥ 0` is rounded to, under the default
rounding of IEEE 754 binary64: with `2 ^ L ≤ x < 2 ^ (L + 1)`, the multiple of
`2 ^ (L - 52)` nearest to `x`, which has 53 significant bits.  This is the
format over its normal range, `2 ^ (-1022) ≤ x < 2 ^ 1024`, where the byte
counts of type `size_t`, their quotients and the percentages all lie; `0` is a
double. -/
def round_to_double (x : ℚ) : ℚ :=
  if x ≤ 0 then 0
  else (round_half_even (x / (2 : ℚ) ^ (Int.log 2 x - 52)) : ℚ) * (2 : ℚ) ^ (Int.log 2 x - 52)

/-- The conversion of a `size_t` to `double`, as `static_cast<double>(n)` and
the implicit conversion of an operand do it. -/
def to_double (n : Nat) : ℚ := round_to_double (n : ℚ)

/-- The operator `/` on two doubles. -/
def double_div (a b : ℚ) : ℚ := round_to_double (a / b)

/-- The operator `*` on two doubles. -/
def double_mul (a b : ℚ) : ℚ := round_to_double (a * b)

/-- The initialiser of `percentage` in the constructor of `ProgressEvent`:
`total > 0 ? (static_cast<double>(processed) / total) * 100.0 : 0.0`. -/
def percentage_of (processed total : Nat) : ℚ :=
  if total > 0 then double_mul (double_div (to_double processed) (to_double total)) 100 else 0

/-- The constructor `ProgressEvent(file, processed, total, stat)`. -/
def ProgressEvent.create (file : String) (processed total : Nat) (stat : String) : ProgressEvent :=
  { filename := file
    bytes_processed := processed
    total_bytes := total
    percentage := percentage_of processed total
    status := stat }

/-! ## The event bus: `Subject<ProgressEvent>` -/

/-- The world outside a subject, as one delivery pass sees it.  An observer is
named by a number (its address).  `alive o` tells whether a strong owner of `o`
still exists, that is whether `weak_ptr::lock` succeeds; `notify o e w` is the
reaction of observer `o` to event `e` in the joint observer state `w`: the new
joint state, and the failure the call raised, when it raised one. -/
structure Observers (σ : Type) where
  alive : Nat → Bool
  notify : Nat → ProgressEvent → σ → σ × Option StdException

/-- The class `Subject`: the vector `observers_` of weak references, each entry
given by the observer it refers to. -/
structure Subject where
  observers_ : List Nat
deriving DecidableEq, Repr

/-- What one pass of `notify_all` leaves behind: the stored list, the joint
observer state, the observers called (in call order) and the lines handed to
`Logger::error`. -/
structure Delivery (σ : Type) where
  observers_ : List Nat
  state : σ
  notified : List Nat
  logged : List String

/-- Method `Subject::attach`: `observers_.push_back(observer)`. -/
def Subject.attach (s : Subject) (observer : Nat) : Subject :=
  { observers_ := s.observers_ ++ [observer] }

/-- The loop of `Subject::notify_all` from the iterator position on.  A live
entry is notified and kept, whether or not the call raised (`++it` in both the
`try` and the `catch` branch, the catch logging the failure); an expired entry
is erased. -/
def notify_loop {σ : Type} (env : Observers σ) (event : ProgressEvent) :
    List Nat → σ → Delivery σ
  | [], w => { observers_ := [], state := w, notified := [], logged := [] }
  | o :: rest, w =>
    if env.alive o then
      let r := env.notify o event w
      let d := notify_loop env event rest r.1
      { observers_ := o :: d.observers_
        state := d.state
        notified := o :: d.notified
        logged :=
          (match r.2 with
            | some e => ["Observer notification failed: " ++ e.what]
            | none => []) ++ d.logged }
    else
      notify_loop env event rest w

/-- Method `Subject::notify_all(event)`: one pass over `observers_` from `begin()`. -/
def Subject.notify_all {σ : Type} (env : Observers σ) (s : Subject) (event : ProgressEvent)
    (w : σ) : Delivery σ :=
  notify_loop env event s.observers_ w

/-- Method `Subject::observer_count`: the number of entries that have not expired. -/
def Subject.observer_count (alive : Nat → Bool) (s : Subject) : Nat :=
  s.observers_.countP (fun o => alive o)

/-! ## The pipeline: `FileProcessor<Derived>::process` -/

/-- The bus of one processor together with what has happened on it: the
subject `progress_subject_`, the joint state of the observers, every event
handed to `notify_all` so far (`published`), every delivery made to an observer
(`delivered`) and the lines logged by the bus. -/
structure Bus (σ : Type) where
  subject : Subject
  state : σ
  published : List ProgressEvent
  delivered : List (Nat × ProgressEvent)
  logged : List String

/-- One call `progress_subject_.notify_all(event)` on the bus. -/
def Bus.publish {σ : Type} (env : Observers σ) (b : Bus σ) (event : ProgressEvent) : Bus σ :=
  let d := b.subject.notify_all env event b.state
  { subject := { observers_ := d.observers_ }
    state := d.state
    published := b.published ++ [event]
    delivered := b.delivered ++ d.notified.map (fun o => (o, event))
    logged := b.logged ++ d.logged }

/-- The arguments of one call `notify_progress(filepath, processed, total, status)`. -/
structure ProgressCall where
  filepath : String
  processed : Nat
  total : Nat
  status : String
deriving DecidableEq, Repr

/-- Method `FileProcessor::notify_progress`: build the event and hand it to `notify_all`. -/
def notify_progress {σ : Type} (env : Observers σ) (b : Bus σ) (c : ProgressCall) : Bus σ :=
  b.publish env (ProgressEvent.create c.filepath c.processed c.total c.status)

/-- One run of the pluggable step `Derived::process_impl(filepath)` as the
pipeline sees it: the `notify_progress` calls it makes, in order, and then
either the record it returns or the failure it raises. -/
structure StepRun where
  calls : List ProgressCall
  outcome : Except StdException ProcessResult

/-- The two `std::filesystem` queries the pipeline makes; either may raise. -/
structure FileSystem where
  «exists» : String → Except StdException Bool
  file_size : String → Except StdException Nat

/-- The `catch (const std::exception& e)` block of `process`: the record built
so far is marked failed and gets the message and the elapsed time; nothing is
published. -/
def process_catch (result : ProcessResult) (e : StdException) (elapsed : Nat) : ProcessResult :=
  { result with
    success := false
    message := "Processing failed: " ++ e.what
    processing_time := elapsed }

/-- Method `FileProcessor::process(filepath)`.  `elapsed` is the reading of the timer
when it is stopped.  The result is the record returned and the bus afterwards. -/
def process {σ : Type} (env : Observers σ) (fs : FileSystem) (process_impl : String → StepRun)
    (elapsed : Nat) (filepath : String) (b : Bus σ) : ProcessResult × Bus σ :=
  let result := ProcessResult.default
  match fs.exists filepath with
  | .error e => (process_catch result e elapsed, b)
  | .ok false => ({ result with message := "File does not exist: " ++ filepath }, b)
  | .ok true =>
    match fs.file_size filepath with
    | .error e => (process_catch result e elapsed, b)
    | .ok file_size =>
      let b1 := b.publish env (ProgressEvent.create filepath 0 file_size "started")
      let run := process_impl filepath
      let b2 := run.calls.foldl (notify_progress env) b1
      match run.outcome with
      | .error e => (process_catch result e elapsed, b2)
      | .ok r =>
        let result := { r with bytes_processed := file_size, processing_time := elapsed }
        let status := if result.success then "completed" else "failed"
        (result, b2.publish env (ProgressEvent.create filepath file_size file_size status))

/-- The number of events with the given status in a list of events. -/
def count_status (status : String) (events : List ProgressEvent) : Nat :=
  events.countP (fun e => e.status = status)

/-- The events a call published: those at the end of the log that were not
there before the call. -/
def published_by {σ : Type} (before after : Bus σ) : List ProgressEvent :=
  after.published.drop before.published.length

/-! ## The queue: `ThreadSafeQueue<T>` -/

/-- The class `ThreadSafeQueue` of `include/common.h`: the `std::queue` it
guards, front first.  Every operation holds the mutex for its whole body, so
each is one atomic action. -/
structure ThreadSafeQueue (T : Type) where
  queue_ : List T
deriving DecidableEq, Repr

/-- Method `ThreadSafeQueue::push`: `queue_.push(item)`. -/
def ThreadSafeQueue.push {T : Type} (q : ThreadSafeQueue T) (item : T) : ThreadSafeQueue T :=
  { queue_ := q.queue_ ++ [item] }

/-- Method `ThreadSafeQueue::try_pop(item)`: on an empty queue `false`, with `item`
and the queue as they were; otherwise `true`, the front moved into `item`. -/
def ThreadSafeQueue.try_pop {T : Type} (q : ThreadSafeQueue T) (item : T) :
    Bool × T × ThreadSafeQueue T :=
  match q.queue_ with
  | [] => (false, item, q)
  | x :: rest => (true, x, { queue_ := rest })

/-- Method `ThreadSafeQueue::empty`. -/
def ThreadSafeQueue.empty {T : Type} (q : ThreadSafeQueue T) : Bool :=
  q.queue_.isEmpty

/-- Method `ThreadSafeQueue::size`. -/
def ThreadSafeQueue.size {T : Type} (q : ThreadSafeQueue T) : Nat :=
  q.queue_.length

/-! ## The worker pool: `ThreadPool` -/

/-- What a work item does when it is run: the value it returns or the failure
it raises. -/
inductive Outcome (α : Type) where
  | value (v : α)
  | failure (e : StdException)
deriving DecidableEq, Repr

/-- The closure `enqueue` pushes on the queue: it captures the packaged task,
given here by the shared state `handle` of its future and by the outcome `work`
of the bound callable. -/
structure Task (α : Type) where
  handle : Nat
  work : Outcome α
deriving DecidableEq, Repr

/-- Where a worker thread stands in `ThreadPool::worker_thread`, before its
next atomic action.
* `loop_head`: about to test `!stop_`;
* `try_pop`: about to call `tasks_.try_pop(task)`;
* `call t`: holds the popped closure `t`, about to run its `++active_tasks_`;
* `invoke t`: about to run `(*task)()`;
* `finish`: about to run `--active_tasks_; finished_.notify_all()`;
* `exited`: the loop has ended. -/
inductive Worker (α : Type) where
  | loop_head
  | try_pop
  | call (t : Task α)
  | invoke (t : Task α)
  | finish
  | exited
deriving DecidableEq, Repr

/-- The class `ThreadPool` with the heap it writes to.  The first four fields
are the members `workers_`, `tasks_`, `stop_`, `active_tasks_`.  `shared` lists
the shared states resolved so far with what they were resolved to, in order of
resolution; `submitted` lists the work items accepted by `enqueue`, so that the
handle of the next one is `submitted.length`; `executed` lists the handles whose
callable has been run, in order; `joined` counts the `join()` calls made;
`logged` holds the lines the worker loop handed to `Logger::error`. -/
structure ThreadPool (α : Type) where
  workers_ : List (Worker α)
  tasks_ : ThreadSafeQueue (Task α)
  stop_ : Bool
  active_tasks_ : Nat
  shared : List (Nat × Outcome α)
  submitted : List (Outcome α)
  executed : List Nat
  joined : Nat
  logged : List String
deriving DecidableEq, Repr

/-- The constructor `ThreadPool(num_threads)`: `stop_(false)`,
`active_tasks_(0)` and `num_threads` workers at the head of their loop. -/
def ThreadPool.create {α : Type} (num_threads : Nat) : ThreadPool α :=
  { workers_ := List.replicate num_threads Worker.loop_head
    tasks_ := { queue_ := [] }
    stop_ := false
    active_tasks_ := 0
    shared := []
    submitted := []
    executed := []
    joined := 0
    logged := [] }

/-- Method `ThreadPool::enqueue(f)`.  On a stopped pool it raises
`std::runtime_error("enqueue on stopped ThreadPool")` and the packaged task
made just before is destroyed again; otherwise the closure is pushed and the
future is returned.  The result is what the caller gets and the pool
afterwards. -/
def ThreadPool.enqueue {α : Type} (s : ThreadPool α) (work : Outcome α) :
    Except StdException Nat × ThreadPool α :=
  if s.stop_ then
    (.error ⟨"enqueue on stopped ThreadPool"⟩, s)
  else
    (.ok s.submitted.length,
      { s with
        tasks_ := s.tasks_.push { handle := s.submitted.length, work := work }
        submitted := s.submitted ++ [work] })

/-- The call `(*task)()` on a `std::packaged_task`: the value of the callable, or the
failure it raised, goes into the shared state, and nothing is raised into the
caller.  The result is what is stored and what escapes the call. -/
def packaged_task_call {α : Type} (work : Outcome α) : Outcome α × Option StdException :=
  (work, none)

/-- One atomic action of worker thread `i` in `worker_thread()`, the closure
of `enqueue` inlined.  Sleeping on an empty queue takes the worker back to the
head of the loop.  A failure escaping the closure would be logged by the
`catch` of the loop, which then goes on polling. -/
def ThreadPool.worker_step {α : Type} (i : Nat) (s : ThreadPool α) : ThreadPool α :=
  match s.workers_[i]? with
  | none => s
  | some Worker.loop_head =>
    if s.stop_ then { s with workers_ := s.workers_.set i Worker.exited }
    else { s with workers_ := s.workers_.set i Worker.try_pop }
  | some Worker.try_pop =>
    match s.tasks_.queue_ with
    | [] => { s with workers_ := s.workers_.set i Worker.loop_head }
    | t :: rest =>
      { s with tasks_ := { queue_ := rest }, workers_ := s.workers_.set i (Worker.call t) }
  | some (Worker.call t) =>
    { s with active_tasks_ := s.active_tasks_ + 1, workers_ := s.workers_.set i (Worker.invoke t) }
  | some (Worker.invoke t) =>
    match (packaged_task_call t.work).2 with
    | none =>
      { s with
        shared := s.shared ++ [(t.handle, (packaged_task_call t.work).1)]
        executed := s.executed ++ [t.handle]
        workers_ := s.workers_.set i Worker.finish }
    | some e =>
      { s with
        shared := s.shared ++ [(t.handle, (packaged_task_call t.work).1)]
        executed := s.executed ++ [t.handle]
        logged := s.logged ++ ["Task execution failed: " ++ e.what]
        workers_ := s.workers_.set i Worker.loop_head }
  | some Worker.finish =>
    { s with active_tasks_ := s.active_tasks_ - 1, workers_ := s.workers_.set i Worker.loop_head }
  | some Worker.exited => s

/-- The workers take atomic actions in the order the schedule names them. -/
def ThreadPool.run_workers {α : Type} (schedule : List Nat) (s : ThreadPool α) : ThreadPool α :=
  schedule.foldl (fun acc i => acc.worker_step i) s

/-- The call `worker.join()` on worker `i` of a pool whose stop flag is set: the caller
waits while the worker takes its remaining actions, at most five (pop, count,
run, uncount, test the flag). -/
def ThreadPool.join {α : Type} (i : Nat) (s : ThreadPool α) : ThreadPool α :=
  let s1 := (ThreadPool.worker_step i)^[5] s
  { s1 with joined := s1.joined + 1 }

/-- Method `ThreadPool::shutdown()`.  A second call returns at once.  Otherwise the
flag is set, the workers go on concurrently as `schedule` says while the caller
reaches the loop, each worker is joined in turn, and `workers_` is cleared. -/
def ThreadPool.shutdown {α : Type} (schedule : List Nat) (s : ThreadPool α) : ThreadPool α :=
  if s.stop_ then s
  else
    let s1 := ({ s with stop_ := true } : ThreadPool α).run_workers schedule
    let s2 := (List.range s1.workers_.length).foldl (fun acc i => acc.join i) s1
    { s2 with workers_ := [] }

/-- Method `ThreadPool::wait_for_all()`: the caller leaves the wait when the predicate
`tasks_.empty() && active_tasks_.load() == 0` holds, and stays blocked (`none`)
while it does not. -/
def ThreadPool.wait_for_all {α : Type} (s : ThreadPool α) : Option (ThreadPool α) :=
  if s.tasks_.empty && s.active_tasks_ == 0 then some s else none

/-- Method `ThreadPool::size`. -/
def ThreadPool.size {α : Type} (s : ThreadPool α) : Nat := s.workers_.length

/-- Method `ThreadPool::active_count`. -/
def ThreadPool.active_count {α : Type} (s : ThreadPool α) : Nat := s.active_tasks_

/-- Method `ThreadPool::pending_count`. -/
def ThreadPool.pending_count {α : Type} (s : ThreadPool α) : Nat := s.tasks_.size

/-- One action of the whole program: the client submits an item, or a worker
takes an atomic action. -/
inductive Action (α : Type) where
  | submit (work : Outcome α)
  | step (i : Nat)
deriving DecidableEq, Repr

/-- The pool after one action. -/
def ThreadPool.act {α : Type} (s : ThreadPool α) : Action α → ThreadPool α
  | Action.submit work => (s.enqueue work).2
  | Action.step i => s.worker_step i

/-- The pool after a sequence of actions: one interleaving of the client and
the workers. -/
def ThreadPool.run {α : Type} (actions : List (Action α)) (s : ThreadPool α) : ThreadPool α :=
  actions.foldl ThreadPool.act s

/-- The items submitted by a sequence of actions, in order. -/
def submissions {α : Type} : List (Action α) → List (Outcome α)
  | [] => []
  | Action.submit work :: rest => work :: submissions rest
  | Action.step _ :: rest => submissions rest

/-- What the future with the given handle holds: `none` while unresolved. -/
def ThreadPool.future_get {α : Type} (s : ThreadPool α) (handle : Nat) : Option (Outcome α) :=
  (s.shared.find? (fun r => r.1 == handle)).map (fun r => r.2)

/-! ## Bookkeeping for the runs of the pool -/

/-- The closure a worker has popped and not yet run, if any. -/
def Worker.held {α : Type} : Worker α → List (Task α)
  | Worker.call t => [t]
  | Worker.invoke t => [t]
  | _ => []

/-- The closures that are off the queue and not yet run. -/
def ThreadPool.in_flight {α : Type} (s : ThreadPool α) : List (Task α) :=
  s.workers_.flatMap Worker.held

/-- The weight of a worker's position in the measure `remaining`: the actions
left before the closure in hand is done with, and one more at the head of the
loop than at the poll. -/
def Worker.rank {α : Type} : Worker α → Nat
  | Worker.loop_head => 1
  | Worker.try_pop => 0
  | Worker.call _ => 4
  | Worker.invoke _ => 3
  | Worker.finish => 2
  | Worker.exited => 0

/-- A measure of the work left: six for each queued closure and the rank of
each worker.  Every worker action lowers it, except a poll of the empty
queue. -/
def ThreadPool.remaining {α : Type} (s : ThreadPool α) : Nat :=
  6 * s.tasks_.queue_.length + (s.workers_.map Worker.rank).sum

/-- The handles of a pool, wherever their closure is: queued, in flight or
resolved. -/
def ThreadPool.handles {α : Type} (s : ThreadPool α) : Multiset Nat :=
  (s.tasks_.queue_.map Task.handle : Multiset Nat) + (s.in_flight.map Task.handle : Multiset Nat)
    + (s.shared.map Prod.fst : Multiset Nat)

/-- What holds of a pool that was constructed and then only submitted to and
worked on: it is not stopped and no worker has left its loop; every handle
issued is in exactly one place, on the queue, in a worker's hands or resolved;
each closure carries the work submitted under its handle, each resolved state
holds the outcome of that work, and the callables run are those resolved. -/
structure ThreadPool.Consistent {α : Type} (s : ThreadPool α) : Prop where
  running : s.stop_ = false
  no_exit : ∀ w ∈ s.workers_, w ≠ Worker.exited
  each_once : s.handles = Multiset.range s.submitted.length
  queued_work : ∀ t ∈ s.tasks_.queue_, s.submitted[t.handle]? = some t.work
  held_work : ∀ t ∈ s.in_flight, s.submitted[t.handle]? = some t.work
  shared_work : ∀ r ∈ s.shared, s.submitted[r.1]? = some r.2
  executed_shared : s.executed = s.shared.map Prod.fst

/-! ## More of the bus: `detach` and sequences of passes -/

/-- Method `Subject::detach(observer)`: the erase-remove of every entry that
has expired or whose `lock()` is `observer`. -/
def Subject.detach (alive : Nat → Bool) (s : Subject) (observer : Nat) : Subject :=
  { observers_ :=
      s.observers_.filter (fun weak_obs => !(!alive weak_obs || weak_obs == observer)) }

/-- The subject after `k` calls `attach(observer)` in a row. -/
def Subject.attach_times (s : Subject) (observer : Nat) : Nat → Subject
  | 0 => s
  | k + 1 => (s.attach_times observer k).attach observer

/-- Method `FileProcessor::attach_progress_observer`: `progress_subject_.attach(observer)`. -/
def Bus.attach_progress_observer {σ : Type} (b : Bus σ) (observer : Nat) : Bus σ :=
  { b with subject := b.subject.attach observer }

/-- Method `FileProcessor::detach_progress_observer`: `progress_subject_.detach(observer)`. -/
def Bus.detach_progress_observer {σ : Type} (alive : Nat → Bool) (b : Bus σ) (observer : Nat) :
    Bus σ :=
  { b with subject := b.subject.detach alive observer }

/-- A sequence of `notify_all` calls on the bus, each with the event it
publishes and with the observers as they are at the time of that call. -/
def Bus.publish_each {σ : Type} (b : Bus σ) (passes : List (Observers σ × ProgressEvent)) :
    Bus σ :=
  passes.foldl (fun acc p => acc.publish p.1 p.2) b

/-- The events the bus has delivered to the given observer, in order. -/
def Bus.deliveries_to {σ : Type} (b : Bus σ) (observer : Nat) : List ProgressEvent :=
  (b.delivered.filter (fun d => d.1 == observer)).map (fun d => d.2)

/-! ## More of the queue: the blocking pop and sequences of pops -/

/-- Method `ThreadSafeQueue::wait_and_pop(item)`: on a non-empty queue the
front is moved into `item`, given back here with the queue left.  On an empty
queue the caller waits on the condition variable; with no other thread pushing
it does not return (`none`). -/
def ThreadSafeQueue.wait_and_pop {T : Type} (q : ThreadSafeQueue T) :
    Option (T × ThreadSafeQueue T) :=
  match q.queue_ with
  | [] => none
  | x :: rest => some (x, { queue_ := rest })

/-- The two ways to pop. -/
inductive PopKind where
  | try_pop
  | wait_and_pop
deriving DecidableEq, Repr

/-- One pop of the given kind into the variable `item`: the item obtained and
the queue left, or `none` when the call obtains nothing (`try_pop` answering
`false`, `wait_and_pop` not returning). -/
def ThreadSafeQueue.pop {T : Type} (kind : PopKind) (q : ThreadSafeQueue T) (item : T) :
    Option (T × ThreadSafeQueue T) :=
  match kind with
  | PopKind.try_pop =>
    let r := q.try_pop item
    if r.1 then some (r.2.1, r.2.2) else none
  | PopKind.wait_and_pop => q.wait_and_pop

/-- Successive pops of the given kinds into one variable: the items obtained,
in order, and the queue left; `none` when one of the pops obtains nothing. -/
def ThreadSafeQueue.pops {T : Type} :
    List PopKind → ThreadSafeQueue T → T → Option (List T × ThreadSafeQueue T)
  | [], q, _ => some ([], q)
  | kind :: kinds, q, item =>
    match q.pop kind item with
    | none => none
    | some (x, q1) =>
      match ThreadSafeQueue.pops kinds q1 x with
      | none => none
      | some (xs, q2) => some (x :: xs, q2)

/-- Successive pushes of the given items by one thread. -/
def ThreadSafeQueue.push_all {T : Type} (q : ThreadSafeQueue T) (items : List T) :
    ThreadSafeQueue T :=
  items.foldl ThreadSafeQueue.push q

/-! ## The text processor: `TextProcessor`

A file is a string of one-byte characters, so that its size is its length.
`process_chunk` is not modelled: its value is discarded and it has no effect.
Neither is `write_analysis_report`, which only writes the report file. -/

/-- The lines that a loop `while (std::getline(stream, line))` reads from the
rest of a stream, `current` being the part already read of the line under way.
A line ends at a newline, which is dropped; what follows the last newline is
one more line when it is not empty. -/
def getlines_from (current : List Char) : List Char → List (List Char)
  | [] => if current.isEmpty then [] else [current]
  | c :: rest =>
    if c = '\n' then current :: getlines_from [] rest
    else getlines_from (current ++ [c]) rest

/-- The lines `std::getline` reads from a stream over `text`. -/
def getlines (text : String) : List String :=
  (getlines_from [] text.data).map String.mk

/-- The class `TextProcessor`: the members `chunk_size_` and, from the base
class, `output_directory_`. -/
structure TextProcessor where
  chunk_size_ : Nat
  output_directory_ : String
deriving DecidableEq, Repr

/-- What the text processor takes from the standard library: the file system
queries, `std::ifstream` (`open_file p` is the content read from `p` when the
file opens) and the decomposition and composition of `fs::path`. -/
structure TextEnv where
  fs : FileSystem
  open_file : String → Option String
  stem : String → String
  extension : String → String
  join : String → String → String

/-- The statistics `TextProcessor::TextStats`; `word_frequency` lists the
entries of the map. -/
structure TextStats where
  lines : Nat
  words : Nat
  characters : Nat
  paragraphs : Nat
  word_frequency : List (String × Nat)
deriving DecidableEq, Repr

/-- Method `TextProcessor::is_word_char`: `isalnum(c) || c == '_' || c == '-'`. -/
def is_word_char (c : Char) : Bool :=
  c.isAlphanum || c == '_' || c == '-'

/-- The loop of `TextProcessor::tokenize` over the rest of the text, with the
final push after it; `current_word` is the word under way. -/
def tokenize_from (current_word : List Char) : List Char → List String
  | [] => if current_word.isEmpty then [] else [String.mk current_word]
  | c :: rest =>
    if is_word_char c then tokenize_from (current_word ++ [c]) rest
    else if current_word.isEmpty then tokenize_from [] rest
    else String.mk current_word :: tokenize_from [] rest

/-- Method `TextProcessor::tokenize`. -/
def tokenize (text : String) : List String :=
  tokenize_from [] text.data

/-- Method `TextProcessor::to_lower`: `::tolower` on every character. -/
def to_lower (str : String) : String :=
  str.map Char.toLower

/-- The statement `word_frequency[word]++` on the entries of the map. -/
def count_word : List (String × Nat) → String → List (String × Nat)
  | [], word => [(word, 1)]
  | (key, n) :: rest, word =>
    if key = word then (key, n + 1) :: rest else (key, n) :: count_word rest word

/-- The body of the loop of `TextProcessor::analyze_text` for one line, on the
statistics so far and the flag `in_paragraph`. -/
def analyze_line (acc : TextStats × Bool) (line : String) : TextStats × Bool :=
  let stats := { acc.1 with lines := acc.1.lines + 1 }
  if line.isEmpty then
    if acc.2 then ({ stats with paragraphs := stats.paragraphs + 1 }, false)
    else (stats, acc.2)
  else
    let words := tokenize line
    ({ stats with
        words := stats.words + words.length
        word_frequency := words.foldl (fun freq word => count_word freq (to_lower word))
          stats.word_frequency },
      true)

/-- Method `TextProcessor::analyze_text`. -/
def analyze_text (content : String) : TextStats :=
  let start : TextStats :=
    { lines := 0, words := 0, characters := content.length, paragraphs := 0, word_frequency := [] }
  let r := (getlines content).foldl analyze_line (start, false)
  if r.2 then { r.1 with paragraphs := r.1.paragraphs + 1 } else r.1

/-- Method `FileProcessor::get_output_path(input_path, suffix)`: the stem of the
input, the suffix and the extension of the input, under the output directory. -/
def TextProcessor.get_output_path (tp : TextProcessor) (te : TextEnv) (input_path suffix : String) :
    String :=
  te.join tp.output_directory_ (te.stem input_path ++ suffix ++ te.extension input_path)

/-- The reading loop of `TextProcessor::process_impl` over the lines still to
read, with the chunk `content` gathered so far and the counter
`processed_bytes`: the calls of `notify_progress` it makes. -/
def TextProcessor.read_loop (chunk_size_ : Nat) (filepath : String) (total_bytes : Nat) :
    List String → String → Nat → List ProgressCall
  | [], _, _ => []
  | line :: rest, content, processed_bytes =>
    if (content ++ (line ++ "\n")).length ≥ chunk_size_ then
      { filepath := filepath
        processed := processed_bytes + (line.length + 1)
        total := total_bytes
        status := "processing" } ::
        TextProcessor.read_loop chunk_size_ filepath total_bytes rest ""
          (processed_bytes + (line.length + 1))
    else
      TextProcessor.read_loop chunk_size_ filepath total_bytes rest (content ++ (line ++ "\n"))
        (processed_bytes + (line.length + 1))

/-- Method `TextProcessor::process_impl(filepath)`, as one run of the step: a
file that does not open gives a failed record and no event; `fs::file_size`
may raise; otherwise the reading loop makes its calls and the record carries
the statistics of the whole content. -/
def TextProcessor.process_impl (tp : TextProcessor) (te : TextEnv) (filepath : String) : StepRun :=
  match te.open_file filepath with
  | none =>
    { calls := []
      outcome := .ok { ProcessResult.default with message := "Cannot open file: " ++ filepath } }
  | some text =>
    match te.fs.file_size filepath with
    | .error e => { calls := [], outcome := .error e }
    | .ok total_bytes =>
      let stats := analyze_text text
      { calls := TextProcessor.read_loop tp.chunk_size_ filepath total_bytes (getlines text) "" 0
        outcome := .ok
          { ProcessResult.default with
            success := true
            message := "Text processing completed"
            metadata :=
              [("lines", toString stats.lines), ("words", toString stats.words),
                ("characters", toString stats.characters),
                ("output_file", tp.get_output_path te filepath "_analysis")] } }

/-- Method `process` of a `TextProcessor`: the pipeline of the base class with
`TextProcessor::process_impl` as its step. -/
def TextProcessor.process {σ : Type} (tp : TextProcessor) (env : Observers σ) (te : TextEnv)
    (elapsed : Nat) (filepath : String) (b : Bus σ) : ProcessResult × Bus σ :=
  FileProcessorSpec.process env te.fs (tp.process_impl te) elapsed filepath b

/-- The file name of a path, as `fs::path::filename` gives it: what follows the
last slash. -/
def path_filename (p : String) : List Char :=
  (p.data.reverse.takeWhile (fun c => c != '/')).reverse

/-- The extension of a path, as `fs::path::extension` gives it: the part of the
file name from its last dot on, and nothing when the file name has no dot, is
`.` or `..`, or has its only dot in front. -/
def path_extension (p : String) : String :=
  let name := path_filename p
  let tail := (name.reverse.takeWhile (fun c => c != '.')).reverse
  if name.contains '.' = false ∨ name = ['.'] ∨ name = ['.', '.'] ∨ tail.length + 1 = name.length
  then ""
  else String.mk ('.' :: tail)

/-- The stem of a path, as `fs::path::stem` gives it: the file name without its
extension. -/
def path_stem (p : String) : String :=
  String.mk ((path_filename p).take ((path_filename p).length - (path_extension p).length))

/-- The path `fs::path(dir) / name` as a string: `name` alone when it is
absolute, and otherwise `dir` followed by `name`, with a separator between the
two when `dir` has a file name, that is, is not empty and does not end with a
separator. -/
def path_join (dir name : String) : String :=
  if ['/'].isPrefixOf name.data then name
  else if dir.data = [] ∨ dir.data.getLast? = some '/' then dir ++ name
  else dir ++ "/" ++ name

/-- The standard library over a disk given by the content of each regular
file. -/
def TextEnv.of_files (files : String → Option String) : TextEnv :=
  { fs :=
      { «exists» := fun p => .ok (files p).isSome
        file_size := fun p =>
          match files p with
          | some text => .ok text.length
          | none => .error ⟨"filesystem error: cannot get file size"⟩ }
    open_file := files
    stem := path_stem
    extension := path_extension
    join := path_join }

/-! ## The configuration: `Config` -/

/-- The class `Config`: the entries of the map `config_map_`.  A key is looked
up from the front, so that the first entry with a key is the entry of that
key. -/
structure Config where
  config_map_ : List (String × String)
deriving DecidableEq, Repr

/-- The lookup `config_map_.find(key)`: the value stored, `none` for `end()`. -/
def Config.find (c : Config) (key : String) : Option String :=
  (c.config_map_.find? (fun entry => entry.1 == key)).map (fun entry => entry.2)

/-- The assignment `config_map_[key] = value` on the entries. -/
def map_assign : List (String × String) → String → String → List (String × String)
  | [], key, value => [(key, value)]
  | (k, v) :: rest, key, value =>
    if k = key then (k, value) :: rest else (k, v) :: map_assign rest key value

/-- Method `Config::set`. -/
def Config.set (c : Config) (key value : String) : Config :=
  { config_map_ := map_assign c.config_map_ key value }

/-- Method `Config::has`. -/
def Config.has (c : Config) (key : String) : Bool :=
  (c.find key).isSome

/-- Method `Config::get<std::string>`: the default for a key that is absent,
the stored value otherwise. -/
def Config.get_string (c : Config) (key : String) (default_value : String) : String :=
  match c.find key with
  | none => default_value
  | some value => value

/-- The conversion `convertValue<bool>`:
`value == "true" || value == "1" || value == "yes"`. -/
def convert_bool (value : String) : Bool :=
  value == "true" || value == "1" || value == "yes"

/-- Method `Config::get<bool>`. -/
def Config.get_bool (c : Config) (key : String) (default_value : Bool) : Bool :=
  match c.find key with
  | none => default_value
  | some value => convert_bool value

/-- Method `Config::get<T>` for a type converted by a library function that
may raise (`std::stoi` for `int`, `std::stod` for `double`), the function being
given. -/
def Config.get_converted {T : Type} (convert : String → Except StdException T) (c : Config)
    (key : String) (default_value : T) : Except StdException T :=
  match c.find key with
  | none => .ok default_value
  | some value => convert value

/-! ## The extensions of the text processor, and the end of `main` -/

/-- The set `supported_extensions` of `TextProcessor::canProcess`. -/
def supported_extensions : List String :=
  [".txt", ".md", ".csv", ".log", ".json", ".xml", ".html", ".css", ".js"]

/-- Method `TextProcessor::canProcess`:
`supported_extensions.find(extension) != supported_extensions.end()`. -/
def TextProcessor.canProcess (extension : String) : Bool :=
  supported_extensions.contains extension

/-- The counters of `ProcessingStats` that `main` updates. -/
structure ProcessingStats where
  files_processed : Nat
  bytes_processed : Nat
  errors : Nat
deriving DecidableEq, Repr

/-- The body of the loop of `main` over the futures, for the outcome of one
`future.get()`, on the counters and the lines handed to `Logger::error`.  A
record is counted, and counted as an error when it reports no success; a
failure raised by `get()` is caught and counted as an error. -/
def collect_outcome (acc : ProcessingStats × List String) (outcome : Outcome ProcessResult) :
    ProcessingStats × List String :=
  match outcome with
  | Outcome.value result =>
    let stats :=
      { acc.1 with
        files_processed := acc.1.files_processed + 1
        bytes_processed := acc.1.bytes_processed + result.bytes_processed }
    if !result.success then
      ({ stats with errors := stats.errors + 1 }, acc.2 ++ ["Processing failed: " ++ result.message])
    else (stats, acc.2)
  | Outcome.failure e =>
    ({ acc.1 with errors := acc.1.errors + 1 }, acc.2 ++ ["Task execution failed: " ++ e.what])

/-- The loop of `main` over the futures, from fresh counters. -/
def collect_outcomes (outcomes : List (Outcome ProcessResult)) : ProcessingStats × List String :=
  outcomes.foldl collect_outcome ({ files_processed := 0, bytes_processed := 0, errors := 0 }, [])

/-- The exit status of `main` once the files are collected, one outcome per
file: `1` when no file was found, otherwise
`stats.errors.load() > 0 ? 1 : 0` after the loop. -/
def exit_status (outcomes : List (Outcome ProcessResult)) : Nat :=
  if outcomes.isEmpty then 1
  else if (collect_outcomes outcomes).1.errors > 0 then 1 else 0

/-- An outcome that counts as a failed file: a record without success, or a
failure raised from the handle. -/
def Outcome.failed : Outcome ProcessResult → Bool
  | Outcome.value result => !result.success
  | Outcome.failure _ => true

/-! ## Reading the configuration: `trim`, `loadFromFile`, `loadFromCommandLine`

Strings are handled by their characters.  A `size_t` length is below `2 ^ 64`. -/

/-- The characters `Config::trim` strips: those of `" \t\r\n"`. -/
def is_trim_char (c : Char) : Bool :=
  c == ' ' || c == '\t' || c == '\r' || c == '\n'

/-- Method `Config::trim` on the characters of a string: what lies from the
first character not in `" \t\r\n"` (`find_first_not_of`) to the last such
character (`find_last_not_of`), and nothing when there is no such character. -/
def trim_chars (str : List Char) : List Char :=
  (str.dropWhile is_trim_char).rdropWhile is_trim_char

/-- Method `Config::trim`. -/
def trim (str : String) : String :=
  String.mk (trim_chars str.data)

/-- The character `std::string::front()` returns.  The call requires a string
that is not empty; on an empty one the library's `operator[](0)` yields the
terminating null character. -/
def string_front (str : List Char) : Char :=
  str.headD (Char.ofNat 0)

/-- The character `std::string::back()` returns, on a string that is not
empty. -/
def string_back (str : List Char) : Char :=
  str.getLastD (Char.ofNat 0)

/-- The count `value.length() - 2` in `size_t`, for a length below `2 ^ 64`:
below two it wraps around. -/
def length_minus_two (length : Nat) : Nat :=
  if 2 ≤ length then length - 2 else length + 2 ^ 64 - 2

/-- The configuration while a file is loaded, with the lines at which
`value.front()` was called on an empty `value`, against the requirement of
`front()`. -/
structure Loading where
  config : Config
  front_of_empty : List String
deriving DecidableEq, Repr

/-- The body of the loop of `Config::loadFromFile` for one line read by
`std::getline`.  The line is trimmed; an empty line and a line starting with
`#` are skipped; a line with `=` is split at the first one, key and value are
trimmed, the value loses its first and last character when both are double
quotes (the test calls `front()` before `back()`, whatever the value), and the
pair is stored; a line without `=` does nothing. -/
def Config.load_line (acc : Loading) (raw : String) : Loading :=
  let line := trim_chars raw.data
  match line with
  | [] => acc
  | first :: _ =>
    if first = '#' then acc
    else if line.contains '=' then
      let key := trim_chars (line.takeWhile (fun c => c != '='))
      let value := trim_chars ((line.dropWhile (fun c => c != '=')).drop 1)
      let stripped :=
        if string_front value = '"' ∧ string_back value = '"' then
          (value.drop 1).take (length_minus_two value.length)
        else value
      { config := acc.config.set (String.mk key) (String.mk stripped)
        front_of_empty :=
          if value.isEmpty then acc.front_of_empty ++ [raw] else acc.front_of_empty }
    else acc

/-- Method `Config::loadFromFile(filename)`: `false` and nothing done when the
file does not open, otherwise `true` after the loop over the lines. -/
def Config.loadFromFile (c : Config) (open_file : String → Option String) (filename : String) :
    Bool × Loading :=
  match open_file filename with
  | none => (false, { config := c, front_of_empty := [] })
  | some text =>
    (true, (getlines text).foldl Config.load_line { config := c, front_of_empty := [] })

/-- The switch of `Config::loadFromCommandLine` on a short option. -/
def set_short_option (c : Config) (short_opt : Char) (value : String) : Config :=
  if short_opt = 'i' then c.set "input" value
  else if short_opt = 'o' then c.set "output" value
  else if short_opt = 't' then c.set "threads" value
  else if short_opt = 'c' then c.set "config" value
  else if short_opt = 'v' then c.set "verbose" "true"
  else if short_opt = 's' then c.set "stats" "true"
  else if short_opt = 'h' then c.set "help" "true"
  else c

/-- Whether an argument starts with a dash, `starts_with("-")`. -/
def starts_with_dash (arg : String) : Bool :=
  ['-'].isPrefixOf arg.data

/-- Method `Config::loadFromCommandLine` on the arguments after `argv[0]`.  An
argument `--key=value` stores the pair; `--key` and `-x` take the next
argument as their value when there is one and it starts with no dash, and
`"true"` otherwise; the short options `v`, `s` and `h` store `"true"` whatever
the value taken; other arguments are skipped. -/
def Config.loadFromCommandLine : List String → Config → Config
  | [], c => c
  | arg :: rest, c =>
    if ['-', '-'].isPrefixOf arg.data then
      let key := arg.data.drop 2
      if key.contains '=' then
        Config.loadFromCommandLine rest
          (c.set (String.mk (key.takeWhile (fun ch => ch != '=')))
            (String.mk ((key.dropWhile (fun ch => ch != '=')).drop 1)))
      else
        match rest with
        | [] => c.set (String.mk key) "true"
        | next :: after =>
          if !starts_with_dash next then
            Config.loadFromCommandLine after (c.set (String.mk key) next)
          else Config.loadFromCommandLine (next :: after) (c.set (String.mk key) "true")
    else if starts_with_dash arg ∧ arg.length = 2 then
      match rest with
      | [] => set_short_option c (arg.data.getD 1 '-') "true"
      | next :: after =>
        if !starts_with_dash next then
          Config.loadFromCommandLine after (set_short_option c (arg.data.getD 1 '-') next)
        else
          Config.loadFromCommandLine (next :: after) (set_short_option c (arg.data.getD 1 '-') "true")
    else Config.loadFromCommandLine rest c

/-- The long form that the help text lists with a short option. -/
def long_form (arg : String) : String :=
  if arg = "-i" then "--input"
  else if arg = "-o" then "--output"
  else if arg = "-t" then "--threads"
  else if arg = "-c" then "--config"
  else if arg = "-v" then "--verbose"
  else if arg = "-s" then "--stats"
  else if arg = "-h" then "--help"
  else arg

/-! ### The reading of a configuration file, in the words of its description -/

/-- The value without its enclosing double quotes: when it starts and ends with
a double quote, its first and its last character are removed. -/
def spec_unquote (value : String) : String :=
  if value.data.head? = some '"' ∧ value.data.getLast? = some '"' then
    String.mk (value.data.drop 1).dropLast
  else value

/-- The key of a line: the text before its first `=`, trimmed. -/
def spec_key (line : String) : String :=
  trim (String.mk (line.data.takeWhile (fun c => c != '=')))

/-- The value of a line: the text after its first `=`, trimmed and without
enclosing double quotes. -/
def spec_value (line : String) : String :=
  spec_unquote (trim (String.mk ((line.data.dropWhile (fun c => c != '=')).drop 1)))

/-- What a line of the file does to the configuration: nothing when it is
blank or its first character that is not white space is `#`, nothing when it
has no `=`, and otherwise it stores its value under its key. -/
def spec_load_line (c : Config) (line : String) : Config :=
  if line.data.dropWhile is_trim_char = [] ∨
      (line.data.dropWhile is_trim_char).head? = some '#' then c
  else if '=' ∈ line.data then c.set (spec_key line) (spec_value line)
  else c

/-! ### The statistics of a text, in the words of their description -/

/-- The number of lines of a content: its newline-terminated lines, plus one
for what follows the last newline when that is not empty. -/
def spec_line_count (content : String) : Nat :=
  content.data.count '\n' +
    (if content.data ≠ [] ∧ content.data.getLast? ≠ some '\n' then 1 else 0)

/-- The number of maximal runs of consecutive non-empty lines: the lines that
are not empty and come first or after an empty line. -/
def spec_paragraphs (lines : List String) : Nat :=
  (("" :: lines).zip lines).countP (fun pair => pair.1.isEmpty && !pair.2.isEmpty)

/-- A maximal run of word characters of a text: a stretch of the text that is
not empty, made of word characters, with no word character next to it on
either side. -/
def MaximalRun (run text : List Char) : Prop :=
  run ≠ [] ∧ (∀ c ∈ run, is_word_char c = true) ∧
  ∃ before after, text = before ++ run ++ after ∧
    (∀ c, before.getLast? = some c → is_word_char c = false) ∧
    (∀ c, after.head? = some c → is_word_char c = false)

/-! ## A concrete setting for the examples

One attached observer that accepts every event, a file `a.txt` of three bytes
and nothing else on disk. -/

/-- The observers of the examples: all alive, none raising. -/
def quietObservers : Observers Unit :=
  { alive := fun _ => true, notify := fun _ _ w => (w, none) }

/-- The file system of the examples: only `a.txt` exists, with three bytes. -/
def oneFile : FileSystem :=
  { «exists» := fun p => .ok (p == "a.txt")
    file_size := fun p => if p == "a.txt" then .ok 3 else .error ⟨"filesystem error: cannot get file size"⟩ }

/-- The bus of the examples: observer `1` attached, nothing published yet. -/
def freshBus : Bus Unit :=
  { subject := { observers_ := [1] }, state := (), published := [], delivered := [], logged := [] }

/-- A step that raises `boom` after one `processing` event. -/
def raisingStep : String → StepRun := fun p =>
  { calls := [⟨p, 1, 3, "processing"⟩], outcome := .error ⟨"boom"⟩ }

/-- The pool of `test_exception_handling` once worker `0` has passed the head
of its loop: two workers, and one submitted item, which raises
`Test exception`. -/
def raisingPool : ThreadPool Nat :=
  ((ThreadPool.create 2).enqueue (Outcome.failure ⟨"Test exception"⟩)).2.run_workers [0]

/-- One worker, one submitted item; the worker has tested the stop flag and
popped the item, and has not yet run the `++active_tasks_` of its closure. -/
def racingPool : ThreadPool Nat :=
  (ThreadPool.create 1).run [Action.submit (Outcome.value 1), Action.step 0, Action.step 0]

/-- The five actions by which worker `i` takes one item from the head of its
loop back to the head of its loop. -/
def oneItem (i : Nat) : List (Action Nat) :=
  List.replicate 5 (Action.step i)

/-- The pool of `test_wait_for_all`, two workers and five submitted items,
after worker `0` has completed four of them and worker `1` has popped the
fifth and not yet counted it as active. -/
def racingPoolOfFive : ThreadPool Nat :=
  (ThreadPool.create 2).run
    (List.replicate 5 (Action.submit (Outcome.value 1)) ++
      (oneItem 0 ++ oneItem 0 ++ oneItem 0 ++ oneItem 0) ++ [Action.step 1, Action.step 1])

/-- A pool with a submitted item that worker `0` has popped, shut down while
worker `1` is idle. -/
def busyPool : ThreadPool Nat :=
  (ThreadPool.create 2).run [Action.submit (Outcome.value 1), Action.submit (Outcome.value 2),
    Action.step 0, Action.step 0]

/-- The submissions of `test_multiple_tasks`, item `i` returning `i * i`, with
worker `1` taking three actions after the fourth submission. -/
def tenSquares : List (Action Nat) :=
  (List.range 4).map (fun i => Action.submit (Outcome.value (i * i))) ++
    [Action.step 1, Action.step 1, Action.step 1] ++
    (List.range' 4 6).map (fun i => Action.submit (Outcome.value (i * i)))

/-- Observers of which number `2` raises `observer failed` on every event and
the others accept it; the joint state counts the calls made. -/
def oneRaising : Observers Nat :=
  { alive := fun _ => true
    notify := fun o _ w => (w + 1, if o = 2 then some ⟨"observer failed"⟩ else none) }

/-- Observers of which number `2` has been released by its last owner. -/
def oneReleased : Observers Unit :=
  { alive := fun o => o != 2, notify := fun _ _ w => (w, none) }

/-- An event to publish in the examples. -/
def sampleEvent : ProgressEvent := ProgressEvent.create "a.txt" 1 3 "processing"

/-- A disk with the single file `a.txt`, two lines of which the second has no
newline after it: five bytes. -/
def unterminatedDisk : TextEnv :=
  TextEnv.of_files (fun p => if p = "a.txt" then some "ab\ncd" else none)

/-- A text processor with chunks of four bytes. -/
def smallChunks : TextProcessor :=
  { chunk_size_ := 4, output_directory_ := "./output" }

/-- A step that publishes one `processing` event and returns a failed record. -/
def failingStep : String → StepRun := fun p =>
  { calls := [⟨p, 2, 3, "processing"⟩]
    outcome := .ok { ProcessResult.default with message := "Cannot open file: " ++ p,
                                                metadata := [("tried", "once")] } }

/-- The configuration of `test_config`. -/
def testConfig : Config :=
  (((({ config_map_ := [] } : Config).set "test_string" "hello").set "test_int" "42").set
    "test_bool" "true").set "test_double" "3.14"

/-- The file written by `create_test_config_file`. -/
def testConfigFile : String :=
  "# Test configuration file\nmax_threads=8\nchunk_size=2048\nverbose=true\noutput_dir=\"./test_output\"\n"

/-- A pool of one worker with two items queued, the worker at the head of its
loop. -/
def queuedPool : ThreadPool Nat :=
  (ThreadPool.create 1).run [Action.submit (Outcome.value 1), Action.submit (Outcome.value 2)]

/-! ## Lemmas on the bus log -/

theorem published_publish {σ : Type} (env : Observers σ) (b : Bus σ) (e : ProgressEvent) :
    (b.publish env e).published = b.published ++ [e] := rfl

theorem published_foldl {σ : Type} (env : Observers σ) (calls : List ProgressCall) (b : Bus σ) :
    (calls.foldl (notify_progress env) b).published =
      b.published ++ calls.map (fun c => ProgressEvent.create c.filepath c.processed c.total c.status) := by
  induction calls generalizing b with
  | nil => simp
  | cons c cs ih =>
    simp only [List.foldl_cons, List.map_cons]
    rw [ih]
    simp [notify_progress, published_publish]

theorem published_by_append {σ : Type} (before after : Bus σ) (es : List ProgressEvent)
    (h : after.published = before.published ++ es) : published_by before after = es := by
  simp [published_by, h]

theorem count_status_calls (status : String) (calls : List ProgressCall)
    (h : ∀ c ∈ calls, c.status ≠ status) :
    count_status status
      (calls.map (fun c => ProgressEvent.create c.filepath c.processed c.total c.status)) = 0 := by
  unfold count_status
  rw [List.countP_eq_zero]
  intro e he
  rcases List.mem_map.mp he with ⟨c, hc, rfl⟩
  simpa [ProgressEvent.create] using h c hc

/-- The events of one `process` call on an existing file whose step raises:
the `started` event and the step's own events, nothing after them. -/
theorem published_of_raise {σ : Type} (env : Observers σ) (fs : FileSystem)
    (process_impl : String → StepRun) (elapsed : Nat) (filepath : String) (b : Bus σ)
    (s : Nat) (e : StdException)
    (hex : fs.exists filepath = .ok true) (hsz : fs.file_size filepath = .ok s)
    (hout : (process_impl filepath).outcome = .error e) :
    published_by b (process env fs process_impl elapsed filepath b).2 =
      ProgressEvent.create filepath 0 s "started" ::
        (process_impl filepath).calls.map
          (fun c => ProgressEvent.create c.filepath c.processed c.total c.status) := by
  apply published_by_append
  simp [process, hex, hsz, hout, published_foldl, published_publish]

/-- The record of one `process` call on an existing file whose step raises. -/
theorem result_of_raise {σ : Type} (env : Observers σ) (fs : FileSystem)
    (process_impl : String → StepRun) (elapsed : Nat) (filepath : String) (b : Bus σ)
    (s : Nat) (e : StdException)
    (hex : fs.exists filepath = .ok true) (hsz : fs.file_size filepath = .ok s)
    (hout : (process_impl filepath).outcome = .error e) :
    (process env fs process_impl elapsed filepath b).1 =
      process_catch ProcessResult.default e elapsed := by
  simp [process, hex, hsz, hout]

/-- The events of one `process` call on an existing file whose step returns:
`started`, the step's own events, and one terminal event carrying the file
size twice. -/
theorem published_of_return {σ : Type} (env : Observers σ) (fs : FileSystem)
    (process_impl : String → StepRun) (elapsed : Nat) (filepath : String) (b : Bus σ)
    (s : Nat) (r : ProcessResult)
    (hex : fs.exists filepath = .ok true) (hsz : fs.file_size filepath = .ok s)
    (hout : (process_impl filepath).outcome = .ok r) :
    published_by b (process env fs process_impl elapsed filepath b).2 =
      ProgressEvent.create filepath 0 s "started" ::
        ((process_impl filepath).calls.map
          (fun c => ProgressEvent.create c.filepath c.processed c.total c.status) ++
        [ProgressEvent.create filepath s s (if r.success then "completed" else "failed")]) := by
  apply published_by_append
  simp [process, hex, hsz, hout, published_foldl, published_publish]

/-- The record of one `process` call on an existing file whose step returns:
the step's record with the file size and the elapsed time stamped on it. -/
theorem result_of_return {σ : Type} (env : Observers σ) (fs : FileSystem)
    (process_impl : String → StepRun) (elapsed : Nat) (filepath : String) (b : Bus σ)
    (s : Nat) (r : ProcessResult)
    (hex : fs.exists filepath = .ok true) (hsz : fs.file_size filepath = .ok s)
    (hout : (process_impl filepath).outcome = .ok r) :
    (process env fs process_impl elapsed filepath b).1 =
      { r with bytes_processed := s, processing_time := elapsed } := by
  simp [process, hex, hsz, hout]

/-! ## Theorems on the pipeline -/

/-- C1: for a path that does not exist, `process` returns a record with
`success = false` and a non-empty message, and the bus is left exactly as it
was: no event at all is published, in particular no `started` event. -/
theorem process_missing_path {σ : Type} (env : Observers σ) (fs : FileSystem)
    (process_impl : String → StepRun) (elapsed : Nat) (filepath : String) (b : Bus σ)
    (hex : fs.exists filepath = .ok false) :
    (process env fs process_impl elapsed filepath b).1.success = false ∧
    (process env fs process_impl elapsed filepath b).1.message ≠ "" ∧
    (process env fs process_impl elapsed filepath b).2 = b ∧
    published_by b (process env fs process_impl elapsed filepath b).2 = [] ∧
    count_status "started" (process env fs process_impl elapsed filepath b).2.published =
      count_status "started" b.published := by
  have hp : process env fs process_impl elapsed filepath b =
      ({ ProcessResult.default with message := "File does not exist: " ++ filepath }, b) := by
    simp [process, hex]
  rw [hp]
  refine ⟨rfl, ?_, rfl, by simp [published_by], rfl⟩
  intro h
  have hl := congrArg String.length h
  simp [String.length_append] at hl
  have : "File does not exist: ".length = 21 := by decide
  omega

theorem process_missing_path_witness :
    oneFile.exists "nonexistent_file.txt" = .ok false ∧
    (process quietObservers oneFile raisingStep 0 "nonexistent_file.txt" freshBus).1.success = false ∧
    (process quietObservers oneFile raisingStep 0 "nonexistent_file.txt" freshBus).1.message ≠ "" ∧
    (process quietObservers oneFile raisingStep 0 "nonexistent_file.txt" freshBus).2
      = freshBus ∧
    published_by freshBus
      (process quietObservers oneFile raisingStep 0 "nonexistent_file.txt" freshBus).2 = [] ∧
    count_status "started"
      (process quietObservers oneFile raisingStep 0 "nonexistent_file.txt" freshBus).2.published =
      count_status "started" freshBus.published :=
  ⟨rfl, process_missing_path quietObservers oneFile raisingStep 0 "nonexistent_file.txt"
    freshBus rfl⟩

/-- C2, at a step that raises: on the existing file `a.txt` the step publishes
one `processing` event and raises `boom`; the call publishes the `started`
event and the step's event and then no terminal event, neither `completed` nor
`failed`. -/
theorem process_raising_step_publishes_no_terminal_event :
    oneFile.exists "a.txt" = .ok true ∧
    oneFile.file_size "a.txt" = .ok 3 ∧
    (raisingStep "a.txt").outcome = .error ⟨"boom"⟩ ∧
    (published_by freshBus
      (process quietObservers oneFile raisingStep 0 "a.txt" freshBus).2).map (fun e => e.status)
      = ["started", "processing"] ∧
    count_status "started" (published_by freshBus
      (process quietObservers oneFile raisingStep 0 "a.txt" freshBus).2) = 1 ∧
    count_status "completed" (published_by freshBus
      (process quietObservers oneFile raisingStep 0 "a.txt" freshBus).2) = 0 ∧
    count_status "failed" (published_by freshBus
      (process quietObservers oneFile raisingStep 0 "a.txt" freshBus).2) = 0 := by
  have h := published_of_raise quietObservers oneFile raisingStep 0 "a.txt" freshBus 3 ⟨"boom"⟩
    rfl rfl rfl
  rw [h]
  refine ⟨rfl, rfl, rfl, ?_, ?_, ?_, ?_⟩ <;>
    simp [raisingStep, ProgressEvent.create, count_status]

/-- C3: on an existing file, when the step raises a failure with description
`d`, `process` returns a record (nothing is propagated) with `success = false`
whose message is `Processing failed: ` followed by `d`, so `d` occurs in it. -/
theorem process_step_raises {σ : Type} (env : Observers σ) (fs : FileSystem)
    (process_impl : String → StepRun) (elapsed : Nat) (filepath : String) (b : Bus σ)
    (s : Nat) (d : String)
    (hex : fs.exists filepath = .ok true) (hsz : fs.file_size filepath = .ok s)
    (hout : (process_impl filepath).outcome = .error ⟨d⟩) :
    (process env fs process_impl elapsed filepath b).1.success = false ∧
    (process env fs process_impl elapsed filepath b).1.message = "Processing failed: " ++ d ∧
    ∃ before after : String,
      (process env fs process_impl elapsed filepath b).1.message = before ++ d ++ after := by
  rw [result_of_raise env fs process_impl elapsed filepath b s ⟨d⟩ hex hsz hout]
  refine ⟨rfl, rfl, "Processing failed: ", "", ?_⟩
  simp [process_catch]

theorem process_step_raises_witness :
    oneFile.exists "a.txt" = .ok true ∧ oneFile.file_size "a.txt" = .ok 3 ∧
    (raisingStep "a.txt").outcome = .error ⟨"boom"⟩ ∧
    (process quietObservers oneFile raisingStep 7 "a.txt" freshBus).1.success = false ∧
    (process quietObservers oneFile raisingStep 7 "a.txt" freshBus).1.message
      = "Processing failed: " ++ "boom" ∧
    ∃ before after : String,
      (process quietObservers oneFile raisingStep 7 "a.txt" freshBus).1.message
        = before ++ "boom" ++ after :=
  ⟨rfl, rfl, rfl,
    process_step_raises quietObservers oneFile raisingStep 7 "a.txt" freshBus 3 "boom" rfl rfl rfl⟩

/-- C4, at a step that raises: `a.txt` is an existing regular file of three
bytes, the step raises `boom`, and the record returned has
`bytes_processed = 0`, not the file size `3`. -/
theorem process_raising_step_leaves_bytes_processed_zero :
    oneFile.exists "a.txt" = .ok true ∧
    oneFile.file_size "a.txt" = .ok 3 ∧
    (raisingStep "a.txt").outcome = .error ⟨"boom"⟩ ∧
    (process quietObservers oneFile raisingStep 0 "a.txt" freshBus).1.bytes_processed = 0 ∧
    (process quietObservers oneFile raisingStep 0 "a.txt" freshBus).1.bytes_processed ≠ 3 := by
  rw [result_of_raise quietObservers oneFile raisingStep 0 "a.txt" freshBus 3 ⟨"boom"⟩ rfl rfl rfl]
  refine ⟨rfl, rfl, rfl, rfl, ?_⟩
  simp [process_catch, ProcessResult.default]

/-! ## Lemmas on the pool -/

theorem worker_step_stop {α : Type} (i : Nat) (s : ThreadPool α) :
    (s.worker_step i).stop_ = s.stop_ := by
  unfold ThreadPool.worker_step
  split
  · rfl
  · split <;> rfl
  · split <;> rfl
  · rfl
  · split <;> rfl
  · rfl
  · rfl

theorem run_workers_stop {α : Type} (schedule : List Nat) (s : ThreadPool α) :
    (s.run_workers schedule).stop_ = s.stop_ := by
  induction schedule generalizing s with
  | nil => rfl
  | cons i rest ih =>
    simp only [ThreadPool.run_workers, List.foldl_cons] at ih ⊢
    rw [ih, worker_step_stop]

theorem iterate_worker_step_stop {α : Type} (i n : Nat) (s : ThreadPool α) :
    ((ThreadPool.worker_step i)^[n] s).stop_ = s.stop_ := by
  induction n generalizing s with
  | zero => rfl
  | succ n ih => rw [Function.iterate_succ_apply, ih, worker_step_stop]

theorem join_stop {α : Type} (i : Nat) (s : ThreadPool α) : (s.join i).stop_ = s.stop_ := by
  simp only [ThreadPool.join]
  exact iterate_worker_step_stop i 5 s

theorem foldl_join_stop {α : Type} (l : List Nat) (s : ThreadPool α) :
    (l.foldl (fun acc i => acc.join i) s).stop_ = s.stop_ := by
  induction l generalizing s with
  | nil => rfl
  | cons i rest ih => rw [List.foldl_cons, ih, join_stop]

/-- After `shutdown` the stop flag is set, whatever the pool was. -/
theorem shutdown_stop {α : Type} (schedule : List Nat) (s : ThreadPool α) :
    (s.shutdown schedule).stop_ = true := by
  unfold ThreadPool.shutdown
  split
  · assumption
  · simp [foldl_join_stop, run_workers_stop]

/-- On a pool that was not stopped, `shutdown` leaves no worker thread. -/
theorem shutdown_workers {α : Type} (schedule : List Nat) (s : ThreadPool α)
    (h : s.stop_ = false) : (s.shutdown schedule).workers_ = [] := by
  simp [ThreadPool.shutdown, h]

theorem set_getElem?_self {β : Type} (l : List β) (i : Nat) (x a : β) (h : l[i]? = some x) :
    (l.set i a)[i]? = some a := by
  have hi : i < l.length := by
    rcases List.getElem?_eq_some.mp h with ⟨hi, _⟩
    exact hi
  simp [hi]

theorem step_try_pop_cons {α : Type} (i : Nat) (s : ThreadPool α) (t : Task α) (rest : List (Task α))
    (h : s.workers_[i]? = some Worker.try_pop) (hq : s.tasks_.queue_ = t :: rest) :
    s.worker_step i =
      { s with tasks_ := { queue_ := rest }, workers_ := s.workers_.set i (Worker.call t) } := by
  simp [ThreadPool.worker_step, h, hq]

theorem step_call {α : Type} (i : Nat) (s : ThreadPool α) (t : Task α)
    (h : s.workers_[i]? = some (Worker.call t)) :
    s.worker_step i =
      { s with active_tasks_ := s.active_tasks_ + 1, workers_ := s.workers_.set i (Worker.invoke t) } := by
  simp [ThreadPool.worker_step, h]

theorem step_invoke {α : Type} (i : Nat) (s : ThreadPool α) (t : Task α)
    (h : s.workers_[i]? = some (Worker.invoke t)) :
    s.worker_step i =
      { s with
        shared := s.shared ++ [(t.handle, t.work)]
        executed := s.executed ++ [t.handle]
        workers_ := s.workers_.set i Worker.finish } := by
  simp [ThreadPool.worker_step, h, packaged_task_call]

theorem step_finish {α : Type} (i : Nat) (s : ThreadPool α)
    (h : s.workers_[i]? = some Worker.finish) :
    s.worker_step i =
      { s with active_tasks_ := s.active_tasks_ - 1, workers_ := s.workers_.set i Worker.loop_head } := by
  simp [ThreadPool.worker_step, h]

theorem step_loop_head {α : Type} (i : Nat) (s : ThreadPool α)
    (h : s.workers_[i]? = some Worker.loop_head) (hs : s.stop_ = false) :
    s.worker_step i = { s with workers_ := s.workers_.set i Worker.try_pop } := by
  simp [ThreadPool.worker_step, h, hs]

/-! ## Theorems on the pool -/

/-- C5: on a pool on which `shutdown` has been called, `enqueue` fails with
the error `enqueue on stopped ThreadPool`: the caller gets no handle, and the
pool, its pending queue included, is exactly as it was. -/
theorem enqueue_after_shutdown {α : Type} (schedule : List Nat) (s : ThreadPool α)
    (work : Outcome α) :
    (s.shutdown schedule).enqueue work =
      (Except.error ⟨"enqueue on stopped ThreadPool"⟩, s.shutdown schedule) ∧
    ((s.shutdown schedule).enqueue work).2.tasks_ = (s.shutdown schedule).tasks_ ∧
    ((s.shutdown schedule).enqueue work).2.pending_count = (s.shutdown schedule).pending_count := by
  have h : (s.shutdown schedule).enqueue work =
      (Except.error ⟨"enqueue on stopped ThreadPool"⟩, s.shutdown schedule) := by
    simp [ThreadPool.enqueue, shutdown_stop]
  rw [h]
  exact ⟨rfl, rfl, rfl⟩

/-- C9: `shutdown` is idempotent.  A second call, under any schedule, returns
the pool the first call left: same queue, same number of joins made (the second
call joins nothing), stop flag set; and a pool that held no threads when it was
already stopped holds none after the first call. -/
theorem shutdown_idempotent {α : Type} (first second : List Nat) (s : ThreadPool α) :
    (s.shutdown first).shutdown second = s.shutdown first ∧
    ((s.shutdown first).shutdown second).stop_ = true ∧
    ((s.shutdown first).shutdown second).tasks_ = (s.shutdown first).tasks_ ∧
    ((s.shutdown first).shutdown second).joined = (s.shutdown first).joined ∧
    ((s.stop_ = true → s.workers_ = []) →
      (s.shutdown first).workers_ = [] ∧ ((s.shutdown first).shutdown second).workers_ = []) := by
  have h : (s.shutdown first).shutdown second = s.shutdown first := by
    generalize hs1 : s.shutdown first = s1
    have hstop : s1.stop_ = true := by rw [← hs1]; exact shutdown_stop first s
    simp [ThreadPool.shutdown, hstop]
  rw [h]
  refine ⟨rfl, shutdown_stop first s, rfl, rfl, ?_⟩
  intro hwf
  cases hst : s.stop_ with
  | false => exact ⟨shutdown_workers first s hst, shutdown_workers first s hst⟩
  | true =>
    have : s.shutdown first = s := by simp [ThreadPool.shutdown, hst]
    rw [this]
    exact ⟨hwf hst, hwf hst⟩

/-- C6: a worker about to poll, with at the front of the queue the closure of
an item that raises `e`.  The packaged task lets nothing escape into the worker
loop; after the worker's four actions (pop, count, run, uncount) nothing was
logged by the loop's `catch`, the handle is resolved to the failure `e`, the
item was run once, the active count is what it was, the item is off the queue
and the worker is back at the head of its loop, from which, the pool not being
stopped, it polls again. -/
theorem worker_survives_raising_item {α : Type} (i : Nat) (s : ThreadPool α) (handle : Nat)
    (e : StdException) (rest : List (Task α))
    (hw : s.workers_[i]? = some Worker.try_pop)
    (hq : s.tasks_.queue_ = { handle := handle, work := Outcome.failure e } :: rest) :
    (packaged_task_call (Outcome.failure e : Outcome α)).2 = none ∧
    (s.run_workers [i, i, i, i]).logged = s.logged ∧
    (s.run_workers [i, i, i, i]).shared = s.shared ++ [(handle, Outcome.failure e)] ∧
    (s.run_workers [i, i, i, i]).executed = s.executed ++ [handle] ∧
    (s.run_workers [i, i, i, i]).active_tasks_ = s.active_tasks_ ∧
    (s.run_workers [i, i, i, i]).tasks_.queue_ = rest ∧
    (s.run_workers [i, i, i, i]).workers_[i]? = some Worker.loop_head ∧
    (s.future_get handle = none →
      (s.run_workers [i, i, i, i]).future_get handle = some (Outcome.failure e)) ∧
    (s.stop_ = false →
      (s.run_workers [i, i, i, i, i]).workers_[i]? = some Worker.try_pop) := by
  have h1 := step_try_pop_cons i s _ rest hw hq
  have hw1 : (s.worker_step i).workers_[i]? =
      some (Worker.call { handle := handle, work := Outcome.failure e }) := by
    rw [h1]; exact set_getElem?_self _ _ _ _ hw
  have h2 := step_call i _ _ hw1
  have hw2 : ((s.worker_step i).worker_step i).workers_[i]? =
      some (Worker.invoke { handle := handle, work := Outcome.failure e }) := by
    rw [h2]; exact set_getElem?_self _ _ _ _ hw1
  have h3 := step_invoke i _ _ hw2
  have hw3 : (((s.worker_step i).worker_step i).worker_step i).workers_[i]? =
      some Worker.finish := by
    rw [h3]; exact set_getElem?_self _ _ _ _ hw2
  have h4 := step_finish i _ hw3
  have hw4 : ((((s.worker_step i).worker_step i).worker_step i).worker_step i).workers_[i]? =
      some Worker.loop_head := by
    rw [h4]; exact set_getElem?_self _ _ _ _ hw3
  have hrun4 : s.run_workers [i, i, i, i] =
      (((s.worker_step i).worker_step i).worker_step i).worker_step i := by
    simp only [ThreadPool.run_workers, List.foldl_cons, List.foldl_nil]
  have hrun5 : s.run_workers [i, i, i, i, i] =
      ((((s.worker_step i).worker_step i).worker_step i).worker_step i).worker_step i := by
    simp only [ThreadPool.run_workers, List.foldl_cons, List.foldl_nil]
  have hshared : (s.run_workers [i, i, i, i]).shared = s.shared ++ [(handle, Outcome.failure e)] := by
    rw [hrun4, h4, h3, h2, h1]
  refine ⟨rfl, ?_, hshared, ?_, ?_, ?_, ?_, ?_, ?_⟩
  · rw [hrun4, h4, h3, h2, h1]
  · rw [hrun4, h4, h3, h2, h1]
  · rw [hrun4, h4, h3, h2, h1]; simp
  · rw [hrun4, h4, h3, h2, h1]
  · rw [hrun4]; exact hw4
  · intro hnone
    have hfind : s.shared.find? (fun r => r.1 == handle) = none := by
      simpa [ThreadPool.future_get] using hnone
    simp [ThreadPool.future_get, hshared, List.find?_append, hfind]
  · intro hstop
    have hstop4 : ((((s.worker_step i).worker_step i).worker_step i).worker_step i).stop_ = false := by
      simp [worker_step_stop, hstop]
    rw [hrun5, step_loop_head i _ hw4 hstop4]
    exact set_getElem?_self _ _ _ _ hw4

theorem worker_survives_raising_item_witness :
    raisingPool.workers_[0]? = some Worker.try_pop ∧
    raisingPool.tasks_.queue_ = [{ handle := 0, work := Outcome.failure ⟨"Test exception"⟩ }] ∧
    (raisingPool.run_workers [0, 0, 0, 0]).logged = raisingPool.logged ∧
    (raisingPool.run_workers [0, 0, 0, 0]).shared =
      raisingPool.shared ++ [(0, Outcome.failure ⟨"Test exception"⟩)] ∧
    (raisingPool.run_workers [0, 0, 0, 0]).active_tasks_ = raisingPool.active_tasks_ ∧
    (raisingPool.run_workers [0, 0, 0, 0]).workers_[0]? = some Worker.loop_head :=
  have h := worker_survives_raising_item 0 raisingPool 0 ⟨"Test exception"⟩ []
    (by decide) (by decide)
  ⟨by decide, by decide, h.2.1, h.2.2.1, h.2.2.2.2.1, h.2.2.2.2.2.2.1⟩

set_option maxRecDepth 8000 in
/-- C8, at the race: with one worker and one submitted item, once the worker
has popped the item and before it has counted it as active, the queue is empty
and the active count is `0`, so `wait_for_all` returns, while the item has not
run and its handle is unresolved.  The same happens in the setting of
`test_wait_for_all`: the call returns with four of the five items run. -/
theorem wait_for_all_returns_before_popped_item_ran :
    (racingPool.submitted.length = 1 ∧
      racingPool.workers_ = [Worker.call { handle := 0, work := Outcome.value 1 }] ∧
      racingPool.pending_count = 0 ∧ racingPool.active_count = 0 ∧
      racingPool.wait_for_all = some racingPool ∧
      racingPool.executed = [] ∧ racingPool.future_get 0 = none) ∧
    (racingPoolOfFive.submitted.length = 5 ∧
      racingPoolOfFive.wait_for_all = some racingPoolOfFive ∧
      racingPoolOfFive.executed = [0, 1, 2, 3] ∧
      racingPoolOfFive.executed.length ≠ 5 ∧
      racingPoolOfFive.future_get 4 = none) := by
  refine ⟨by decide, ?_, ?_, ?_, ?_, ?_⟩ <;> decide

theorem shutdown_idempotent_witness :
    (busyPool.shutdown [1]).shutdown [0] = busyPool.shutdown [1] ∧
    (busyPool.shutdown [1]).workers_ = [] ∧
    ((busyPool.shutdown [1]).shutdown [0]).workers_ = [] ∧
    ((busyPool.shutdown [1]).shutdown [0]).joined = 2 :=
  have h := shutdown_idempotent [1] [0] busyPool
  ⟨h.1, (h.2.2.2.2 (by decide)).1, (h.2.2.2.2 (by decide)).2, by decide⟩

/-! ## Theorems on the bus -/

/-- The observers called by the loop of `notify_all` are the live entries of
the list it walks, in order, and the list it leaves is the same. -/
theorem notify_loop_live {σ : Type} (env : Observers σ) (event : ProgressEvent)
    (l : List Nat) (w : σ) :
    (notify_loop env event l w).notified = l.filter env.alive ∧
    (notify_loop env event l w).observers_ = l.filter env.alive := by
  induction l generalizing w with
  | nil => exact ⟨rfl, rfl⟩
  | cons o rest ih =>
    cases ho : env.alive o with
    | true => simp [notify_loop, ho, ih]
    | false => simp [notify_loop, ho, ih]

/-- C10: `notify_all(e)` calls the observers of the live entries of the stored
list, in the order of the list and once per entry, none skipped: the sequence
of observers notified is the stored list filtered to its live entries, however
many times an observer is attached; and what the bus records as delivered by
the call is `e`, once for each of these entries in that order. -/
theorem notify_all_delivers_in_order {σ : Type} (env : Observers σ) (s : Subject)
    (event : ProgressEvent) (w : σ) (b : Bus σ) :
    (s.notify_all env event w).notified = s.observers_.filter env.alive ∧
    (s.notify_all env event w).notified.length = s.observer_count env.alive ∧
    (∀ o, (s.notify_all env event w).notified.count o =
      (s.observers_.filter env.alive).count o) ∧
    (b.publish env event).delivered =
      b.delivered ++ (b.subject.observers_.filter env.alive).map (fun o => (o, event)) := by
  refine ⟨(notify_loop_live env event s.observers_ w).1, ?_, ?_, ?_⟩
  · simp [Subject.notify_all, (notify_loop_live env event s.observers_ w).1,
      Subject.observer_count, List.countP_eq_length_filter]
  · intro o
    simp [Subject.notify_all, (notify_loop_live env event s.observers_ w).1]
  · simp [Bus.publish, Subject.notify_all, (notify_loop_live env event b.subject.observers_ b.state).1]

/-! ## The invariant of the running pool -/

theorem coe_set_add {β : Type} (l : List β) (i : Nat) (a b : β) (h : l[i]? = some a) :
    ((l.set i b : List β) : Multiset β) + {a} = (l : Multiset β) + {b} := by
  induction l generalizing i with
  | nil => simp at h
  | cons x xs ih =>
    cases i with
    | zero =>
      simp at h
      subst h
      simp only [List.set_cons_zero, ← Multiset.cons_coe, Multiset.cons_add]
      rw [add_comm, Multiset.singleton_add, add_comm, Multiset.singleton_add, Multiset.cons_swap]
    | succ n =>
      simp at h
      simp only [List.set_cons_succ, ← Multiset.cons_coe, Multiset.cons_add, ih n h]

theorem coe_flatMap_set_add {β γ : Type} (f : β → List γ) (l : List β) (i : Nat) (a b : β)
    (h : l[i]? = some a) :
    (((l.set i b).flatMap f : List γ) : Multiset γ) + (f a : Multiset γ)
      = ((l.flatMap f : List γ) : Multiset γ) + (f b : Multiset γ) := by
  have := congrArg (fun m => Multiset.bind m (fun x => (f x : Multiset γ))) (coe_set_add l i a b h)
  simpa [Multiset.coe_bind] using this

theorem sum_map_set_add {β : Type} (g : β → Nat) (l : List β) (i : Nat) (a b : β)
    (h : l[i]? = some a) :
    ((l.set i b).map g).sum + g a = (l.map g).sum + g b := by
  have := congrArg (fun m => (Multiset.map g m).sum) (coe_set_add l i a b h)
  simpa using this

theorem getElem?_append_of_some {β : Type} (l : List β) (w : β) (i : Nat) (x : β)
    (hx : l[i]? = some x) : (l ++ [w])[i]? = some x := by
  have hlt : i < l.length := by
    rcases List.getElem?_eq_some.mp hx with ⟨hlt, _⟩
    exact hlt
  rw [List.getElem?_append_left hlt]
  exact hx

/-- Handles in flight after worker `i` moves from `a` to `b`. -/
theorem in_flight_handles_set {α : Type} (l : List (Worker α)) (i : Nat) (a b : Worker α)
    (h : l[i]? = some a) :
    ((((l.set i b).flatMap Worker.held).map Task.handle : List Nat) : Multiset Nat)
        + ((a.held.map Task.handle : List Nat) : Multiset Nat)
      = (((l.flatMap Worker.held).map Task.handle : List Nat) : Multiset Nat)
        + ((b.held.map Task.handle : List Nat) : Multiset Nat) := by
  have := congrArg (Multiset.map Task.handle) (coe_flatMap_set_add Worker.held l i a b h)
  simpa using this

theorem mem_in_flight_set {α : Type} (l : List (Worker α)) (i : Nat) (a b : Worker α)
    (h : l[i]? = some a) (t : Task α) (ht : t ∈ (l.set i b).flatMap Worker.held) :
    t ∈ l.flatMap Worker.held ∨ t ∈ b.held := by
  have hm : t ∈ (((l.set i b).flatMap Worker.held : List (Task α)) : Multiset (Task α))
      + (a.held : Multiset (Task α)) :=
    Multiset.mem_add.mpr (Or.inl (Multiset.mem_coe.mpr ht))
  rw [coe_flatMap_set_add Worker.held l i a b h] at hm
  rcases Multiset.mem_add.mp hm with h1 | h1
  · exact Or.inl (Multiset.mem_coe.mp h1)
  · exact Or.inr (Multiset.mem_coe.mp h1)

theorem mem_held_of_getElem? {α : Type} (l : List (Worker α)) (i : Nat) (a : Worker α)
    (h : l[i]? = some a) (t : Task α) (ht : t ∈ a.held) : t ∈ l.flatMap Worker.held := by
  rw [List.mem_flatMap]
  exact ⟨a, List.getElem?_mem h, ht⟩

theorem consistent_create {α : Type} (num_threads : Nat) :
    (ThreadPool.create num_threads : ThreadPool α).Consistent := by
  refine ⟨rfl, ?_, ?_, ?_, ?_, ?_, rfl⟩
  · intro w hw
    rw [ThreadPool.create, List.mem_replicate] at hw
    rw [hw.2]
    exact fun h => Worker.noConfusion h
  · have hf : ∀ n : Nat, (List.replicate n (Worker.loop_head : Worker α)).flatMap Worker.held = [] := by
      intro n
      induction n with
      | zero => rfl
      | succ n ih => simp [List.replicate_succ, Worker.held, ih]
    simp [ThreadPool.handles, ThreadPool.in_flight, ThreadPool.create, hf]
  · intro t ht
    simp [ThreadPool.create] at ht
  · intro t ht
    have hf : ∀ n : Nat, (List.replicate n (Worker.loop_head : Worker α)).flatMap Worker.held = [] := by
      intro n
      induction n with
      | zero => rfl
      | succ n ih => simp [List.replicate_succ, Worker.held, ih]
    simp [ThreadPool.in_flight, ThreadPool.create, hf] at ht
  · intro r hr
    simp [ThreadPool.create] at hr

theorem enqueue_running {α : Type} (s : ThreadPool α) (work : Outcome α) (h : s.stop_ = false) :
    s.enqueue work =
      (Except.ok s.submitted.length,
        { s with
          tasks_ := s.tasks_.push { handle := s.submitted.length, work := work }
          submitted := s.submitted ++ [work] }) := by
  simp [ThreadPool.enqueue, h]

theorem consistent_enqueue {α : Type} (s : ThreadPool α) (work : Outcome α)
    (hs : s.Consistent) : (s.enqueue work).2.Consistent := by
  rw [enqueue_running s work hs.running]
  refine ⟨hs.running, hs.no_exit, ?_, ?_, ?_, ?_, hs.executed_shared⟩
  · have h := hs.each_once
    simp only [ThreadPool.handles, ThreadPool.in_flight, ThreadSafeQueue.push] at h ⊢
    rw [List.length_append, List.length_singleton, Multiset.range_succ, ← h]
    simp only [List.map_append, List.map_cons, List.map_nil, ← Multiset.coe_add,
      Multiset.coe_singleton, ← Multiset.singleton_add]
    abel
  · intro t ht
    simp only [ThreadSafeQueue.push, List.mem_append, List.mem_singleton] at ht
    rcases ht with ht | ht
    · exact getElem?_append_of_some _ _ _ _ (hs.queued_work t ht)
    · subst ht
      simp
  · intro t ht
    exact getElem?_append_of_some _ _ _ _ (hs.held_work t ht)
  · intro r hr
    exact getElem?_append_of_some _ _ _ _ (hs.shared_work r hr)

theorem step_try_pop_nil {α : Type} (i : Nat) (s : ThreadPool α)
    (h : s.workers_[i]? = some Worker.try_pop) (hq : s.tasks_.queue_ = []) :
    s.worker_step i = { s with workers_ := s.workers_.set i Worker.loop_head } := by
  simp [ThreadPool.worker_step, h, hq]

theorem step_none {α : Type} (i : Nat) (s : ThreadPool α) (h : s.workers_[i]? = none) :
    s.worker_step i = s := by
  simp [ThreadPool.worker_step, h]

theorem step_exited {α : Type} (i : Nat) (s : ThreadPool α)
    (h : s.workers_[i]? = some Worker.exited) : s.worker_step i = s := by
  simp [ThreadPool.worker_step, h]

/-- A worker moves without taking or giving up a closure. -/
theorem consistent_move {α : Type} (s s1 : ThreadPool α) (i : Nat) (a b : Worker α)
    (hs : s.Consistent) (hw : s.workers_[i]? = some a) (hb : b ≠ Worker.exited)
    (hheld : b.held = a.held) (h1 : s1.workers_ = s.workers_.set i b)
    (h2 : s1.tasks_ = s.tasks_) (h3 : s1.stop_ = s.stop_) (h4 : s1.shared = s.shared)
    (h5 : s1.submitted = s.submitted) (h6 : s1.executed = s.executed) : s1.Consistent := by
  refine ⟨h3.trans hs.running, ?_, ?_, ?_, ?_, ?_, ?_⟩
  · intro w hmem
    rw [h1] at hmem
    rcases List.mem_or_eq_of_mem_set hmem with h | h
    · exact hs.no_exit w h
    · rw [h]; exact hb
  · have hset := in_flight_handles_set s.workers_ i a b hw
    rw [hheld] at hset
    have hx := add_right_cancel hset
    rw [h5, ← hs.each_once]
    simp only [ThreadPool.handles, ThreadPool.in_flight, h1, h2, h4, hx]
  · intro t ht
    rw [h2] at ht
    rw [h5]
    exact hs.queued_work t ht
  · intro t ht
    simp only [ThreadPool.in_flight, h1] at ht
    rw [h5]
    rcases mem_in_flight_set s.workers_ i a b hw t ht with h | h
    · exact hs.held_work t h
    · rw [hheld] at h
      exact hs.held_work t (mem_held_of_getElem? s.workers_ i a hw t h)
  · intro r hr
    rw [h4] at hr
    rw [h5]
    exact hs.shared_work r hr
  · rw [h6, h4]
    exact hs.executed_shared

/-- A worker pops the closure at the front of the queue. -/
theorem consistent_pop {α : Type} (s s1 : ThreadPool α) (i : Nat) (a b : Worker α) (t : Task α)
    (rest : List (Task α))
    (hs : s.Consistent) (hw : s.workers_[i]? = some a) (hb : b ≠ Worker.exited)
    (ha : a.held = []) (hheld : b.held = [t]) (hq : s.tasks_.queue_ = t :: rest)
    (h1 : s1.workers_ = s.workers_.set i b)
    (h2 : s1.tasks_.queue_ = rest) (h3 : s1.stop_ = s.stop_) (h4 : s1.shared = s.shared)
    (h5 : s1.submitted = s.submitted) (h6 : s1.executed = s.executed) : s1.Consistent := by
  refine ⟨h3.trans hs.running, ?_, ?_, ?_, ?_, ?_, ?_⟩
  · intro w hmem
    rw [h1] at hmem
    rcases List.mem_or_eq_of_mem_set hmem with h | h
    · exact hs.no_exit w h
    · rw [h]; exact hb
  · have hset := in_flight_handles_set s.workers_ i a b hw
    rw [hheld, ha] at hset
    simp only [List.map_nil, Multiset.coe_nil, add_zero, List.map_cons,
      Multiset.coe_singleton] at hset
    rw [h5, ← hs.each_once]
    simp only [ThreadPool.handles, ThreadPool.in_flight, h1, h2, h4, hq, hset, List.map_cons,
      ← Multiset.cons_coe, ← Multiset.singleton_add]
    abel
  · intro t1 ht
    rw [h2] at ht
    rw [h5]
    exact hs.queued_work t1 (by rw [hq]; exact List.mem_cons_of_mem _ ht)
  · intro t1 ht
    simp only [ThreadPool.in_flight, h1] at ht
    rw [h5]
    rcases mem_in_flight_set s.workers_ i a b hw t1 ht with h | h
    · exact hs.held_work t1 h
    · rw [hheld, List.mem_singleton] at h
      rw [h]
      exact hs.queued_work t (by rw [hq]; exact List.mem_cons_self _ _)
  · intro r hr
    rw [h4] at hr
    rw [h5]
    exact hs.shared_work r hr
  · rw [h6, h4]
    exact hs.executed_shared

/-- A worker runs the closure it holds. -/
theorem consistent_run {α : Type} (s s1 : ThreadPool α) (i : Nat) (a b : Worker α) (t : Task α)
    (hs : s.Consistent) (hw : s.workers_[i]? = some a) (hb : b ≠ Worker.exited)
    (ha : a.held = [t]) (hheld : b.held = [])
    (h1 : s1.workers_ = s.workers_.set i b)
    (h2 : s1.tasks_ = s.tasks_) (h3 : s1.stop_ = s.stop_)
    (h4 : s1.shared = s.shared ++ [(t.handle, t.work)])
    (h5 : s1.submitted = s.submitted) (h6 : s1.executed = s.executed ++ [t.handle]) :
    s1.Consistent := by
  have htin : t ∈ s.in_flight :=
    mem_held_of_getElem? s.workers_ i a hw t (by rw [ha]; exact List.mem_singleton_self t)
  refine ⟨h3.trans hs.running, ?_, ?_, ?_, ?_, ?_, ?_⟩
  · intro w hmem
    rw [h1] at hmem
    rcases List.mem_or_eq_of_mem_set hmem with h | h
    · exact hs.no_exit w h
    · rw [h]; exact hb
  · have hset := in_flight_handles_set s.workers_ i a b hw
    rw [hheld, ha] at hset
    simp only [List.map_nil, Multiset.coe_nil, add_zero, List.map_cons,
      Multiset.coe_singleton] at hset
    rw [h5, ← hs.each_once]
    simp only [ThreadPool.handles, ThreadPool.in_flight, h1, h2, h4, ← hset, List.map_append,
      List.map_cons, List.map_nil, ← Multiset.coe_add, Multiset.coe_singleton]
    abel
  · intro t1 ht
    rw [h2] at ht
    rw [h5]
    exact hs.queued_work t1 ht
  · intro t1 ht
    simp only [ThreadPool.in_flight, h1] at ht
    rw [h5]
    rcases mem_in_flight_set s.workers_ i a b hw t1 ht with h | h
    · exact hs.held_work t1 h
    · rw [hheld] at h
      exact absurd h (List.not_mem_nil _)
  · intro r hr
    rw [h4, List.mem_append, List.mem_singleton] at hr
    rw [h5]
    rcases hr with h | h
    · exact hs.shared_work r h
    · rw [h]
      exact hs.held_work t htin
  · rw [h6, h4, hs.executed_shared]
    simp

/-- Every atomic action of a worker keeps the invariant. -/
theorem consistent_worker_step {α : Type} (i : Nat) (s : ThreadPool α) (hs : s.Consistent) :
    (s.worker_step i).Consistent := by
  cases hw : s.workers_[i]? with
  | none => rw [step_none i s hw]; exact hs
  | some w =>
    cases w with
    | loop_head =>
      rw [step_loop_head i s hw hs.running]
      exact consistent_move s _ i _ Worker.try_pop hs hw (fun h => Worker.noConfusion h) rfl
        rfl rfl rfl rfl rfl rfl
    | try_pop =>
      cases hq : s.tasks_.queue_ with
      | nil =>
        rw [step_try_pop_nil i s hw hq]
        exact consistent_move s _ i _ Worker.loop_head hs hw (fun h => Worker.noConfusion h) rfl
          rfl rfl rfl rfl rfl rfl
      | cons t rest =>
        rw [step_try_pop_cons i s t rest hw hq]
        exact consistent_pop s _ i _ (Worker.call t) t rest hs hw (fun h => Worker.noConfusion h)
          rfl rfl hq rfl rfl rfl rfl rfl rfl
    | call t =>
      rw [step_call i s t hw]
      exact consistent_move s _ i _ (Worker.invoke t) hs hw (fun h => Worker.noConfusion h) rfl
        rfl rfl rfl rfl rfl rfl
    | invoke t =>
      rw [step_invoke i s t hw]
      exact consistent_run s _ i _ Worker.finish t hs hw (fun h => Worker.noConfusion h)
        rfl rfl rfl rfl rfl rfl rfl rfl
    | finish =>
      rw [step_finish i s hw]
      exact consistent_move s _ i _ Worker.loop_head hs hw (fun h => Worker.noConfusion h) rfl
        rfl rfl rfl rfl rfl rfl
    | exited => rw [step_exited i s hw]; exact hs

theorem worker_step_submitted {α : Type} (i : Nat) (s : ThreadPool α) :
    (s.worker_step i).submitted = s.submitted := by
  unfold ThreadPool.worker_step
  split
  · rfl
  · split <;> rfl
  · split <;> rfl
  · rfl
  · split <;> rfl
  · rfl
  · rfl

theorem worker_step_length {α : Type} (i : Nat) (s : ThreadPool α) :
    (s.worker_step i).workers_.length = s.workers_.length := by
  unfold ThreadPool.worker_step
  split
  · rfl
  · split <;> simp
  · split <;> simp
  · simp
  · split <;> simp
  · simp
  · rfl

/-- Every action of the client or of a worker keeps the invariant. -/
theorem consistent_act {α : Type} (s : ThreadPool α) (a : Action α) (hs : s.Consistent) :
    (s.act a).Consistent := by
  cases a with
  | submit work => exact consistent_enqueue s work hs
  | step i => exact consistent_worker_step i s hs

theorem act_submitted {α : Type} (s : ThreadPool α) (a : Action α) (hs : s.Consistent) :
    (s.act a).submitted = s.submitted ++ submissions [a] := by
  cases a with
  | submit work =>
    simp [ThreadPool.act, enqueue_running s work hs.running, submissions]
  | step i => simp [ThreadPool.act, worker_step_submitted, submissions]

theorem submissions_cons {α : Type} (a : Action α) (rest : List (Action α)) :
    submissions (a :: rest) = submissions [a] ++ submissions rest := by
  cases a <;> simp [submissions]

/-- Along any interleaving the invariant is kept and the items accepted are
those submitted, in order. -/
theorem consistent_run_actions {α : Type} (actions : List (Action α)) (s : ThreadPool α)
    (hs : s.Consistent) :
    (s.run actions).Consistent ∧
    (s.run actions).submitted = s.submitted ++ submissions actions ∧
    (s.run actions).workers_.length = s.workers_.length := by
  induction actions generalizing s with
  | nil => exact ⟨hs, by simp [ThreadPool.run, submissions], rfl⟩
  | cons a rest ih =>
    have h := ih (s.act a) (consistent_act s a hs)
    simp only [ThreadPool.run, List.foldl_cons] at h ⊢
    refine ⟨h.1, ?_, ?_⟩
    · rw [h.2.1, act_submitted s a hs, submissions_cons a rest, List.append_assoc]
    · rw [h.2.2]
      cases a with
      | submit work => simp [ThreadPool.act, enqueue_running s work hs.running]
      | step i => exact worker_step_length i s

theorem consistent_run_workers {α : Type} (schedule : List Nat) (s : ThreadPool α)
    (hs : s.Consistent) :
    (s.run_workers schedule).Consistent ∧
    (s.run_workers schedule).submitted = s.submitted := by
  induction schedule generalizing s with
  | nil => exact ⟨hs, rfl⟩
  | cons i rest ih =>
    have h := ih (s.worker_step i) (consistent_worker_step i s hs)
    simp only [ThreadPool.run_workers, List.foldl_cons] at h ⊢
    exact ⟨h.1, h.2.trans (worker_step_submitted i s)⟩

/-! ### What the invariant gives -/

theorem future_get_mem {α : Type} (s : ThreadPool α) (h : Nat) (out : Outcome α)
    (hget : s.future_get h = some out) : (h, out) ∈ s.shared := by
  simp only [ThreadPool.future_get, Option.map_eq_some'] at hget
  rcases hget with ⟨r, hr, hout⟩
  have hmem := List.mem_of_find?_eq_some hr
  have hp := List.find?_some hr
  simp only [beq_iff_eq] at hp
  rcases r with ⟨r1, r2⟩
  simp only at hp hout
  rw [← hp, ← hout]
  exact hmem

/-- A resolved handle holds the outcome of the item submitted under it. -/
theorem consistent_future_get {α : Type} (s : ThreadPool α) (hs : s.Consistent) (h : Nat)
    (out : Outcome α) (hget : s.future_get h = some out) : s.submitted[h]? = some out :=
  hs.shared_work (h, out) (future_get_mem s h out hget)

/-- No callable is run twice. -/
theorem consistent_executed_nodup {α : Type} (s : ThreadPool α) (hs : s.Consistent) :
    s.executed.Nodup := by
  have hle : ((s.shared.map Prod.fst : List Nat) : Multiset Nat) ≤ s.handles := by
    unfold ThreadPool.handles
    exact Multiset.le_add_left _ _
  have hnd : s.handles.Nodup := by
    rw [hs.each_once]
    exact Multiset.nodup_range _
  rw [hs.executed_shared]
  exact Multiset.coe_nodup.mp (Multiset.nodup_of_le hle hnd)

theorem mem_executed_iff {α : Type} (s : ThreadPool α) (hs : s.Consistent) (h : Nat) :
    h ∈ s.executed ↔ (s.future_get h).isSome = true := by
  rw [hs.executed_shared]
  simp only [ThreadPool.future_get, Option.isSome_map', List.find?_isSome, List.mem_map,
    beq_iff_eq, Prod.exists]

/-- With nothing queued and nothing in flight every handle issued is resolved,
to the outcome of its own item, and its callable has been run exactly once. -/
theorem consistent_all_done {α : Type} (s : ThreadPool α) (hs : s.Consistent)
    (hq : s.tasks_.queue_ = []) (hf : s.in_flight = []) (h : Nat) (out : Outcome α)
    (hsub : s.submitted[h]? = some out) :
    s.future_get h = some out ∧ s.executed.count h = 1 := by
  have hlt : h < s.submitted.length := by
    rcases List.getElem?_eq_some.mp hsub with ⟨hlt, _⟩
    exact hlt
  have hall : ((s.shared.map Prod.fst : List Nat) : Multiset Nat)
      = Multiset.range s.submitted.length := by
    rw [← hs.each_once]
    simp [ThreadPool.handles, hq, hf]
  have hmem : h ∈ s.executed := by
    rw [hs.executed_shared]
    have : h ∈ ((s.shared.map Prod.fst : List Nat) : Multiset Nat) := by
      rw [hall]
      exact Multiset.mem_range.mpr hlt
    exact Multiset.mem_coe.mp this
  refine ⟨?_, List.count_eq_one_of_mem (consistent_executed_nodup s hs) hmem⟩
  have hsome := (mem_executed_iff s hs h).mp hmem
  rcases Option.isSome_iff_exists.mp hsome with ⟨out1, hout1⟩
  have h1 := consistent_future_get s hs h out1 hout1
  rw [hsub] at h1
  rw [hout1, ← Option.some.inj h1]

/-! ### `join` waits long enough -/

theorem step_loop_head_stopped {α : Type} (i : Nat) (s : ThreadPool α)
    (h : s.workers_[i]? = some Worker.loop_head) (hs : s.stop_ = true) :
    s.worker_step i = { s with workers_ := s.workers_.set i Worker.exited } := by
  simp [ThreadPool.worker_step, h, hs]

theorem exited_stays {α : Type} (i n : Nat) (s : ThreadPool α)
    (h : s.workers_[i]? = some Worker.exited) :
    ((ThreadPool.worker_step i)^[n] s).workers_[i]? = some Worker.exited := by
  induction n generalizing s with
  | zero => exact h
  | succ n ih =>
    rw [Function.iterate_succ_apply, step_exited i s h]
    exact ih s h

theorem exits_from_loop_head {α : Type} (i n : Nat) (s : ThreadPool α)
    (h : s.workers_[i]? = some Worker.loop_head) (hs : s.stop_ = true) :
    ((ThreadPool.worker_step i)^[n + 1] s).workers_[i]? = some Worker.exited := by
  rw [Function.iterate_succ_apply]
  apply exited_stays
  rw [step_loop_head_stopped i s h hs]
  exact set_getElem?_self _ _ _ _ h

theorem exits_from_finish {α : Type} (i n : Nat) (s : ThreadPool α)
    (h : s.workers_[i]? = some Worker.finish) (hs : s.stop_ = true) :
    ((ThreadPool.worker_step i)^[n + 2] s).workers_[i]? = some Worker.exited := by
  rw [Function.iterate_succ_apply]
  apply exits_from_loop_head
  · rw [step_finish i s h]
    exact set_getElem?_self _ _ _ _ h
  · rw [worker_step_stop]; exact hs

theorem exits_from_invoke {α : Type} (i n : Nat) (s : ThreadPool α) (t : Task α)
    (h : s.workers_[i]? = some (Worker.invoke t)) (hs : s.stop_ = true) :
    ((ThreadPool.worker_step i)^[n + 3] s).workers_[i]? = some Worker.exited := by
  rw [Function.iterate_succ_apply]
  apply exits_from_finish
  · rw [step_invoke i s t h]
    exact set_getElem?_self _ _ _ _ h
  · rw [worker_step_stop]; exact hs

theorem exits_from_call {α : Type} (i n : Nat) (s : ThreadPool α) (t : Task α)
    (h : s.workers_[i]? = some (Worker.call t)) (hs : s.stop_ = true) :
    ((ThreadPool.worker_step i)^[n + 4] s).workers_[i]? = some Worker.exited := by
  rw [Function.iterate_succ_apply]
  apply exits_from_invoke _ _ _ t
  · rw [step_call i s t h]
    exact set_getElem?_self _ _ _ _ h
  · rw [worker_step_stop]; exact hs

theorem exits_from_try_pop {α : Type} (i n : Nat) (s : ThreadPool α)
    (h : s.workers_[i]? = some Worker.try_pop) (hs : s.stop_ = true) :
    ((ThreadPool.worker_step i)^[n + 5] s).workers_[i]? = some Worker.exited := by
  rw [Function.iterate_succ_apply]
  cases hq : s.tasks_.queue_ with
  | nil =>
    apply exits_from_loop_head i (n + 3)
    · rw [step_try_pop_nil i s h hq]
      exact set_getElem?_self _ _ _ _ h
    · rw [worker_step_stop]; exact hs
  | cons t rest =>
    apply exits_from_call _ _ _ t
    · rw [step_try_pop_cons i s t rest h hq]
      exact set_getElem?_self _ _ _ _ h
    · rw [worker_step_stop]; exact hs

/-- Once the stop flag is set, five actions take any worker out of its loop:
the thread that `join` waits for does end. -/
theorem join_exits {α : Type} (i : Nat) (s : ThreadPool α) (hi : i < s.workers_.length)
    (hs : s.stop_ = true) : (s.join i).workers_[i]? = some Worker.exited := by
  simp only [ThreadPool.join]
  cases hw : s.workers_[i]? with
  | none =>
    rw [List.getElem?_eq_none_iff] at hw
    omega
  | some w =>
    cases w with
    | loop_head => exact exits_from_loop_head i 4 s hw hs
    | try_pop => exact exits_from_try_pop i 0 s hw hs
    | call t => exact exits_from_call i 1 s t hw hs
    | invoke t => exact exits_from_invoke i 2 s t hw hs
    | finish => exact exits_from_finish i 3 s hw hs
    | exited => exact exited_stays i 5 s hw

/-! ### Completion is always within reach -/

theorem remaining_move {α : Type} (s s1 : ThreadPool α) (i : Nat) (a b : Worker α)
    (hw : s.workers_[i]? = some a) (h1 : s1.workers_ = s.workers_.set i b)
    (h2 : s1.tasks_ = s.tasks_) : s1.remaining + a.rank = s.remaining + b.rank := by
  have h := sum_map_set_add Worker.rank s.workers_ i a b hw
  simp only [ThreadPool.remaining, h1, h2]
  omega

/-- While a closure is queued or in flight, some worker has an action that
brings the pool strictly closer to completion. -/
theorem progress_step {α : Type} (s : ThreadPool α) (hs : s.Consistent)
    (hn : 0 < s.workers_.length) (hnot : ¬ (s.tasks_.queue_ = [] ∧ s.in_flight = [])) :
    ∃ i, (s.worker_step i).remaining < s.remaining := by
  by_cases hf : s.in_flight = []
  · have hq : s.tasks_.queue_ ≠ [] := fun h => hnot ⟨h, hf⟩
    refine ⟨0, ?_⟩
    cases h0 : s.workers_[0]? with
    | none =>
      rw [List.getElem?_eq_none_iff] at h0
      omega
    | some w =>
      cases w with
      | loop_head =>
        rw [step_loop_head 0 s h0 hs.running]
        have h := remaining_move s { s with workers_ := s.workers_.set 0 Worker.try_pop } 0 _ _ h0
          rfl rfl
        simp only [Worker.rank] at h
        omega
      | try_pop =>
        cases hq1 : s.tasks_.queue_ with
        | nil => exact absurd hq1 hq
        | cons t rest =>
          rw [step_try_pop_cons 0 s t rest h0 hq1]
          have h := sum_map_set_add Worker.rank s.workers_ 0 _ (Worker.call t) h0
          simp only [ThreadPool.remaining, hq1, List.length_cons, Worker.rank] at h ⊢
          omega
      | call t =>
        have := mem_held_of_getElem? s.workers_ 0 _ h0 t (by simp [Worker.held])
        rw [ThreadPool.in_flight] at hf
        rw [hf] at this
        exact absurd this (List.not_mem_nil _)
      | invoke t =>
        have := mem_held_of_getElem? s.workers_ 0 _ h0 t (by simp [Worker.held])
        rw [ThreadPool.in_flight] at hf
        rw [hf] at this
        exact absurd this (List.not_mem_nil _)
      | finish =>
        rw [step_finish 0 s h0]
        have h := remaining_move s
          { s with active_tasks_ := s.active_tasks_ - 1,
                   workers_ := s.workers_.set 0 Worker.loop_head } 0 _ _ h0 rfl rfl
        simp only [Worker.rank] at h
        omega
      | exited => exact absurd rfl (hs.no_exit _ (List.getElem?_mem h0))
  · rcases List.exists_mem_of_ne_nil _ hf with ⟨t, ht⟩
    rw [ThreadPool.in_flight, List.mem_flatMap] at ht
    rcases ht with ⟨w, hwmem, htw⟩
    rcases List.mem_iff_getElem?.mp hwmem with ⟨i, hi⟩
    refine ⟨i, ?_⟩
    cases w with
    | call t1 =>
      rw [step_call i s t1 hi]
      have h := remaining_move s
        { s with active_tasks_ := s.active_tasks_ + 1,
                 workers_ := s.workers_.set i (Worker.invoke t1) } i _ _ hi rfl rfl
      simp only [Worker.rank] at h
      omega
    | invoke t1 =>
      rw [step_invoke i s t1 hi]
      have h := remaining_move s
        { s with shared := s.shared ++ [(t1.handle, t1.work)],
                 executed := s.executed ++ [t1.handle],
                 workers_ := s.workers_.set i Worker.finish } i _ _ hi rfl rfl
      simp only [Worker.rank] at h
      omega
    | loop_head => simp [Worker.held] at htw
    | try_pop => simp [Worker.held] at htw
    | finish => simp [Worker.held] at htw
    | exited => simp [Worker.held] at htw

/-- From every state of a running pool with at least one worker, some schedule
of the workers empties the queue and the workers' hands. -/
theorem can_complete {α : Type} (n : Nat) (s : ThreadPool α) (hrem : s.remaining ≤ n)
    (hs : s.Consistent) (hn : 0 < s.workers_.length) :
    ∃ more : List Nat,
      (s.run_workers more).tasks_.queue_ = [] ∧ (s.run_workers more).in_flight = [] := by
  induction n generalizing s with
  | zero =>
    by_cases hdone : s.tasks_.queue_ = [] ∧ s.in_flight = []
    · exact ⟨[], hdone⟩
    · rcases progress_step s hs hn hdone with ⟨i, hi⟩
      omega
  | succ n ih =>
    by_cases hdone : s.tasks_.queue_ = [] ∧ s.in_flight = []
    · exact ⟨[], hdone⟩
    · rcases progress_step s hs hn hdone with ⟨i, hi⟩
      have hlen : 0 < (s.worker_step i).workers_.length := by
        rw [worker_step_length]; exact hn
      rcases ih (s.worker_step i) (by omega) (consistent_worker_step i s hs) hlen with ⟨more, hm⟩
      exact ⟨i :: more, hm⟩

/-- C7: a pool of at least one worker, and any interleaving of submissions and
worker actions.  The items accepted are the submitted ones in order, the next
submission getting its position as handle, so the `i`-th handle belongs to the
`i`-th item.  In every state reached, a resolved handle holds the outcome of
its own item (for a non-raising item, its value) and no item has been run
twice; once nothing is queued or in a worker's hands, every handle is resolved
to its own item's outcome and each item has been run exactly once; and from
every state reached the workers have a schedule that gets there. -/
theorem handles_resolve_to_own_items {α : Type} (num_threads : Nat) (actions : List (Action α))
    (hn : 0 < num_threads) :
    ((ThreadPool.create num_threads).run actions).submitted = submissions actions ∧
    (∀ work, (((ThreadPool.create num_threads).run actions).enqueue work).1
      = Except.ok (submissions actions).length) ∧
    (∀ h out, ((ThreadPool.create num_threads).run actions).future_get h = some out →
      (submissions actions)[h]? = some out) ∧
    ((ThreadPool.create num_threads).run actions).executed.Nodup ∧
    (((ThreadPool.create num_threads).run actions).tasks_.queue_ = [] →
      ((ThreadPool.create num_threads).run actions).in_flight = [] →
      ∀ h out, (submissions actions)[h]? = some out →
        ((ThreadPool.create num_threads).run actions).future_get h = some out ∧
        ((ThreadPool.create num_threads).run actions).executed.count h = 1) ∧
    ∃ more : List Nat, ∀ h out, (submissions actions)[h]? = some out →
      (((ThreadPool.create num_threads).run actions).run_workers more).future_get h = some out ∧
      (((ThreadPool.create num_threads).run actions).run_workers more).executed.count h = 1 := by
  have hinv := consistent_run_actions actions (ThreadPool.create num_threads)
    (consistent_create num_threads)
  generalize (ThreadPool.create num_threads).run actions = s at hinv
  rcases hinv with ⟨hs, hsub, hlen⟩
  have hsub1 : s.submitted = submissions actions := by
    rw [hsub]
    simp [ThreadPool.create]
  have hlen1 : 0 < s.workers_.length := by
    rw [hlen]
    simpa [ThreadPool.create] using hn
  refine ⟨hsub1, ?_, ?_, consistent_executed_nodup s hs, ?_, ?_⟩
  · intro work
    rw [enqueue_running s work hs.running, hsub1]
  · intro h out hget
    rw [← hsub1]
    exact consistent_future_get s hs h out hget
  · intro hq hf h out hget
    rw [← hsub1] at hget
    exact consistent_all_done s hs hq hf h out hget
  · rcases can_complete s.remaining s (le_refl _) hs hlen1 with ⟨more, hq, hf⟩
    refine ⟨more, ?_⟩
    intro h out hget
    have hc := consistent_run_workers more s hs
    rw [← hsub1, ← hc.2] at hget
    exact consistent_all_done _ hc.1 hq hf h out hget

theorem handles_resolve_to_own_items_witness :
    0 < 2 ∧
    ((ThreadPool.create 2).run tenSquares).submitted = submissions tenSquares ∧
    ∃ more : List Nat, ∀ h out, (submissions tenSquares)[h]? = some out →
      (((ThreadPool.create 2).run tenSquares).run_workers more).future_get h = some out ∧
      (((ThreadPool.create 2).run tenSquares).run_workers more).executed.count h = 1 :=
  have h := handles_resolve_to_own_items 2 tenSquares (by decide)
  ⟨by decide, h.1, h.2.2.2.2.2⟩

/-! ## More theorems on the bus -/

/-- A live observer that raises on the event leaves its line in the log of the
pass. -/
theorem notify_loop_logs {σ : Type} (env : Observers σ) (event : ProgressEvent)
    (l : List Nat) (w : σ) (o : Nat) (ex : StdException)
    (hmem : o ∈ l) (hlive : env.alive o = true)
    (hraise : ∀ w1, (env.notify o event w1).2 = some ex) :
    ("Observer notification failed: " ++ ex.what) ∈ (notify_loop env event l w).logged := by
  induction l generalizing w with
  | nil => simp at hmem
  | cons p rest ih =>
    by_cases hp : p = o
    · subst hp
      simp [notify_loop, hlive, hraise]
    · have hrest : o ∈ rest := by
        rcases List.mem_cons.mp hmem with h | h
        · exact absurd h.symm hp
        · exact h
      cases ha : env.alive p with
      | true =>
        simp only [notify_loop, ha, if_true, List.mem_append]
        exact Or.inr (ih _ hrest)
      | false =>
        simp only [notify_loop, ha]
        exact ih _ hrest

/-- C11: a bus with a live attached observer `o` that raises a failure on the
event, anywhere in the stored list.  The pass of `notify_all` still calls every
live entry, those before `o` and those after it, in order; it ends normally,
the failure being logged and not raised to the caller; and the live entries of
the stored list are what they were. -/
theorem notify_all_isolates_failure {σ : Type} (env : Observers σ) (s : Subject)
    (event : ProgressEvent) (w : σ) (before after : List Nat) (o : Nat) (ex : StdException)
    (hlist : s.observers_ = before ++ o :: after) (hlive : env.alive o = true)
    (hraise : ∀ w1, (env.notify o event w1).2 = some ex) :
    (s.notify_all env event w).notified =
      before.filter env.alive ++ o :: after.filter env.alive ∧
    (∀ p ∈ s.observers_, env.alive p = true → p ∈ (s.notify_all env event w).notified) ∧
    ("Observer notification failed: " ++ ex.what) ∈ (s.notify_all env event w).logged ∧
    (s.notify_all env event w).observers_.filter env.alive = s.observers_.filter env.alive ∧
    (∀ p, env.alive p = true →
      (s.notify_all env event w).observers_.count p = s.observers_.count p) := by
  have hn := (notify_loop_live env event s.observers_ w).1
  have ho := (notify_loop_live env event s.observers_ w).2
  refine ⟨?_, ?_, ?_, ?_, ?_⟩
  · rw [Subject.notify_all, hn, hlist]
    simp only [List.filter_append, List.filter_cons, hlive, if_true]
  · intro p hp hpl
    simp only [Subject.notify_all, hn, List.mem_filter]
    exact ⟨hp, hpl⟩
  · refine notify_loop_logs env event s.observers_ w o ex ?_ hlive hraise
    rw [hlist]
    exact List.mem_append_right _ (List.mem_cons_self _ _)
  · simp only [Subject.notify_all, ho, List.filter_filter, Bool.and_self]
  · intro p hpl
    simp only [Subject.notify_all, ho]
    rw [List.count_filter]
    simpa using hpl

theorem notify_all_isolates_failure_witness :
    (⟨[1, 2, 3]⟩ : Subject).observers_ = [1] ++ 2 :: [3] ∧
    oneRaising.alive 2 = true ∧
    (∀ w1, (oneRaising.notify 2 sampleEvent w1).2 = some ⟨"observer failed"⟩) ∧
    ((⟨[1, 2, 3]⟩ : Subject).notify_all oneRaising sampleEvent 0).notified = [1, 2, 3] ∧
    ((⟨[1, 2, 3]⟩ : Subject).notify_all oneRaising sampleEvent 0).state = 3 ∧
    ("Observer notification failed: " ++ "observer failed") ∈
      ((⟨[1, 2, 3]⟩ : Subject).notify_all oneRaising sampleEvent 0).logged :=
  have h := notify_all_isolates_failure oneRaising ⟨[1, 2, 3]⟩ sampleEvent 0 [1] [3] 2
    ⟨"observer failed"⟩ rfl rfl (fun _ => rfl)
  ⟨rfl, rfl, fun _ => rfl, h.1, rfl, h.2.2.1⟩

/-- C12: a pass of `notify_all` over a list with expired entries ends normally;
it calls live observers only, so a released observer gets the event zero
times; the list it leaves is the stored list filtered to the entries that were
live, in their order: no expired entry is left, no live entry is lost, and
`observer_count` is what it was. -/
theorem notify_all_prunes_expired {σ : Type} (env : Observers σ) (s : Subject)
    (event : ProgressEvent) (w : σ) :
    (∀ o ∈ (s.notify_all env event w).notified, env.alive o = true) ∧
    (∀ o, env.alive o = false → (s.notify_all env event w).notified.count o = 0) ∧
    (s.notify_all env event w).observers_ = s.observers_.filter env.alive ∧
    (∀ o ∈ (s.notify_all env event w).observers_, env.alive o = true) ∧
    (∀ o, env.alive o = true →
      (s.notify_all env event w).observers_.count o = s.observers_.count o) ∧
    List.Sublist (s.notify_all env event w).observers_ s.observers_ ∧
    Subject.observer_count env.alive ⟨(s.notify_all env event w).observers_⟩
      = s.observer_count env.alive := by
  have hn := (notify_loop_live env event s.observers_ w).1
  have ho := (notify_loop_live env event s.observers_ w).2
  rw [Subject.notify_all, hn, ho]
  refine ⟨?_, ?_, rfl, ?_, ?_, List.filter_sublist _, ?_⟩
  · intro o hmem
    exact (List.mem_filter.mp hmem).2
  · intro o hdead
    rw [List.count_eq_zero]
    intro hmem
    have := (List.mem_filter.mp hmem).2
    rw [hdead] at this
    exact Bool.noConfusion this
  · intro o hmem
    exact (List.mem_filter.mp hmem).2
  · intro o hpl
    rw [List.count_filter]
    simpa using hpl
  · simp only [Subject.observer_count, List.countP_filter, Bool.and_self]

/-- After `detach(o)` no entry of the stored list refers to `o`. -/
theorem not_mem_detach (alive : Nat → Bool) (s : Subject) (o : Nat) :
    o ∉ (s.detach alive o).observers_ := by
  simp [Subject.detach]

/-- A pass over a list without `o` does not call `o` and leaves a list without
`o`. -/
theorem notify_loop_absent {σ : Type} (env : Observers σ) (event : ProgressEvent)
    (l : List Nat) (w : σ) (o : Nat) (h : o ∉ l) :
    o ∉ (notify_loop env event l w).notified ∧ o ∉ (notify_loop env event l w).observers_ := by
  rw [(notify_loop_live env event l w).1, (notify_loop_live env event l w).2]
  have : o ∉ l.filter env.alive := fun hm => h (List.mem_filter.mp hm).1
  exact ⟨this, this⟩

/-- What one `notify_all` adds to the deliveries of an observer: the event,
once for each of its live entries. -/
theorem deliveries_to_publish {σ : Type} (env : Observers σ) (b : Bus σ) (event : ProgressEvent)
    (o : Nat) :
    (b.publish env event).deliveries_to o =
      b.deliveries_to o ++
        List.replicate ((b.subject.observers_.filter env.alive).count o) event := by
  have hn := (notify_loop_live env event b.subject.observers_ b.state).1
  simp only [Bus.deliveries_to, Bus.publish, Subject.notify_all, hn, List.filter_append,
    List.map_append, List.append_cancel_left_eq]
  generalize b.subject.observers_.filter env.alive = l
  induction l with
  | nil => rfl
  | cons p rest ih =>
    by_cases hp : p = o
    · subst hp
      simp [List.filter_cons, List.replicate_succ, ih]
    · have hne : (p == o) = false := by simpa using hp
      simp [List.filter_cons, hne, List.count_cons, ih]

theorem subject_publish {σ : Type} (env : Observers σ) (b : Bus σ) (event : ProgressEvent) :
    (b.publish env event).subject.observers_ = b.subject.observers_.filter env.alive := by
  simp [Bus.publish, Subject.notify_all, (notify_loop_live env event b.subject.observers_ b.state).2]

/-- Passes over a bus from whose list `o` is absent deliver nothing to `o`. -/
theorem publish_each_absent {σ : Type} (passes : List (Observers σ × ProgressEvent))
    (b : Bus σ) (o : Nat) (h : o ∉ b.subject.observers_) :
    (b.publish_each passes).deliveries_to o = b.deliveries_to o ∧
    o ∉ (b.publish_each passes).subject.observers_ := by
  induction passes generalizing b with
  | nil => exact ⟨rfl, h⟩
  | cons p rest ih =>
    have hfil : o ∉ b.subject.observers_.filter p.1.alive :=
      fun hm => h (List.mem_filter.mp hm).1
    have h1 : o ∉ (b.publish p.1 p.2).subject.observers_ := by
      rw [subject_publish]; exact hfil
    have h2 := ih (b.publish p.1 p.2) h1
    simp only [Bus.publish_each, List.foldl_cons] at h2 ⊢
    refine ⟨?_, h2.2⟩
    rw [h2.1, deliveries_to_publish, List.count_eq_zero.mpr hfil]
    simp

/-- C13: after `detach(o)` the stored list has no entry for `o`, however many
it had, so a pass of `notify_all` calls `o` zero times; and over any sequence
of later passes, whatever the observers' state and liveness at each, the bus
delivers nothing more to `o`. -/
theorem detach_stops_delivery {σ : Type} (alive : Nat → Bool) (b : Bus σ) (o : Nat)
    (passes : List (Observers σ × ProgressEvent)) :
    (b.subject.detach alive o).observers_.count o = 0 ∧
    (∀ (env : Observers σ) (event : ProgressEvent) (w : σ),
      ((b.subject.detach alive o).notify_all env event w).notified.count o = 0) ∧
    ((b.detach_progress_observer alive o).publish_each passes).deliveries_to o
      = b.deliveries_to o ∧
    o ∉ ((b.detach_progress_observer alive o).publish_each passes).subject.observers_ := by
  have habs := not_mem_detach alive b.subject o
  refine ⟨List.count_eq_zero.mpr habs, ?_, ?_, ?_⟩
  · intro env event w
    exact List.count_eq_zero.mpr (notify_loop_absent env event _ w o habs).1
  · exact (publish_each_absent passes (b.detach_progress_observer alive o) o habs).1
  · exact (publish_each_absent passes (b.detach_progress_observer alive o) o habs).2

/-- A pass over the live entries of a list is the pass over the list. -/
theorem notify_loop_filter_alive {σ : Type} (env : Observers σ) (event : ProgressEvent)
    (l : List Nat) (w : σ) :
    notify_loop env event (l.filter env.alive) w = notify_loop env event l w := by
  induction l generalizing w with
  | nil => rfl
  | cons p rest ih =>
    cases hp : env.alive p with
    | true => simp [List.filter_cons, notify_loop, hp, ih]
    | false => simp [List.filter_cons, notify_loop, hp, ih]

/-- C14: `detach(o)` keeps the live entries of the other observers, each as
often as before and in the same order: the live part of the list is the old
live part without the entries of `o`.  When `o` is not attached the live part
is unchanged, and with it `observer_count` and the next pass of `notify_all`:
same observers called, same state of the observers, same log, same list left. -/
theorem detach_keeps_other_observers (alive : Nat → Bool) (s : Subject) (o : Nat) :
    (s.detach alive o).observers_.filter alive =
      (s.observers_.filter alive).filter (fun p => p != o) ∧
    (∀ p, p ≠ o → alive p = true →
      (s.detach alive o).observers_.count p = s.observers_.count p) ∧
    (o ∉ s.observers_ →
      (s.detach alive o).observers_.filter alive = s.observers_.filter alive ∧
      (s.detach alive o).observer_count alive = s.observer_count alive ∧
      ∀ (σ : Type) (env : Observers σ) (event : ProgressEvent) (w : σ), env.alive = alive →
        (s.detach alive o).notify_all env event w = s.notify_all env event w) := by
  have hdet : (s.detach alive o).observers_ =
      (s.observers_.filter alive).filter (fun p => p != o) := by
    simp only [Subject.detach, List.filter_filter]
    apply List.filter_congr
    intro p _
    cases alive p <;> by_cases hpo : p = o <;> simp [hpo, bne]
  have hlive : (s.detach alive o).observers_.filter alive =
      (s.observers_.filter alive).filter (fun p => p != o) := by
    rw [hdet, List.filter_filter, List.filter_filter, List.filter_filter]
    apply List.filter_congr
    intro p _
    cases alive p <;> by_cases hpo : p = o <;> simp [hpo, bne]
  have habsent : o ∉ s.observers_ →
      (s.detach alive o).observers_ = s.observers_.filter alive := by
    intro hno
    rw [hdet]
    apply List.filter_eq_self.mpr
    intro p hp
    have : p ≠ o := fun h => hno (h ▸ (List.mem_filter.mp hp).1)
    simpa using this
  refine ⟨hlive, ?_, ?_⟩
  · intro p hpo hpl
    rw [hdet, List.count_filter (by simpa using hpo), List.count_filter (by simpa using hpl)]
  · intro hno
    refine ⟨?_, ?_, ?_⟩
    · rw [habsent hno, List.filter_filter]
      simp only [Bool.and_self]
    · simp only [Subject.observer_count, habsent hno, List.countP_filter, Bool.and_self]
    · intro σ env event w henv
      subst henv
      simp only [Subject.notify_all, habsent hno]
      exact notify_loop_filter_alive env event s.observers_ w

theorem detach_keeps_other_observers_witness :
    5 ∉ (⟨[1, 2, 3, 1]⟩ : Subject).observers_ ∧
    ((⟨[1, 2, 3, 1]⟩ : Subject).detach oneReleased.alive 5).observers_.filter oneReleased.alive
      = [1, 3, 1] ∧
    ((⟨[1, 2, 3, 1]⟩ : Subject).detach oneReleased.alive 5).observer_count oneReleased.alive
      = (⟨[1, 2, 3, 1]⟩ : Subject).observer_count oneReleased.alive ∧
    ((⟨[1, 2, 3, 1]⟩ : Subject).detach oneReleased.alive 5).notify_all oneReleased sampleEvent ()
      = (⟨[1, 2, 3, 1]⟩ : Subject).notify_all oneReleased sampleEvent () :=
  have h := (detach_keeps_other_observers oneReleased.alive ⟨[1, 2, 3, 1]⟩ 5).2.2 (by decide)
  ⟨by decide, h.1.trans (by decide), h.2.1, h.2.2 Unit oneReleased sampleEvent () rfl⟩

theorem attach_times_observers (s : Subject) (o : Nat) (k : Nat) :
    (s.attach_times o k).observers_ = s.observers_ ++ List.replicate k o := by
  induction k with
  | zero => simp [Subject.attach_times]
  | succ k ih =>
    simp only [Subject.attach_times, Subject.attach, ih, List.append_assoc]
    rw [← List.replicate_succ']

/-- Passes at each of which `o` is alive deliver each event to `o` once for
each entry of `o` in the stored list, and leave these entries in place. -/
theorem publish_each_live {σ : Type} (passes : List (Observers σ × ProgressEvent))
    (b : Bus σ) (o : Nat) (hlive : ∀ p ∈ passes, p.1.alive o = true) :
    (b.publish_each passes).deliveries_to o =
      b.deliveries_to o ++
        passes.flatMap (fun p => List.replicate (b.subject.observers_.count o) p.2) ∧
    (b.publish_each passes).subject.observers_.count o = b.subject.observers_.count o := by
  induction passes generalizing b with
  | nil => simp [Bus.publish_each]
  | cons p rest ih =>
    have hp : p.1.alive o = true := hlive p (List.mem_cons_self _ _)
    have hcount : (b.subject.observers_.filter p.1.alive).count o
        = b.subject.observers_.count o := by
      rw [List.count_filter]
      simpa using hp
    have h1 : (b.publish p.1 p.2).subject.observers_.count o = b.subject.observers_.count o := by
      rw [subject_publish, hcount]
    have h2 := ih (b.publish p.1 p.2) (fun q hq => hlive q (List.mem_cons_of_mem _ hq))
    simp only [Bus.publish_each, List.foldl_cons] at h2 ⊢
    refine ⟨?_, h2.2.trans h1⟩
    rw [h2.1, deliveries_to_publish, hcount, h1]
    simp [List.flatMap_cons]

/-- C15: `attach` appends an entry whether or not the observer is already
attached, and changes no other entry.  After `k` calls `attach(o)` the stored
list has `k` more entries of `o` and every other observer as often as before;
each later `notify_all` at which `o` is alive delivers its event to `o` once
for each entry of `o`: exactly `k` times when `o` was not attached before. -/
theorem attach_is_not_deduplicated {σ : Type} (b : Bus σ) (o : Nat) (k : Nat)
    (passes : List (Observers σ × ProgressEvent))
    (hlive : ∀ p ∈ passes, p.1.alive o = true) :
    (b.subject.attach_times o k).observers_ = b.subject.observers_ ++ List.replicate k o ∧
    (b.subject.attach_times o k).observers_.count o = b.subject.observers_.count o + k ∧
    (∀ p, p ≠ o →
      (b.subject.attach_times o k).observers_.count p = b.subject.observers_.count p) ∧
    (({ b with subject := b.subject.attach_times o k } : Bus σ).publish_each passes).deliveries_to o
      = b.deliveries_to o ++
        passes.flatMap (fun p => List.replicate (b.subject.observers_.count o + k) p.2) ∧
    (o ∉ b.subject.observers_ →
      (({ b with subject := b.subject.attach_times o k } : Bus σ).publish_each
          passes).deliveries_to o
        = b.deliveries_to o ++ passes.flatMap (fun p => List.replicate k p.2)) := by
  have hobs := attach_times_observers b.subject o k
  have hcount : (b.subject.attach_times o k).observers_.count o
      = b.subject.observers_.count o + k := by
    rw [hobs, List.count_append, List.count_replicate_self]
  have hdel := (publish_each_live passes
    ({ b with subject := b.subject.attach_times o k } : Bus σ) o hlive).1
  simp only [hcount] at hdel
  refine ⟨hobs, hcount, ?_, hdel, ?_⟩
  · intro p hp
    rw [hobs, List.count_append, List.count_replicate]
    have : (o == p) = false := by simpa using fun h => hp h.symm
    simp [this]
  · intro hno
    rw [hdel, List.count_eq_zero.mpr hno, Nat.zero_add]
    rfl

theorem attach_is_not_deduplicated_witness :
    (∀ p ∈ [(quietObservers, sampleEvent), (quietObservers, sampleEvent)],
      p.1.alive 7 = true) ∧
    (freshBus.subject.attach_times 7 3).observers_ = [1, 7, 7, 7] ∧
    (({ freshBus with subject := freshBus.subject.attach_times 7 3 } : Bus Unit).publish_each
        [(quietObservers, sampleEvent), (quietObservers, sampleEvent)]).deliveries_to 7
      = List.replicate 3 sampleEvent ++ List.replicate 3 sampleEvent :=
  have hl : ∀ p ∈ [(quietObservers, sampleEvent), (quietObservers, sampleEvent)],
      p.1.alive 7 = true := by
    intro p hp
    simp only [List.mem_cons, List.mem_singleton, List.not_mem_nil, or_false, or_self] at hp
    rw [hp]
    rfl
  have h := attach_is_not_deduplicated freshBus 7 3
    [(quietObservers, sampleEvent), (quietObservers, sampleEvent)] hl
  ⟨hl, h.1, (h.2.2.2.2 (by decide)).trans (by simp [Bus.deliveries_to, freshBus])⟩

/-! ## Theorems on the queue -/

theorem push_all_queue {T : Type} (q : ThreadSafeQueue T) (items : List T) :
    (q.push_all items).queue_ = q.queue_ ++ items := by
  induction items generalizing q with
  | nil => simp [ThreadSafeQueue.push_all]
  | cons x rest ih =>
    simp only [ThreadSafeQueue.push_all, List.foldl_cons] at ih ⊢
    rw [ih]
    simp [ThreadSafeQueue.push]

theorem pop_cons {T : Type} (kind : PopKind) (x : T) (rest : List T) (item : T) :
    (⟨x :: rest⟩ : ThreadSafeQueue T).pop kind item = some (x, ⟨rest⟩) := by
  cases kind <;> rfl

/-- Pops no more numerous than the items take the items off the front, in
order. -/
theorem pops_take {T : Type} (kinds : List PopKind) (items : List T) (item : T)
    (h : kinds.length ≤ items.length) :
    (⟨items⟩ : ThreadSafeQueue T).pops kinds item =
      some (items.take kinds.length, ⟨items.drop kinds.length⟩) := by
  induction kinds generalizing items item with
  | nil => simp [ThreadSafeQueue.pops]
  | cons kind rest ih =>
    cases items with
    | nil => simp at h
    | cons x xs =>
      have hlen : rest.length ≤ xs.length := by simpa using h
      simp [ThreadSafeQueue.pops, pop_cons, ih xs x hlen]

/-- C16: items `x_1 .. x_n` pushed in turn into an empty queue, then `j ≤ n`
pops, each a `try_pop` or a `wait_and_pop`.  Every pop obtains an item, the
items obtained are `x_1 .. x_j` in that order, the size is then `n - j`, and
the queue is empty exactly when `j = n`; with `j = n` the pops return all of
`x_1 .. x_n`. -/
theorem queue_is_fifo {T : Type} (items : List T) (kinds : List PopKind) (item : T)
    (h : kinds.length ≤ items.length) :
    ∃ q : ThreadSafeQueue T,
      ((⟨[]⟩ : ThreadSafeQueue T).push_all items).pops kinds item
        = some (items.take kinds.length, q) ∧
      q.queue_ = items.drop kinds.length ∧
      q.size = items.length - kinds.length ∧
      (q.empty = true ↔ kinds.length = items.length) ∧
      (kinds.length = items.length →
        ((⟨[]⟩ : ThreadSafeQueue T).push_all items).pops kinds item = some (items, ⟨[]⟩)) := by
  have hq : (⟨[]⟩ : ThreadSafeQueue T).push_all items = ⟨items⟩ := by
    have := push_all_queue (⟨[]⟩ : ThreadSafeQueue T) items
    simp only [List.nil_append] at this
    cases hp : (⟨[]⟩ : ThreadSafeQueue T).push_all items
    rw [hp] at this
    simp only at this
    rw [this]
  refine ⟨⟨items.drop kinds.length⟩, ?_, rfl, ?_, ?_, ?_⟩
  · rw [hq, pops_take kinds items item h]
  · simp [ThreadSafeQueue.size]
  · simp only [ThreadSafeQueue.empty, List.isEmpty_iff, List.drop_eq_nil_iff]
    omega
  · intro heq
    rw [hq, pops_take kinds items item h, heq]
    simp

theorem queue_is_fifo_witness :
    [PopKind.try_pop, PopKind.wait_and_pop].length ≤ [1, 2, 3].length ∧
    ∃ q : ThreadSafeQueue Nat,
      ((⟨[]⟩ : ThreadSafeQueue Nat).push_all [1, 2, 3]).pops
          [PopKind.try_pop, PopKind.wait_and_pop] 0 = some ([1, 2], q) ∧
      q.size = 1 :=
  have h := queue_is_fifo [1, 2, 3] [PopKind.try_pop, PopKind.wait_and_pop] 0 (by decide)
  ⟨by decide, h.choose, h.choose_spec.1, h.choose_spec.2.2.1⟩

/-- C17: on an empty queue `try_pop` answers `false`, its argument holds what
it held and the queue is still empty; on a queue with front `x` it answers
`true`, its argument holds `x`, and the queue has lost `x` and nothing else, so
that its size is one less. -/
theorem try_pop_empty_and_front {T : Type} (item x : T) (rest : List T) :
    (⟨[]⟩ : ThreadSafeQueue T).try_pop item = (false, item, ⟨[]⟩) ∧
    ((⟨[]⟩ : ThreadSafeQueue T).try_pop item).2.2.empty = true ∧
    (∀ q : ThreadSafeQueue T, q.empty = true → q.try_pop item = (false, item, q)) ∧
    (⟨x :: rest⟩ : ThreadSafeQueue T).try_pop item = (true, x, ⟨rest⟩) ∧
    ((⟨x :: rest⟩ : ThreadSafeQueue T).try_pop item).2.2.size + 1
      = (⟨x :: rest⟩ : ThreadSafeQueue T).size ∧
    (∀ q : ThreadSafeQueue T, q.empty = false →
      ∃ front tail, q.queue_ = front :: tail ∧ q.try_pop item = (true, front, ⟨tail⟩)) := by
  refine ⟨rfl, rfl, ?_, rfl, rfl, ?_⟩
  · intro q hq
    cases q with
    | mk l =>
      cases l with
      | nil => rfl
      | cons y ys => simp [ThreadSafeQueue.empty] at hq
  · intro q hq
    cases q with
    | mk l =>
      cases l with
      | nil => simp [ThreadSafeQueue.empty] at hq
      | cons y ys => exact ⟨y, ys, rfl, rfl⟩


/-! ## Lemmas on the rounding to `double` -/

theorem round_half_even_near (s : ℚ) : |(round_half_even s : ℚ) - s| ≤ 1 / 2 := by
  have h1 : (⌊s⌋ : ℚ) ≤ s := Int.floor_le s
  have h2 : s < (⌊s⌋ : ℚ) + 1 := Int.lt_floor_add_one s
  unfold round_half_even
  split_ifs with ha hb hc
  · rw [abs_le]; constructor <;> linarith
  · rw [abs_le]; push_cast; constructor <;> linarith
  · rw [abs_le]; constructor <;> linarith
  · rw [abs_le]; push_cast; constructor <;> linarith

theorem round_half_even_eq (s : ℚ) (m : ℤ) (h : |s - m| < 1 / 2) : round_half_even s = m := by
  rw [abs_lt] at h
  by_cases hs : (m : ℚ) ≤ s
  · have hf : ⌊s⌋ = m := Int.floor_eq_iff.mpr ⟨hs, by linarith⟩
    unfold round_half_even
    rw [hf, if_pos (by linarith)]
  · have hf : ⌊s⌋ = m - 1 := Int.floor_eq_iff.mpr ⟨by push_cast; linarith, by push_cast; linarith⟩
    unfold round_half_even
    rw [hf, if_neg (by push_cast; linarith), if_pos (by push_cast; linarith)]
    ring

theorem round_half_even_tie (s : ℚ) (f : ℤ) (h : s = f + 1 / 2) :
    round_half_even s = if f % 2 = 0 then f else f + 1 := by
  have hf : ⌊s⌋ = f := Int.floor_eq_iff.mpr ⟨by linarith, by linarith⟩
  unfold round_half_even
  rw [hf, if_neg (by linarith), if_neg (by linarith)]

theorem log_bounds (x : ℚ) (hx : 0 < x) :
    (2 : ℚ) ^ Int.log 2 x ≤ x ∧ x < (2 : ℚ) ^ (Int.log 2 x + 1) := by
  have h1 := Int.zpow_log_le_self (b := 2) (r := x) (by norm_num) hx
  have h2 := Int.lt_zpow_succ_log_self (b := 2) (by norm_num) x
  simpa using And.intro h1 h2

theorem log_eq (x : ℚ) (L : ℤ) (h1 : (2 : ℚ) ^ L ≤ x) (h2 : x < (2 : ℚ) ^ (L + 1)) :
    Int.log 2 x = L := by
  have hx : 0 < x := lt_of_lt_of_le (by positivity) h1
  have a : L ≤ Int.log 2 x := by
    have := (Int.zpow_le_iff_le_log (b := 2) (by norm_num) hx (x := L)).mp (by simpa using h1)
    exact this
  have b : Int.log 2 x < L + 1 := by
    have := (Int.lt_zpow_iff_log_lt (b := 2) (by norm_num) hx (x := L + 1)).mp (by simpa using h2)
    exact this
  omega

theorem round_to_double_eq (x : ℚ) (L m : ℤ) (h1 : (2 : ℚ) ^ L ≤ x) (h2 : x < (2 : ℚ) ^ (L + 1))
    (hm : |x / (2 : ℚ) ^ (L - 52) - m| < 1 / 2) :
    round_to_double x = (m : ℚ) * (2 : ℚ) ^ (L - 52) := by
  have hx : 0 < x := lt_of_lt_of_le (by positivity) h1
  unfold round_to_double
  rw [if_neg (not_le.mpr hx), log_eq x L h1 h2, round_half_even_eq _ m hm]

theorem round_to_double_error (x : ℚ) (hx : 0 < x) :
    |round_to_double x - x| ≤ x / 2 ^ 53 := by
  obtain ⟨h1, _⟩ := log_bounds x hx
  unfold round_to_double
  rw [if_neg (not_le.mpr hx)]
  set L := Int.log 2 x
  have hw : (0 : ℚ) < (2 : ℚ) ^ (L - 52) := by positivity
  have hnear := round_half_even_near (x / (2 : ℚ) ^ (L - 52))
  have hmul : |(round_half_even (x / (2 : ℚ) ^ (L - 52)) : ℚ) * (2 : ℚ) ^ (L - 52) - x|
      = |(round_half_even (x / (2 : ℚ) ^ (L - 52)) : ℚ) - x / (2 : ℚ) ^ (L - 52)|
        * (2 : ℚ) ^ (L - 52) := by
    rw [← abs_of_pos hw, ← abs_mul, abs_of_pos hw]
    congr 1
    field_simp
  rw [hmul]
  have hsplit : (2 : ℚ) ^ (L - 52) = (2 : ℚ) ^ L / 2 ^ 52 := by
    rw [zpow_sub₀ (by norm_num)]
    norm_cast
  calc |(round_half_even (x / (2 : ℚ) ^ (L - 52)) : ℚ) - x / (2 : ℚ) ^ (L - 52)|
        * (2 : ℚ) ^ (L - 52)
      ≤ 1 / 2 * (2 : ℚ) ^ (L - 52) := mul_le_mul_of_nonneg_right hnear hw.le
    _ = (2 : ℚ) ^ L / 2 ^ 53 := by rw [hsplit]; ring
    _ ≤ x / 2 ^ 53 := by
      apply div_le_div_of_nonneg_right h1
      positivity

theorem round_half_even_mono (s t : ℚ) (h : s ≤ t) : round_half_even s ≤ round_half_even t := by
  have hs1 : (⌊s⌋ : ℚ) ≤ s := Int.floor_le s
  have hs2 : s < (⌊s⌋ : ℚ) + 1 := Int.lt_floor_add_one s
  have ht1 : (⌊t⌋ : ℚ) ≤ t := Int.floor_le t
  have ht2 : t < (⌊t⌋ : ℚ) + 1 := Int.lt_floor_add_one t
  have hft : ⌊s⌋ ≤ ⌊t⌋ := Int.floor_mono h
  by_cases heq : ⌊s⌋ = ⌊t⌋
  · unfold round_half_even
    rw [heq] at hs1 hs2 ⊢
    split_ifs <;> first | omega | (exfalso; linarith)
  · have hlt : ⌊s⌋ + 1 ≤ ⌊t⌋ := by omega
    unfold round_half_even
    split_ifs <;> omega

theorem round_half_even_int (k : ℤ) : round_half_even (k : ℚ) = k :=
  round_half_even_eq _ k (by simp)

theorem round_to_double_nonneg (x : ℚ) : 0 ≤ round_to_double x := by
  unfold round_to_double
  split_ifs with h
  · exact le_refl _
  · have hx : 0 < x := not_le.mp h
    have hs : (0 : ℚ) ≤ x / (2 : ℚ) ^ (Int.log 2 x - 52) := by positivity
    have hr : (0 : ℤ) ≤ round_half_even (x / (2 : ℚ) ^ (Int.log 2 x - 52)) := by
      have := round_half_even_mono 0 _ hs
      rwa [show (0 : ℚ) = ((0 : ℤ) : ℚ) by simp, round_half_even_int] at this
    have hr' : (0 : ℚ) ≤ (round_half_even (x / (2 : ℚ) ^ (Int.log 2 x - 52)) : ℚ) := by
      exact_mod_cast hr
    positivity

theorem round_to_double_pos (x : ℚ) (hx : 0 < x) : 0 < round_to_double x := by
  have h := round_to_double_error x hx
  rw [abs_le] at h
  have hlt : x / 2 ^ 53 < x := by
    rw [div_lt_iff₀ (by positivity)]
    have : (1 : ℚ) < 2 ^ 53 := by norm_num
    nlinarith
  linarith [h.1]

theorem round_to_double_zero : round_to_double 0 = 0 := by
  simp [round_to_double]

theorem zpow_split (L : ℤ) :
    (2 : ℚ) ^ L = 2 ^ 52 * (2 : ℚ) ^ (L - 52) ∧
    (2 : ℚ) ^ (L + 1) = 2 ^ 53 * (2 : ℚ) ^ (L - 52) := by
  constructor
  · rw [zpow_sub₀ (by norm_num)]
    field_simp
    ring
  · rw [zpow_sub₀ (by norm_num), zpow_add₀ (by norm_num)]
    field_simp
    ring

theorem scaled_bounds (x : ℚ) (hx : 0 < x) :
    (2 : ℚ) ^ 52 ≤ x / (2 : ℚ) ^ (Int.log 2 x - 52) ∧
    x / (2 : ℚ) ^ (Int.log 2 x - 52) ≤ (2 : ℚ) ^ 53 := by
  obtain ⟨h1, h2⟩ := log_bounds x hx
  have hw : (0 : ℚ) < (2 : ℚ) ^ (Int.log 2 x - 52) := by positivity
  obtain ⟨e1, e2⟩ := zpow_split (Int.log 2 x)
  constructor
  · rw [le_div_iff₀ hw, ← e1]
    exact h1
  · rw [div_le_iff₀ hw, ← e2]
    exact h2.le

theorem round_to_double_bounds (x : ℚ) (hx : 0 < x) :
    (2 : ℚ) ^ Int.log 2 x ≤ round_to_double x ∧
    round_to_double x ≤ (2 : ℚ) ^ (Int.log 2 x + 1) := by
  obtain ⟨h1, h2⟩ := scaled_bounds x hx
  have hw : (0 : ℚ) < (2 : ℚ) ^ (Int.log 2 x - 52) := by positivity
  have c1 : (((2 : ℤ) ^ 52 : ℤ) : ℚ) = (2 : ℚ) ^ 52 := by norm_num
  have c2 : (((2 : ℤ) ^ 53 : ℤ) : ℚ) = (2 : ℚ) ^ 53 := by norm_num
  have hlo : ((2 : ℤ) ^ 52 : ℤ) ≤ round_half_even (x / (2 : ℚ) ^ (Int.log 2 x - 52)) := by
    have := round_half_even_mono _ _ (c1.le.trans h1)
    rwa [round_half_even_int] at this
  have hhi : round_half_even (x / (2 : ℚ) ^ (Int.log 2 x - 52)) ≤ ((2 : ℤ) ^ 53 : ℤ) := by
    have := round_half_even_mono _ _ (h2.trans c2.ge)
    rwa [round_half_even_int] at this
  have hlo' : (2 : ℚ) ^ 52 ≤ (round_half_even (x / (2 : ℚ) ^ (Int.log 2 x - 52)) : ℚ) := by
    rw [← c1]
    exact_mod_cast hlo
  have hhi' : (round_half_even (x / (2 : ℚ) ^ (Int.log 2 x - 52)) : ℚ) ≤ (2 : ℚ) ^ 53 := by
    rw [← c2]
    exact_mod_cast hhi
  obtain ⟨e1, e2⟩ := zpow_split (Int.log 2 x)
  unfold round_to_double
  rw [if_neg (not_le.mpr hx), e1, e2]
  exact ⟨mul_le_mul_of_nonneg_right hlo' hw.le, mul_le_mul_of_nonneg_right hhi' hw.le⟩

theorem round_to_double_mono (x y : ℚ) (h : x ≤ y) : round_to_double x ≤ round_to_double y := by
  by_cases hx : x ≤ 0
  · rw [show round_to_double x = 0 by simp [round_to_double, hx]]
    exact round_to_double_nonneg y
  · have hx0 : 0 < x := not_le.mp hx
    have hy0 : 0 < y := lt_of_lt_of_le hx0 h
    have hlog : Int.log 2 x ≤ Int.log 2 y := Int.log_mono_right hx0 h
    by_cases heq : Int.log 2 x = Int.log 2 y
    · unfold round_to_double
      rw [if_neg hx, if_neg (not_le.mpr hy0), heq]
      have hw : (0 : ℚ) < (2 : ℚ) ^ (Int.log 2 y - 52) := by positivity
      have hs : x / (2 : ℚ) ^ (Int.log 2 y - 52) ≤ y / (2 : ℚ) ^ (Int.log 2 y - 52) :=
        div_le_div_of_nonneg_right h hw.le
      have hr := round_half_even_mono _ _ hs
      have hr' : (round_half_even (x / (2 : ℚ) ^ (Int.log 2 y - 52)) : ℚ)
          ≤ (round_half_even (y / (2 : ℚ) ^ (Int.log 2 y - 52)) : ℚ) := by exact_mod_cast hr
      exact mul_le_mul_of_nonneg_right hr' hw.le
    · have hlt : Int.log 2 x + 1 ≤ Int.log 2 y := by omega
      calc round_to_double x ≤ (2 : ℚ) ^ (Int.log 2 x + 1) := (round_to_double_bounds x hx0).2
        _ ≤ (2 : ℚ) ^ (Int.log 2 y) := zpow_le_zpow_right₀ (by norm_num) hlt
        _ ≤ round_to_double y := (round_to_double_bounds y hy0).1

/-- A number with at most 53 significant bits is a double. -/
theorem round_to_double_exact (m : ℕ) (e : ℤ) (hm : m < 2 ^ 53) :
    round_to_double ((m : ℚ) * (2 : ℚ) ^ e) = (m : ℚ) * (2 : ℚ) ^ e := by
  by_cases hm0 : m = 0
  · subst hm0
    simp [round_to_double]
  have hmpos : (0 : ℚ) < (m : ℚ) := by exact_mod_cast Nat.pos_of_ne_zero hm0
  have hx : (0 : ℚ) < (m : ℚ) * (2 : ℚ) ^ e := by positivity
  obtain ⟨h1, _⟩ := log_bounds _ hx
  have hlt : (2 : ℚ) ^ Int.log 2 ((m : ℚ) * (2 : ℚ) ^ e) < (2 : ℚ) ^ (53 + e) := by
    refine lt_of_le_of_lt h1 ?_
    rw [zpow_add₀ (by norm_num)]
    have hm' : (m : ℚ) < (2 : ℚ) ^ (53 : ℤ) := by
      have hc : (m : ℚ) < ((2 ^ 53 : ℕ) : ℚ) := by exact_mod_cast hm
      have he : ((2 ^ 53 : ℕ) : ℚ) = (2 : ℚ) ^ (53 : ℤ) := by norm_num
      rwa [he] at hc
    exact mul_lt_mul_of_pos_right hm' (by positivity)
  have hL : Int.log 2 ((m : ℚ) * (2 : ℚ) ^ e) < 53 + e :=
    (zpow_lt_zpow_iff_right₀ (by norm_num)).mp hlt
  unfold round_to_double
  rw [if_neg (not_le.mpr hx)]
  set L := Int.log 2 ((m : ℚ) * (2 : ℚ) ^ e)
  obtain ⟨j, hj⟩ : ∃ j : ℕ, e - (L - 52) = (j : ℤ) :=
    ⟨(e - (L - 52)).toNat, (Int.toNat_of_nonneg (by omega)).symm⟩
  have hs : (m : ℚ) * (2 : ℚ) ^ e / (2 : ℚ) ^ (L - 52) = (((m * 2 ^ j : ℕ) : ℤ) : ℚ) := by
    rw [mul_div_assoc, ← zpow_sub₀ (by norm_num), hj, zpow_natCast]
    push_cast
    ring
  rw [hs, round_half_even_int, ← hs]
  have hw : (2 : ℚ) ^ (L - 52) ≠ 0 := by positivity
  field_simp

/-- A natural number below `2 ^ 53` is a double. -/
theorem round_to_double_nat (n : ℕ) (hn : n < 2 ^ 53) : round_to_double (n : ℚ) = n := by
  have h := round_to_double_exact n 0 hn
  simpa using h

theorem round_to_double_tie (x : ℚ) (L f : ℤ) (h1 : (2 : ℚ) ^ L ≤ x)
    (h2 : x < (2 : ℚ) ^ (L + 1)) (hf : x / (2 : ℚ) ^ (L - 52) = f + 1 / 2) :
    round_to_double x = ((if f % 2 = 0 then f else f + 1 : ℤ) : ℚ) * (2 : ℚ) ^ (L - 52) := by
  have hx : 0 < x := lt_of_lt_of_le (by positivity) h1
  unfold round_to_double
  rw [if_neg (not_le.mpr hx), log_eq x L h1 h2, round_half_even_tie _ f hf]

theorem round_to_double_upper (x : ℚ) (hx : 0 < x) :
    round_to_double x ≤ x * (1 + 1 / 2 ^ 53) := by
  have h := (abs_le.mp (round_to_double_error x hx)).2
  have e : x * (1 + 1 / 2 ^ 53) = x + x / 2 ^ 53 := by ring
  rw [e]
  linarith

theorem round_to_double_lower (x : ℚ) (hx : 0 < x) :
    x * (1 - 1 / 2 ^ 53) ≤ round_to_double x := by
  have h := (abs_le.mp (round_to_double_error x hx)).1
  have e : x * (1 - 1 / 2 ^ 53) = x - x / 2 ^ 53 := by ring
  rw [e]
  linarith

theorem percentage_of_zero (total : ℕ) : percentage_of 0 total = 0 := by
  unfold percentage_of
  split_ifs
  · simp [to_double, double_div, double_mul, round_to_double_zero]
  · rfl

theorem round_to_double_one : round_to_double 1 = 1 := by
  have h := round_to_double_nat 1 (by norm_num)
  simpa using h

theorem round_to_double_hundred : round_to_double 100 = 100 := by
  have h := round_to_double_nat 100 (by norm_num)
  simpa using h

theorem percentage_of_all (total : ℕ) (h : 0 < total) : percentage_of total total = 100 := by
  have ht : (0 : ℚ) < to_double total := round_to_double_pos _ (by exact_mod_cast h)
  unfold percentage_of
  rw [if_pos h, double_div, div_self ht.ne', round_to_double_one, double_mul, one_mul,
    round_to_double_hundred]

theorem percentage_of_nonneg (processed total : ℕ) : 0 ≤ percentage_of processed total := by
  unfold percentage_of
  split_ifs
  · exact round_to_double_nonneg _
  · exact le_refl _

theorem percentage_of_le_hundred (processed total : ℕ) (h : processed ≤ total) :
    percentage_of processed total ≤ 100 := by
  unfold percentage_of
  split_ifs with ht
  · have hT : (0 : ℚ) < to_double total := round_to_double_pos _ (by exact_mod_cast ht)
    have hPT : to_double processed ≤ to_double total :=
      round_to_double_mono _ _ (by exact_mod_cast h)
    have hq : double_div (to_double processed) (to_double total) ≤ 1 := by
      rw [double_div, ← round_to_double_one]
      exact round_to_double_mono _ _ ((div_le_one hT).mpr hPT)
    calc double_mul (double_div (to_double processed) (to_double total)) 100
        ≤ round_to_double 100 := round_to_double_mono _ _ (by linarith)
      _ = 100 := round_to_double_hundred
  · norm_num

theorem percentage_of_error (processed total : ℕ) (h : 0 < total) :
    |percentage_of processed total - (processed : ℚ) / (total : ℚ) * 100|
      ≤ (processed : ℚ) / (total : ℚ) * 100 / 2 ^ 50 := by
  by_cases hp : processed = 0
  · subst hp
    rw [percentage_of_zero]
    simp
  have hp0 : (0 : ℚ) < (processed : ℚ) := by exact_mod_cast Nat.pos_of_ne_zero hp
  have ht0 : (0 : ℚ) < (total : ℚ) := by exact_mod_cast h
  have hP := round_to_double_pos _ hp0
  have hT := round_to_double_pos _ ht0
  have hPu := round_to_double_upper _ hp0
  have hPl := round_to_double_lower _ hp0
  have hTu := round_to_double_upper _ ht0
  have hTl := round_to_double_lower _ ht0
  have hdiv : (0 : ℚ) < round_to_double processed / round_to_double total := div_pos hP hT
  have hQ := round_to_double_pos _ hdiv
  have hQu := round_to_double_upper _ hdiv
  have hQl := round_to_double_lower _ hdiv
  have hmul : (0 : ℚ) <
      round_to_double (round_to_double processed / round_to_double total) * 100 := by positivity
  have hRu := round_to_double_upper _ hmul
  have hRl := round_to_double_lower _ hmul
  have hX : (0 : ℚ) < (processed : ℚ) / (total : ℚ) := div_pos hp0 ht0
  have hlow : (0 : ℚ) < 1 - 1 / 2 ^ 53 := by norm_num
  have hup : (0 : ℚ) < 1 + 1 / 2 ^ 53 := by norm_num
  have hdu : round_to_double processed / round_to_double total
      ≤ (processed : ℚ) / (total : ℚ) * ((1 + 1 / 2 ^ 53) / (1 - 1 / 2 ^ 53)) := by
    rw [div_mul_div_comm]
    exact div_le_div₀ (by positivity) hPu (by positivity) hTl
  have hdl : (processed : ℚ) / (total : ℚ) * ((1 - 1 / 2 ^ 53) / (1 + 1 / 2 ^ 53))
      ≤ round_to_double processed / round_to_double total := by
    rw [div_mul_div_comm]
    exact div_le_div₀ (by positivity) hPl hT hTu
  unfold percentage_of
  rw [if_pos h]
  simp only [to_double, double_div, double_mul]
  set X := (processed : ℚ) / (total : ℚ)
  set D := round_to_double processed / round_to_double total
  set Q := round_to_double D
  set R := round_to_double (Q * 100)
  have hRup : R ≤ X * ((1 + 1 / 2 ^ 53) / (1 - 1 / 2 ^ 53)) * (1 + 1 / 2 ^ 53) * 100
      * (1 + 1 / 2 ^ 53) := by
    have a1 : Q ≤ X * ((1 + 1 / 2 ^ 53) / (1 - 1 / 2 ^ 53)) * (1 + 1 / 2 ^ 53) :=
      hQu.trans (mul_le_mul_of_nonneg_right hdu hup.le)
    have a2 : Q * 100 ≤ X * ((1 + 1 / 2 ^ 53) / (1 - 1 / 2 ^ 53)) * (1 + 1 / 2 ^ 53) * 100 :=
      mul_le_mul_of_nonneg_right a1 (by norm_num)
    exact hRu.trans (mul_le_mul_of_nonneg_right a2 hup.le)
  have hRlo : X * ((1 - 1 / 2 ^ 53) / (1 + 1 / 2 ^ 53)) * (1 - 1 / 2 ^ 53) * 100
      * (1 - 1 / 2 ^ 53) ≤ R := by
    have a1 : X * ((1 - 1 / 2 ^ 53) / (1 + 1 / 2 ^ 53)) * (1 - 1 / 2 ^ 53) ≤ Q :=
      (mul_le_mul_of_nonneg_right hdl hlow.le).trans hQl
    have a2 : X * ((1 - 1 / 2 ^ 53) / (1 + 1 / 2 ^ 53)) * (1 - 1 / 2 ^ 53) * 100 ≤ Q * 100 :=
      mul_le_mul_of_nonneg_right a1 (by norm_num)
    exact (mul_le_mul_of_nonneg_right a2 hlow.le).trans hRl
  have cu : ((1 : ℚ) + 1 / 2 ^ 53) / (1 - 1 / 2 ^ 53) * (1 + 1 / 2 ^ 53) * 100 * (1 + 1 / 2 ^ 53)
      ≤ 100 + 100 / 2 ^ 50 := by norm_num
  have cl : (100 : ℚ) - 100 / 2 ^ 50
      ≤ (1 - 1 / 2 ^ 53) / (1 + 1 / 2 ^ 53) * (1 - 1 / 2 ^ 53) * 100 * (1 - 1 / 2 ^ 53) := by
    norm_num
  have hu2 : R ≤ X * (100 + 100 / 2 ^ 50) := by
    refine hRup.trans ?_
    have := mul_le_mul_of_nonneg_left cu hX.le
    calc X * ((1 + 1 / 2 ^ 53) / (1 - 1 / 2 ^ 53)) * (1 + 1 / 2 ^ 53) * 100 * (1 + 1 / 2 ^ 53)
        = X * ((1 + 1 / 2 ^ 53) / (1 - 1 / 2 ^ 53) * (1 + 1 / 2 ^ 53) * 100 * (1 + 1 / 2 ^ 53)) := by
          ring
      _ ≤ X * (100 + 100 / 2 ^ 50) := this
  have hl2 : X * (100 - 100 / 2 ^ 50) ≤ R := by
    refine le_trans ?_ hRlo
    have := mul_le_mul_of_nonneg_left cl hX.le
    calc X * (100 - 100 / 2 ^ 50)
        ≤ X * ((1 - 1 / 2 ^ 53) / (1 + 1 / 2 ^ 53) * (1 - 1 / 2 ^ 53) * 100 * (1 - 1 / 2 ^ 53)) :=
          this
      _ = X * ((1 - 1 / 2 ^ 53) / (1 + 1 / 2 ^ 53)) * (1 - 1 / 2 ^ 53) * 100 * (1 - 1 / 2 ^ 53) := by
          ring
  rw [abs_le]
  constructor
  · have e : X * (100 - 100 / 2 ^ 50) = X * 100 - X * 100 / 2 ^ 50 := by ring
    linarith
  · have e : X * (100 + 100 / 2 ^ 50) = X * 100 + X * 100 / 2 ^ 50 := by ring
    linarith

theorem percentage_of_six_of_five : percentage_of 6 5 = 120 := by
  have h6 : to_double 6 = 6 := by
    have h := round_to_double_nat 6 (by norm_num)
    simpa [to_double] using h
  have h5 : to_double 5 = 5 := by
    have h := round_to_double_nat 5 (by norm_num)
    simpa [to_double] using h
  have hq : round_to_double (6 / 5) = 5404319552844595 / 2 ^ 52 := by
    rw [round_to_double_eq (6 / 5) 0 5404319552844595 (by norm_num) (by norm_num)
      (by norm_num [abs_lt])]
    norm_num
  have hr : round_to_double (5404319552844595 / 2 ^ 52 * 100) = 120 := by
    rw [round_to_double_eq (5404319552844595 / 2 ^ 52 * 100) 6 8444249301319680 (by norm_num)
      (by norm_num) (by norm_num [abs_lt])]
    norm_num
  unfold percentage_of
  rw [if_pos (by norm_num), h6, h5, double_div, hq, double_mul, hr]

theorem percentage_of_one_of_four : percentage_of 1 4 = 25 := by
  have h1 : to_double 1 = 1 := by
    have h := round_to_double_nat 1 (by norm_num)
    simpa [to_double] using h
  have h4 : to_double 4 = 4 := by
    have h := round_to_double_nat 4 (by norm_num)
    simpa [to_double] using h
  have hq : round_to_double (1 / 4) = 1 / 4 := by
    have h := round_to_double_exact 1 (-2) (by norm_num)
    norm_num at h ⊢
    exact h
  have hr : round_to_double (1 / 4 * 100) = 25 := by
    have h := round_to_double_nat 25 (by norm_num)
    norm_num at h ⊢
    exact h
  unfold percentage_of
  rw [if_pos (by norm_num), h1, h4, double_div, hq, double_mul, hr]

theorem percentage_of_one_of_three : percentage_of 1 3 = 4691249611844266 / 2 ^ 47 := by
  have h1 : to_double 1 = 1 := by
    have h := round_to_double_nat 1 (by norm_num)
    simpa [to_double] using h
  have h3 : to_double 3 = 3 := by
    have h := round_to_double_nat 3 (by norm_num)
    simpa [to_double] using h
  have hq : round_to_double (1 / 3) = 6004799503160661 / 2 ^ 54 := by
    rw [round_to_double_eq (1 / 3) (-2) 6004799503160661 (by norm_num) (by norm_num)
      (by norm_num [abs_lt])]
    norm_num
  have hr : round_to_double (6004799503160661 / 2 ^ 54 * 100) = 4691249611844266 / 2 ^ 47 := by
    rw [round_to_double_eq (6004799503160661 / 2 ^ 54 * 100) 5 4691249611844266 (by norm_num)
      (by norm_num) (by norm_num [abs_lt])]
    norm_num
  unfold percentage_of
  rw [if_pos (by norm_num), h1, h3, double_div, hq, double_mul, hr]

theorem to_double_loses_bit : to_double (2 ^ 53 + 1) = 2 ^ 53 := by
  unfold to_double
  rw [round_to_double_tie _ 53 (2 ^ 52) (by norm_num) (by norm_num) (by norm_num)]
  norm_num

theorem percentage_of_large : percentage_of (2 ^ 53 + 1) 1 = 900719925474099200 := by
  have h1 : to_double 1 = 1 := by
    have h := round_to_double_nat 1 (by norm_num)
    simpa [to_double] using h
  have hq : round_to_double (2 ^ 53 / 1) = 2 ^ 53 := by
    have h := round_to_double_exact 1 53 (by norm_num)
    norm_num at h ⊢
    exact h
  have hr : round_to_double (2 ^ 53 * 100) = 900719925474099200 := by
    have h := round_to_double_exact 25 55 (by norm_num)
    norm_num at h ⊢
    exact h
  unfold percentage_of
  rw [if_pos (by norm_num), to_double_loses_bit, h1, double_div, hq, double_mul, hr]

/-- Below `2 ^ 53` more bytes than the total give more than a hundred. -/
theorem percentage_of_gt_hundred (processed total : ℕ) (ht : 0 < total)
    (hp : processed < 2 ^ 53) (hlt : total < processed) :
    100 < percentage_of processed total := by
  have ht53 : total < 2 ^ 53 := lt_trans hlt hp
  have ht0 : (0 : ℚ) < (total : ℚ) := by exact_mod_cast ht
  have hy : (1 : ℚ) + 1 / 2 ^ 53 < (processed : ℚ) / (total : ℚ) := by
    rw [lt_div_iff₀ ht0]
    have h1 : (total : ℚ) + 1 ≤ (processed : ℚ) := by exact_mod_cast hlt
    have h2 : (total : ℚ) < 2 ^ 53 := by exact_mod_cast ht53
    have h3 : (1 + 1 / 2 ^ 53) * (total : ℚ) = (total : ℚ) + (total : ℚ) / 2 ^ 53 := by ring
    have h4 : (total : ℚ) / 2 ^ 53 < 1 := by
      rw [div_lt_one (by positivity)]
      exact h2
    linarith
  have hnext : round_to_double (1 + 1 / 2 ^ 52) = 1 + 1 / 2 ^ 52 := by
    have h := round_to_double_exact (2 ^ 52 + 1) (-52) (by norm_num)
    norm_num at h ⊢
    exact h
  have hq : (1 : ℚ) + 1 / 2 ^ 52 ≤ round_to_double ((processed : ℚ) / (total : ℚ)) := by
    by_cases hbig : (1 : ℚ) + 1 / 2 ^ 52 ≤ (processed : ℚ) / (total : ℚ)
    · rw [← hnext]
      exact round_to_double_mono _ _ hbig
    · have hsmall : (processed : ℚ) / (total : ℚ) < 1 + 1 / 2 ^ 52 := not_le.mp hbig
      rw [round_to_double_eq _ 0 (2 ^ 52 + 1) (by norm_num; linarith)
        (by norm_num; norm_num at hsmall; linarith)
        (by
          rw [abs_lt]
          norm_num at hy hsmall ⊢
          constructor <;> linarith)]
      norm_num
  have hr : (100 : ℚ) < round_to_double ((1 + 1 / 2 ^ 52) * 100) := by
    rw [round_to_double_eq ((1 + 1 / 2 ^ 52) * 100) 6 (100 * 2 ^ 46 + 2) (by norm_num)
      (by norm_num) (by norm_num [abs_lt])]
    norm_num
  unfold percentage_of
  rw [if_pos ht, to_double, to_double, round_to_double_nat _ hp, round_to_double_nat _ ht53,
    double_div, double_mul]
  exact lt_of_lt_of_le hr (round_to_double_mono _ _ (by linarith))

/-! ## Theorems on the progress event and on the text processor -/

/-- C18, at one byte of three: the percentage of the event is the `double`
`4691249611844266 / 2 ^ 47`, a little below `33.333333333333336`, and not the
quotient `1 / 3 * 100`; and at `2 ^ 53 + 1` bytes of one, the conversion to
`double` drops the last bit, so that the percentage is `900719925474099200`
and not `900719925474099300`. -/
theorem percentage_is_rounded :
    (ProgressEvent.create "a.txt" 1 3 "processing").percentage = 4691249611844266 / 2 ^ 47 ∧
    (ProgressEvent.create "a.txt" 1 3 "processing").percentage ≠ (1 : ℚ) / 3 * 100 ∧
    (ProgressEvent.create "a.txt" (2 ^ 53 + 1) 1 "processing").percentage = 900719925474099200 ∧
    (ProgressEvent.create "a.txt" (2 ^ 53 + 1) 1 "processing").percentage
      ≠ ((2 ^ 53 + 1 : ℕ) : ℚ) / ((1 : ℕ) : ℚ) * 100 := by
  have h3 : (ProgressEvent.create "a.txt" 1 3 "processing").percentage
      = 4691249611844266 / 2 ^ 47 := percentage_of_one_of_three
  have hl : (ProgressEvent.create "a.txt" (2 ^ 53 + 1) 1 "processing").percentage
      = 900719925474099200 := percentage_of_large
  refine ⟨h3, ?_, hl, ?_⟩
  · rw [h3]
    norm_num
  · rw [hl]
    norm_num

/-- C18, amended: the event constructed from a file name, two byte counts and
a status stores the four unchanged.  Its percentage is `0` when `total = 0`.
When `total > 0` it is the `double` that
`static_cast<double>(processed) / total * 100.0` evaluates to, every operation
rounding its result: it differs from `processed / total * 100` by at most the
`2 ^ 50`-th part of that quotient, it is `0` for `processed = 0` and `100` for
`processed = total`, it is never negative, and it is at most `100` whenever
`processed ≤ total`. -/
theorem progress_event_fields (file : String) (processed total : Nat) (stat : String) :
    (ProgressEvent.create file processed total stat).filename = file ∧
    (ProgressEvent.create file processed total stat).bytes_processed = processed ∧
    (ProgressEvent.create file processed total stat).total_bytes = total ∧
    (ProgressEvent.create file processed total stat).status = stat ∧
    (total = 0 → (ProgressEvent.create file processed total stat).percentage = 0) ∧
    (0 < total →
      (ProgressEvent.create file processed total stat).percentage
        = double_mul (double_div (to_double processed) (to_double total)) 100) ∧
    (0 < total →
      |(ProgressEvent.create file processed total stat).percentage
          - (processed : ℚ) / (total : ℚ) * 100|
        ≤ (processed : ℚ) / (total : ℚ) * 100 / 2 ^ 50) ∧
    (processed = 0 → (ProgressEvent.create file processed total stat).percentage = 0) ∧
    (0 < total → processed = total →
      (ProgressEvent.create file processed total stat).percentage = 100) ∧
    0 ≤ (ProgressEvent.create file processed total stat).percentage ∧
    (processed ≤ total → (ProgressEvent.create file processed total stat).percentage ≤ 100) := by
  refine ⟨rfl, rfl, rfl, rfl, ?_, ?_, ?_, ?_, ?_, ?_, ?_⟩
  · intro h
    simp [ProgressEvent.create, percentage_of, h]
  · intro h
    simp [ProgressEvent.create, percentage_of, h]
  · intro h
    exact percentage_of_error processed total h
  · intro h
    subst h
    exact percentage_of_zero total
  · intro h heq
    subst heq
    exact percentage_of_all processed h
  · exact percentage_of_nonneg processed total
  · intro h
    exact percentage_of_le_hundred processed total h

theorem progress_event_fields_witness :
    (ProgressEvent.create "a.txt" 1 4 "processing").percentage = 25 ∧
    |(ProgressEvent.create "a.txt" 1 3 "processing").percentage
        - ((1 : ℕ) : ℚ) / ((3 : ℕ) : ℚ) * 100|
      ≤ ((1 : ℕ) : ℚ) / ((3 : ℕ) : ℚ) * 100 / 2 ^ 50 ∧
    (ProgressEvent.create "a.txt" 1 0 "processing").percentage = 0 ∧
    (ProgressEvent.create "a.txt" 5 5 "completed").percentage = 100 :=
  have h4 := (progress_event_fields "a.txt" 1 4 "processing").2.2.2.2.2.1 (by decide)
  have h3 := (progress_event_fields "a.txt" 1 3 "processing").2.2.2.2.2.2.1 (by decide)
  have h0 := (progress_event_fields "a.txt" 1 0 "processing").2.2.2.2.1 rfl
  have h5 := (progress_event_fields "a.txt" 5 5 "completed").2.2.2.2.2.2.2.2.1 (by decide) rfl
  ⟨h4.trans percentage_of_one_of_four, h3, h0, h5⟩

/-- The percentage of an event is never negative and is at most `100` when
`processed ≤ total`; for byte counts below `2 ^ 53`, which convert to `double`
exactly, it is at most `100` only then. -/
theorem percentage_le_hundred_iff (file : String) (processed total : Nat) (stat : String)
    (h : 0 < total) (hp : processed < 2 ^ 53) :
    0 ≤ (ProgressEvent.create file processed total stat).percentage ∧
    ((ProgressEvent.create file processed total stat).percentage ≤ 100 ↔ processed ≤ total) := by
  refine ⟨percentage_of_nonneg processed total, ?_, percentage_of_le_hundred processed total⟩
  intro hle
  by_contra hgt
  have hlt : total < processed := not_le.mp hgt
  have h100 : 100 < percentage_of processed total :=
    percentage_of_gt_hundred processed total h hp hlt
  have hle' : percentage_of processed total ≤ 100 := hle
  exact absurd h100 (not_lt.mpr hle')

/-- The events of one `process` call of the text processor with chunks of four
bytes on the file `ab\ncd`, whose last line has no newline. -/
theorem unterminated_events :
    published_by freshBus
        (smallChunks.process quietObservers unterminatedDisk 0 "a.txt" freshBus).2 =
      [ProgressEvent.create "a.txt" 0 5 "started", ProgressEvent.create "a.txt" 6 5 "processing",
        ProgressEvent.create "a.txt" 5 5 "completed"] := by
  have h := published_of_return quietObservers unterminatedDisk.fs
    (smallChunks.process_impl unterminatedDisk) 0 "a.txt" freshBus 5
    { ProcessResult.default with
      success := true
      message := "Text processing completed"
      metadata :=
        [("lines", "2"), ("words", "2"), ("characters", "5"),
          ("output_file", "./output/a_analysis.txt")] }
    rfl rfl rfl
  have hcalls : (smallChunks.process_impl unterminatedDisk "a.txt").calls =
      [{ filepath := "a.txt", processed := 6, total := 5, status := "processing" }] := by
    decide
  rw [TextProcessor.process, h, hcalls]
  rfl
/-- C19, at a last line without newline: the file `ab\ncd` has five bytes and
the text processor reads it in chunks of four.  The reading loop counts
`line.length() + 1` for the second line too, so the `processing` event it
publishes reports `6` bytes of `5`: a percentage of `120`, above `100`. -/
theorem text_progress_exceeds_total :
    unterminatedDisk.open_file "a.txt" = some "ab\ncd" ∧
    unterminatedDisk.fs.file_size "a.txt" = .ok 5 ∧
    (published_by freshBus
        (smallChunks.process quietObservers unterminatedDisk 0 "a.txt" freshBus).2).map
      (fun e => (e.status, e.bytes_processed, e.total_bytes))
      = [("started", 0, 5), ("processing", 6, 5), ("completed", 5, 5)] ∧
    ∃ e ∈ published_by freshBus
        (smallChunks.process quietObservers unterminatedDisk 0 "a.txt" freshBus).2,
      e.status = "processing" ∧ e.total_bytes < e.bytes_processed ∧
      e.percentage = 120 ∧ 100 < e.percentage := by
  rw [unterminated_events]
  refine ⟨rfl, rfl, rfl, ProgressEvent.create "a.txt" 6 5 "processing", ?_, rfl, ?_, ?_, ?_⟩
  · simp
  · simp [ProgressEvent.create]
  · exact percentage_of_six_of_five
  · rw [show (ProgressEvent.create "a.txt" 6 5 "processing").percentage = 120 from
      percentage_of_six_of_five]
    norm_num

/-- C20, at a last line without newline: on the file `ab\ncd` of five bytes,
read in chunks of four, the events report `0`, then `6`, then `5` bytes: the
terminal event reports fewer bytes than the `processing` event before it, and
a lower percentage, `100` after `120`. -/
theorem text_progress_goes_down :
    (published_by freshBus
        (smallChunks.process quietObservers unterminatedDisk 0 "a.txt" freshBus).2).map
      (fun e => (e.status, e.bytes_processed))
      = [("started", 0), ("processing", 6), ("completed", 5)] ∧
    ¬ List.Chain' (fun a b => a ≤ b)
      ((published_by freshBus
        (smallChunks.process quietObservers unterminatedDisk 0 "a.txt" freshBus).2).map
        (fun e => e.bytes_processed)) ∧
    (published_by freshBus
        (smallChunks.process quietObservers unterminatedDisk 0 "a.txt" freshBus).2).map
      (fun e => e.percentage) = [0, 120, 100] := by
  rw [unterminated_events]
  refine ⟨rfl, ?_, ?_⟩
  · simp [ProgressEvent.create]
  · simp only [List.map_cons, List.map_nil, ProgressEvent.create, percentage_of_zero,
      percentage_of_six_of_five, percentage_of_all 5 (by decide)]


/-! ### Where the byte counts do stay in range -/

/-- The reading loop counts one byte more than the stream holds at most, and
exactly what it holds when the stream ends with a newline. -/
theorem getlines_from_bytes (current rest : List Char) :
    ((getlines_from current rest).map (fun l => l.length + 1)).sum
        ≤ current.length + rest.length + 1 ∧
    (rest.getLast? = some '\n' →
      ((getlines_from current rest).map (fun l => l.length + 1)).sum
        = current.length + rest.length) := by
  induction rest generalizing current with
  | nil =>
    cases current with
    | nil => simp [getlines_from]
    | cons c cs => simp [getlines_from]
  | cons c rest ih =>
    by_cases hc : c = '\n'
    · have h := ih []
      simp only [getlines_from, hc, if_true, List.map_cons, List.sum_cons, List.length_cons,
        List.length_nil] at h ⊢
      refine ⟨by omega, ?_⟩
      intro hlast
      cases rest with
      | nil => simp [getlines_from]
      | cons d ds =>
        have hl : (d :: ds).getLast? = some '\n' := by
          simpa [List.getLast?_cons_cons] using hlast
        have := h.2 hl
        simp only [List.length_cons] at this ⊢
        omega
    · have h := ih (current ++ [c])
      simp only [getlines_from, hc, if_false, List.length_cons, List.length_append,
        List.length_singleton, List.length_nil] at h ⊢
      refine ⟨by omega, ?_⟩
      intro hlast
      cases rest with
      | nil =>
        simp only [List.getLast?_singleton, Option.some.injEq] at hlast
        exact absurd hlast hc
      | cons d ds =>
        have hl : (d :: ds).getLast? = some '\n' := by
          simpa [List.getLast?_cons_cons] using hlast
        have := h.2 hl
        simp only [List.length_cons] at this ⊢
        omega

theorem getlines_bytes (text : String) :
    ((getlines text).map (fun l => l.length + 1)).sum ≤ text.length + 1 ∧
    (text.data.getLast? = some '\n' ∨ text.data = [] →
      ((getlines text).map (fun l => l.length + 1)).sum = text.length) := by
  have h := getlines_from_bytes [] text.data
  have hmap : (getlines text).map (fun l => l.length + 1)
      = (getlines_from [] text.data).map (fun l => l.length + 1) := by
    simp [getlines, List.map_map, Function.comp_def]
  rw [hmap]
  simp only [List.length_nil, Nat.zero_add] at h
  refine ⟨h.1, ?_⟩
  intro hend
  rcases hend with hend | hend
  · exact h.2 hend
  · have hlen : text.length = 0 := by
      rw [String.length, hend]; rfl
    rw [hend, hlen]
    simp [getlines_from]

/-- The calls of the reading loop report growing byte counts, none beyond the
counter plus the bytes counted for the lines still to read. -/
theorem read_loop_calls (chunk_size_ : Nat) (filepath : String) (total_bytes : Nat)
    (lines : List String) (content : String) (processed_bytes : Nat) :
    List.Chain (fun a b => a ≤ b) processed_bytes
      ((TextProcessor.read_loop chunk_size_ filepath total_bytes lines content
        processed_bytes).map (fun c => c.processed)) ∧
    ∀ c ∈ TextProcessor.read_loop chunk_size_ filepath total_bytes lines content processed_bytes,
      c.processed ≤ processed_bytes + (lines.map (fun l => l.length + 1)).sum ∧
      c.total = total_bytes ∧ c.status = "processing" := by
  induction lines generalizing content processed_bytes with
  | nil => simp [TextProcessor.read_loop]
  | cons line rest ih =>
    by_cases hchunk : (content ++ (line ++ "\n")).length ≥ chunk_size_
    · have h := ih "" (processed_bytes + (line.length + 1))
      simp only [TextProcessor.read_loop, hchunk, if_true, List.map_cons, List.chain_cons,
        List.mem_cons, List.sum_cons]
      refine ⟨⟨by omega, h.1⟩, ?_⟩
      intro c hc
      rcases hc with hc | hc
      · subst hc
        exact ⟨by simp only []; omega, rfl, rfl⟩
      · have := h.2 c hc
        exact ⟨by omega, this.2⟩
    · have h := ih (content ++ (line ++ "\n")) (processed_bytes + (line.length + 1))
      simp only [TextProcessor.read_loop, hchunk, if_false, List.map_cons, List.sum_cons]
      refine ⟨?_, ?_⟩
      · cases hl : (TextProcessor.read_loop chunk_size_ filepath total_bytes rest
            (content ++ (line ++ "\n")) (processed_bytes + (line.length + 1))).map
            (fun c => c.processed) with
        | nil => exact List.Chain.nil
        | cons x xs =>
          have hch := h.1
          rw [hl, List.chain_cons] at hch
          exact List.chain_cons.mpr ⟨by omega, hch.2⟩
      · intro c hc
        have := h.2 c hc
        exact ⟨by omega, this.2⟩

theorem chain_le_snoc (a z : Nat) (l : List Nat) (hch : List.Chain (fun a b => a ≤ b) a l)
    (hz : ∀ x ∈ l, x ≤ z) (haz : a ≤ z) :
    List.Chain (fun a b => a ≤ b) a (l ++ [z]) := by
  induction l generalizing a with
  | nil => exact List.chain_cons.mpr ⟨haz, List.Chain.nil⟩
  | cons x xs ih =>
    rw [List.chain_cons] at hch
    exact List.chain_cons.mpr ⟨hch.1,
      ih x hch.2 (fun y hy => hz y (List.mem_cons_of_mem _ hy)) (hz x (List.mem_cons_self _ _))⟩

/-- On a file that opens, of the size of its content: the events of one
`process` call of the text processor are `started`, the `processing` events of
the reading loop and `completed`; no event reports more than one byte beyond
the total; and when the content is empty or ends with a newline, no event
reports more than the total and no event reports fewer bytes than the event
before it. -/
theorem text_progress_in_range {σ : Type} (tp : TextProcessor) (env : Observers σ)
    (te : TextEnv) (elapsed : Nat) (filepath : String) (b : Bus σ) (text : String)
    (hex : te.fs.exists filepath = .ok true)
    (hsz : te.fs.file_size filepath = .ok text.length)
    (hopen : te.open_file filepath = some text) :
    published_by b (tp.process env te elapsed filepath b).2 =
      ProgressEvent.create filepath 0 text.length "started" ::
        ((TextProcessor.read_loop tp.chunk_size_ filepath text.length (getlines text) "" 0).map
          (fun c => ProgressEvent.create c.filepath c.processed c.total c.status) ++
        [ProgressEvent.create filepath text.length text.length "completed"]) ∧
    (∀ e ∈ published_by b (tp.process env te elapsed filepath b).2,
      e.bytes_processed ≤ e.total_bytes + 1) ∧
    (text.data.getLast? = some '\n' ∨ text.data = [] →
      (∀ e ∈ published_by b (tp.process env te elapsed filepath b).2,
        e.bytes_processed ≤ e.total_bytes) ∧
      List.Chain' (fun a b => a ≤ b)
        ((published_by b (tp.process env te elapsed filepath b).2).map
          (fun e => e.bytes_processed))) := by
  have hcalls : (tp.process_impl te filepath).calls =
      TextProcessor.read_loop tp.chunk_size_ filepath text.length (getlines text) "" 0 := by
    simp [TextProcessor.process_impl, hopen, hsz]
  have hout : ∃ r, (tp.process_impl te filepath).outcome = .ok r ∧ r.success = true := by
    simp [TextProcessor.process_impl, hopen, hsz]
  rcases hout with ⟨r, hr, hsucc⟩
  have hpub := published_of_return env te.fs (tp.process_impl te) elapsed filepath b text.length r
    hex hsz hr
  rw [hcalls, hsucc] at hpub
  simp only [if_true] at hpub
  have hloop := read_loop_calls tp.chunk_size_ filepath text.length (getlines text) "" 0
  have hbytes := getlines_bytes text
  simp only [Nat.zero_add] at hloop
  rw [TextProcessor.process, hpub]
  refine ⟨rfl, ?_, ?_⟩
  · intro e he
    simp only [List.mem_cons, List.mem_append, List.mem_map, List.mem_singleton,
      List.not_mem_nil, or_false] at he
    rcases he with he | ⟨c, hc, he⟩ | he
    · subst he; simp [ProgressEvent.create]
    · subst he
      have := hloop.2 c hc
      simp only [ProgressEvent.create]
      rw [this.2.1]
      omega
    · subst he; simp [ProgressEvent.create]
  · intro hend
    have hsum := hbytes.2 hend
    rw [hsum] at hloop
    constructor
    · intro e he
      simp only [List.mem_cons, List.mem_append, List.mem_map, List.mem_singleton,
        List.not_mem_nil, or_false] at he
      rcases he with he | ⟨c, hc, he⟩ | he
      · subst he; simp [ProgressEvent.create]
      · subst he
        have := hloop.2 c hc
        simp only [ProgressEvent.create]
        rw [this.2.1]
        exact this.1
      · subst he; simp [ProgressEvent.create]
    · have hlist : (ProgressEvent.create filepath 0 text.length "started" ::
          ((TextProcessor.read_loop tp.chunk_size_ filepath text.length (getlines text) "" 0).map
            (fun c => ProgressEvent.create c.filepath c.processed c.total c.status) ++
          [ProgressEvent.create filepath text.length text.length "completed"])).map
          (fun e => e.bytes_processed)
          = 0 :: ((TextProcessor.read_loop tp.chunk_size_ filepath text.length (getlines text)
            "" 0).map (fun c => c.processed) ++ [text.length]) := by
        simp [List.map_map, Function.comp_def, ProgressEvent.create]
      rw [hlist]
      exact chain_le_snoc 0 text.length _ hloop.1
        (by
          intro x hx
          rcases List.mem_map.mp hx with ⟨c, hc, rfl⟩
          exact (hloop.2 c hc).1)
        (Nat.zero_le _)

theorem text_progress_in_range_witness :
    (TextEnv.of_files (fun p => if p = "a.txt" then some "ab\ncd\n" else none)).fs.exists "a.txt"
      = .ok true ∧
    (∀ e ∈ published_by freshBus
        (smallChunks.process quietObservers
          (TextEnv.of_files (fun p => if p = "a.txt" then some "ab\ncd\n" else none))
          0 "a.txt" freshBus).2,
      e.bytes_processed ≤ e.total_bytes) :=
  have h := text_progress_in_range smallChunks quietObservers
    (TextEnv.of_files (fun p => if p = "a.txt" then some "ab\ncd\n" else none)) 0 "a.txt"
    freshBus "ab\ncd\n" rfl rfl rfl
  ⟨rfl, (h.2.2 (Or.inl (by decide))).1⟩


/-! ## Theorems on the end of `main` and on the extensions -/

theorem collect_outcome_counts (acc : ProcessingStats × List String)
    (outcomes : List (Outcome ProcessResult)) :
    (outcomes.foldl collect_outcome acc).1.errors =
      acc.1.errors + outcomes.countP Outcome.failed ∧
    (outcomes.foldl collect_outcome acc).1.files_processed + outcomes.countP
        (fun o => match o with | Outcome.failure _ => true | Outcome.value _ => false)
      = acc.1.files_processed + outcomes.length ∧
    (outcomes.foldl collect_outcome acc).2.length =
      acc.2.length + outcomes.countP Outcome.failed := by
  induction outcomes generalizing acc with
  | nil => simp
  | cons o rest ih =>
    have h := ih (collect_outcome acc o)
    simp only [List.foldl_cons, List.countP_cons, List.length_cons]
    rcases o with r | e
    · cases hs : r.success
      · have h1 : collect_outcome acc (Outcome.value r) =
            ({ files_processed := acc.1.files_processed + 1
               bytes_processed := acc.1.bytes_processed + r.bytes_processed
               errors := acc.1.errors + 1 },
              acc.2 ++ ["Processing failed: " ++ r.message]) := by
          simp [collect_outcome, hs]
        rw [h1] at h
        simp only [List.length_append, List.length_singleton] at h
        simp only [h1, Outcome.failed, hs, Bool.not_false, if_true]
        refine ⟨by omega, by simp only [Bool.false_eq_true, if_false]; omega, by omega⟩
      · have h1 : collect_outcome acc (Outcome.value r) =
            ({ files_processed := acc.1.files_processed + 1
               bytes_processed := acc.1.bytes_processed + r.bytes_processed
               errors := acc.1.errors }, acc.2) := by
          simp [collect_outcome, hs]
        rw [h1] at h
        dsimp only at h
        simp only [h1, Outcome.failed, hs, Bool.not_true, Bool.false_eq_true, if_false]
        refine ⟨by omega, by omega, by omega⟩
    · have h1 : collect_outcome acc (Outcome.failure e) =
          ({ acc.1 with errors := acc.1.errors + 1 },
            acc.2 ++ ["Task execution failed: " ++ e.what]) := rfl
      rw [h1] at h
      simp only [List.length_append, List.length_singleton] at h
      simp only [h1, Outcome.failed, if_true]
      refine ⟨by omega, by omega, by omega⟩

/-- C21: the exit status of `main` for a non-empty list of outcomes.  The loop
visits every outcome, whatever came before it: an error is counted, and a line
logged, for each record without success and each raised failure, and every
outcome is counted either as a file processed or as a raised failure.  The
status is non-zero exactly when some outcome is a failed record or a raised
failure, and `0` exactly when every outcome is a record with success. -/
theorem exit_status_reports_failures (outcomes : List (Outcome ProcessResult))
    (hne : outcomes ≠ []) :
    (collect_outcomes outcomes).1.errors = outcomes.countP Outcome.failed ∧
    (collect_outcomes outcomes).2.length = outcomes.countP Outcome.failed ∧
    (collect_outcomes outcomes).1.files_processed + outcomes.countP
        (fun o => match o with | Outcome.failure _ => true | Outcome.value _ => false)
      = outcomes.length ∧
    (exit_status outcomes ≠ 0 ↔ ∃ o ∈ outcomes, o.failed = true) ∧
    (exit_status outcomes = 0 ↔
      ∀ o ∈ outcomes, ∃ r, o = Outcome.value r ∧ r.success = true) := by
  have h := collect_outcome_counts
    ({ files_processed := 0, bytes_processed := 0, errors := 0 }, []) outcomes
  simp only [Nat.zero_add, List.length_nil] at h
  have hempty : outcomes.isEmpty = false := by
    cases outcomes with
    | nil => exact absurd rfl hne
    | cons o rest => rfl
  have hpos : (0 < outcomes.countP Outcome.failed) ↔ ∃ o ∈ outcomes, o.failed = true :=
    List.countP_pos_iff
  have hstatus : exit_status outcomes = if 0 < outcomes.countP Outcome.failed then 1 else 0 := by
    simp only [exit_status, hempty, Bool.false_eq_true, if_false, collect_outcomes, h.1]
  refine ⟨h.1, h.2.2, h.2.1, ?_, ?_⟩
  · rw [hstatus, ← hpos]
    by_cases hc : 0 < outcomes.countP Outcome.failed <;> simp [hc]
  · rw [hstatus]
    constructor
    · intro hz o ho
      have hnone : ¬ ∃ o ∈ outcomes, o.failed = true := by
        rw [← hpos]
        intro hc
        simp [hc] at hz
      rcases o with r | e
      · refine ⟨r, rfl, ?_⟩
        cases hs : r.success
        · exact absurd ⟨_, ho, by simp [Outcome.failed, hs]⟩ hnone
        · rfl
      · exact absurd ⟨_, ho, rfl⟩ hnone
    · intro hall
      have hnot : ¬ 0 < outcomes.countP Outcome.failed := by
        rw [hpos]
        rintro ⟨o, ho, hf⟩
        rcases hall o ho with ⟨r, rfl, hr⟩
        simp [Outcome.failed, hr] at hf
      simp [hnot]

theorem exit_status_reports_failures_witness :
    [Outcome.value { ProcessResult.default with success := true },
      Outcome.failure ⟨"Test exception"⟩,
      Outcome.value { ProcessResult.default with success := true }] ≠ [] ∧
    (collect_outcomes [Outcome.value { ProcessResult.default with success := true },
      Outcome.failure ⟨"Test exception"⟩,
      Outcome.value { ProcessResult.default with success := true }]).1.files_processed = 2 ∧
    exit_status [Outcome.value { ProcessResult.default with success := true },
      Outcome.failure ⟨"Test exception"⟩,
      Outcome.value { ProcessResult.default with success := true }] ≠ 0 :=
  have h := exit_status_reports_failures
    [Outcome.value { ProcessResult.default with success := true },
      Outcome.failure ⟨"Test exception"⟩,
      Outcome.value { ProcessResult.default with success := true }] (by decide)
  ⟨by decide, by decide, h.2.2.2.1.mpr ⟨Outcome.failure ⟨"Test exception"⟩, by decide, rfl⟩⟩

/-- C22: `canProcess(ext)` holds exactly when `ext` is one of the nine
extensions of the set, dot included and in lower case; it fails on `.exe` and
`.bin`, on an extension in capitals and on one without its dot. -/
theorem canProcess_iff (ext : String) :
    (TextProcessor.canProcess ext = true ↔
      ext = ".txt" ∨ ext = ".md" ∨ ext = ".csv" ∨ ext = ".log" ∨ ext = ".json" ∨
      ext = ".xml" ∨ ext = ".html" ∨ ext = ".css" ∨ ext = ".js") ∧
    TextProcessor.canProcess ".exe" = false ∧ TextProcessor.canProcess ".bin" = false ∧
    TextProcessor.canProcess ".TXT" = false ∧ TextProcessor.canProcess "txt" = false := by
  refine ⟨?_, by decide, by decide, by decide, by decide⟩
  simp [TextProcessor.canProcess, supported_extensions]

/-! ## Theorems on the configuration -/

theorem find_set_self (c : Config) (key value : String) :
    (c.set key value).find key = some value := by
  cases c with
  | mk l =>
    simp only [Config.set, Config.find]
    induction l with
    | nil => simp [map_assign]
    | cons entry rest ih =>
      rcases entry with ⟨k, v⟩
      by_cases hk : k = key
      · simp [map_assign, hk]
      · have hne : (k == key) = false := by simpa using hk
        simp only [map_assign, hk, if_false, List.find?_cons, hne]
        exact ih

theorem find_set_other (c : Config) (key value other : String) (h : other ≠ key) :
    (c.set key value).find other = c.find other := by
  cases c with
  | mk l =>
    simp only [Config.set, Config.find]
    induction l with
    | nil =>
      have hne : (key == other) = false := by simpa using fun e => h e.symm
      simp [map_assign, hne]
    | cons entry rest ih =>
      rcases entry with ⟨k, v⟩
      by_cases hk : k = key
      · subst hk
        have hne : (k == other) = false := by simpa using fun e => h e.symm
        simp [map_assign, List.find?_cons, hne]
      · by_cases hko : k = other
        · subst hko
          simp [map_assign, hk, List.find?_cons]
        · have hne : (k == other) = false := by simpa using hko
          simp only [map_assign, hk, if_false, List.find?_cons, hne]
          exact ih

/-- C23: after `set(k, v)`, `has(k)` is true and `get<string>(k, d)` is `v`;
the lookup of every other key, and so its `has` and its `get` of every type,
is what it was; and for a key that is absent `has` is false and `get` returns
the default it is given. -/
theorem config_set_get (c : Config) (k v d : String) :
    (c.set k v).has k = true ∧
    (c.set k v).get_string k d = v ∧
    (∀ other, other ≠ k →
      (c.set k v).find other = c.find other ∧
      (c.set k v).has other = c.has other ∧
      (c.set k v).get_string other d = c.get_string other d ∧
      (∀ b, (c.set k v).get_bool other b = c.get_bool other b)) ∧
    (∀ absent, c.find absent = none →
      c.has absent = false ∧ c.get_string absent d = d ∧
      (∀ b, c.get_bool absent b = b) ∧
      ∀ (T : Type) (convert : String → Except StdException T) (t : T),
        c.get_converted convert absent t = .ok t) := by
  refine ⟨?_, ?_, ?_, ?_⟩
  · simp [Config.has, find_set_self]
  · simp [Config.get_string, find_set_self]
  · intro other hne
    have h := find_set_other c k v other hne
    refine ⟨h, ?_, ?_, ?_⟩
    · simp [Config.has, h]
    · simp [Config.get_string, h]
    · intro b
      simp [Config.get_bool, h]
  · intro absent habs
    refine ⟨?_, ?_, ?_, ?_⟩
    · simp [Config.has, habs]
    · simp [Config.get_string, habs]
    · intro b
      simp [Config.get_bool, habs]
    · intro T convert t
      simp [Config.get_converted, habs]

theorem config_set_get_witness :
    (testConfig.set "test_string" "hello").get_string "test_string" "" = "hello" ∧
    testConfig.find "nonexistent" = none ∧
    testConfig.has "nonexistent" = false ∧
    testConfig.get_string "nonexistent" "default" = "default" :=
  have h := config_set_get testConfig "test_string" "hello" ""
  have h2 := config_set_get testConfig "test_string" "hello" "default"
  ⟨h.2.1, by decide, (h2.2.2.2 "nonexistent" (by decide)).1,
    (h2.2.2.2 "nonexistent" (by decide)).2.1⟩

/-! ## More theorems on the pipeline -/

/-- C26: on an existing file of size `s`, with a step that returns the record
`r`, the events published by `process` are, in order, `started` with `0` of
`s` bytes, the events of the step, and one terminal event with `s` of `s`
bytes, `completed` when `r.success` and `failed` when not; the record returned
has the success, the message and the metadata of `r`, and `s` as
`bytes_processed`. -/
theorem process_returning_step {σ : Type} (env : Observers σ) (fs : FileSystem)
    (process_impl : String → StepRun) (elapsed : Nat) (filepath : String) (b : Bus σ)
    (s : Nat) (r : ProcessResult)
    (hex : fs.exists filepath = .ok true) (hsz : fs.file_size filepath = .ok s)
    (hout : (process_impl filepath).outcome = .ok r) :
    (∃ started terminal : ProgressEvent,
      published_by b (process env fs process_impl elapsed filepath b).2 =
        started ::
          ((process_impl filepath).calls.map
            (fun c => ProgressEvent.create c.filepath c.processed c.total c.status) ++
          [terminal]) ∧
      started.status = "started" ∧ started.filename = filepath ∧
      started.bytes_processed = 0 ∧ started.total_bytes = s ∧
      terminal.filename = filepath ∧
      terminal.bytes_processed = s ∧ terminal.total_bytes = s ∧
      (r.success = true → terminal.status = "completed") ∧
      (r.success = false → terminal.status = "failed")) ∧
    (process env fs process_impl elapsed filepath b).1.success = r.success ∧
    (process env fs process_impl elapsed filepath b).1.message = r.message ∧
    (process env fs process_impl elapsed filepath b).1.metadata = r.metadata ∧
    (process env fs process_impl elapsed filepath b).1.bytes_processed = s := by
  rw [result_of_return env fs process_impl elapsed filepath b s r hex hsz hout]
  refine ⟨⟨ProgressEvent.create filepath 0 s "started",
    ProgressEvent.create filepath s s (if r.success then "completed" else "failed"),
    published_of_return env fs process_impl elapsed filepath b s r hex hsz hout,
    rfl, rfl, rfl, rfl, rfl, rfl, rfl, ?_, ?_⟩, rfl, rfl, rfl, rfl⟩
  · intro h
    simp [ProgressEvent.create, h]
  · intro h
    simp [ProgressEvent.create, h]

theorem process_returning_step_witness :
    oneFile.exists "a.txt" = .ok true ∧ oneFile.file_size "a.txt" = .ok 3 ∧
    (published_by freshBus
        (process quietObservers oneFile failingStep 9 "a.txt" freshBus).2).map
      (fun e => (e.status, e.bytes_processed, e.total_bytes))
      = [("started", 0, 3), ("processing", 2, 3), ("failed", 3, 3)] ∧
    (process quietObservers oneFile failingStep 9 "a.txt" freshBus).1.success = false ∧
    (process quietObservers oneFile failingStep 9 "a.txt" freshBus).1.metadata
      = [("tried", "once")] :=
  have h := process_returning_step quietObservers oneFile failingStep 9 "a.txt" freshBus 3
    { ProcessResult.default with message := "Cannot open file: " ++ "a.txt",
                                 metadata := [("tried", "once")] } rfl rfl rfl
  ⟨rfl, rfl, by
    rcases h.1 with ⟨started, terminal, hp, h1, _, h3, h4, _, h6, h7, _, h9⟩
    rw [hp]
    simp [h1, h3, h4, h6, h7, h9 rfl, failingStep, ProgressEvent.create],
    h.2.1, h.2.2.2.1⟩


/-! ## Theorems on the command line -/

/-- C25, at a flag followed by a word: for the arguments `-v fast` the short
form stores `verbose = "true"`, the switch ignoring the value taken, while for
`--verbose fast` the long form stores `verbose = "fast"`.  Read through
`get<string>` and `get<bool>` the two configurations differ; `has` agrees. -/
theorem short_and_long_flag_differ :
    ["-v", "fast"].map long_form = ["--verbose", "fast"] ∧
    (Config.loadFromCommandLine ["-v", "fast"] ⟨[]⟩).get_string "verbose" "" = "true" ∧
    (Config.loadFromCommandLine (["-v", "fast"].map long_form) ⟨[]⟩).get_string "verbose" ""
      = "fast" ∧
    (Config.loadFromCommandLine ["-v", "fast"] ⟨[]⟩).get_bool "verbose" false = true ∧
    (Config.loadFromCommandLine (["-v", "fast"].map long_form) ⟨[]⟩).get_bool "verbose" false
      = false ∧
    (Config.loadFromCommandLine ["-v", "fast"] ⟨[]⟩).has "verbose" = true ∧
    (Config.loadFromCommandLine (["-v", "fast"].map long_form) ⟨[]⟩).has "verbose" = true := by
  decide

/-! ## Theorems on the configuration file -/

/-- C30, at a line with an empty value: loading the file `key=` calls
`value.front()` on the empty value of its line, which `front()` does not
allow; the same for the line `key=` followed by blanks.  The key is then stored
with the empty string. -/
theorem load_reads_front_of_empty_value :
    (Config.loadFromFile ⟨[]⟩ (fun _ => some "key=\n") "app.conf").2.front_of_empty = ["key="] ∧
    (Config.loadFromFile ⟨[]⟩ (fun _ => some "key=   \n") "app.conf").2.front_of_empty
      = ["key=   "] ∧
    (Config.loadFromFile ⟨[]⟩ (fun _ => some "key=\n") "app.conf").2.config.find "key"
      = some "" ∧
    (Config.loadFromFile ⟨[]⟩ (fun _ => some "key=\n") "app.conf").1 = true := by
  decide

/-! ### Trimming and splitting -/

theorem not_trim_char_eq : is_trim_char '=' = false := by decide

theorem ne_eq_of_trim_char (c : Char) (h : is_trim_char c = true) : (c != '=') = true := by
  by_cases hc : c = '='
  · rw [hc, not_trim_char_eq] at h
    exact Bool.noConfusion h
  · simpa using hc

theorem takeWhile_dropWhile_trim (l : List Char) :
    (l.dropWhile is_trim_char).takeWhile (fun c => c != '=') =
      (l.takeWhile (fun c => c != '=')).dropWhile is_trim_char := by
  induction l with
  | nil => rfl
  | cons c rest ih =>
    cases hws : is_trim_char c
    · by_cases hne : (c != '=') = true
      · simp [List.dropWhile_cons, List.takeWhile_cons, hws, hne]
      · simp [List.dropWhile_cons, List.takeWhile_cons, hws, hne]
    · have hne := ne_eq_of_trim_char c hws
      simp only [List.dropWhile_cons, List.takeWhile_cons, hws, hne, if_true]
      exact ih

theorem dropWhile_dropWhile_trim (l : List Char) :
    (l.dropWhile is_trim_char).dropWhile (fun c => c != '=') =
      l.dropWhile (fun c => c != '=') := by
  induction l with
  | nil => rfl
  | cons c rest ih =>
    cases hws : is_trim_char c
    · simp [List.dropWhile_cons, hws]
    · have hne := ne_eq_of_trim_char c hws
      simp only [List.dropWhile_cons, hws, hne, if_true]
      exact ih

theorem rdropWhile_append_cons {α : Type} (p : α → Bool) (a : List α) (x : α) (b : List α)
    (hx : p x = false) :
    (a ++ x :: b).rdropWhile p = a ++ x :: b.rdropWhile p := by
  induction b using List.reverseRecOn with
  | nil =>
    have : a ++ [x] = a ++ [x] := rfl
    rw [List.rdropWhile_concat_neg p a x (by simp [hx])]
    simp
  | append_singleton b y ih =>
    have hassoc : a ++ x :: (b ++ [y]) = (a ++ x :: b) ++ [y] := by simp
    rw [hassoc]
    cases hy : p y
    · rw [List.rdropWhile_concat_neg p _ y (by simp [hy]),
        List.rdropWhile_concat_neg p b y (by simp [hy])]
      simp
    · rw [List.rdropWhile_concat_pos p _ y hy, List.rdropWhile_concat_pos p b y hy]
      exact ih

theorem rdropWhile_cons_of_neg {α : Type} (p : α → Bool) (x : α) (b : List α)
    (hx : p x = false) : (x :: b).rdropWhile p = x :: b.rdropWhile p :=
  rdropWhile_append_cons p [] x b hx

theorem dropWhile_eq_nil_or_cons {α : Type} (p : α → Bool) (l : List α) :
    l.dropWhile p = [] ∨ ∃ x b, l.dropWhile p = x :: b ∧ p x = false := by
  induction l with
  | nil => exact Or.inl rfl
  | cons c rest ih =>
    cases hc : p c
    · exact Or.inr ⟨c, rest, by simp [List.dropWhile_cons, hc], hc⟩
    · simpa [List.dropWhile_cons, hc] using ih

/-- Stripping at the back and then at the front is stripping at the front and
then at the back. -/
theorem dropWhile_rdropWhile_comm {α : Type} (p : α → Bool) (l : List α) :
    (l.rdropWhile p).dropWhile p = (l.dropWhile p).rdropWhile p := by
  induction l with
  | nil => simp
  | cons c rest ih =>
    cases hc : p c
    · rw [rdropWhile_cons_of_neg p c rest hc]
      simp only [List.dropWhile_cons, hc, Bool.false_eq_true, if_false]
      rw [rdropWhile_cons_of_neg p c rest hc]
    · simp only [List.dropWhile_cons, hc, if_true]
      rw [← ih]
      rcases dropWhile_eq_nil_or_cons p rest.reverse with hnil | ⟨x, b, hxb, hx⟩
      · have hall : ∀ y ∈ rest, p y = true := by
          intro y hy
          exact (List.dropWhile_eq_nil_iff.mp hnil) y (List.mem_reverse.mpr hy)
        have h1 : (c :: rest).rdropWhile p = [] := by
          rw [List.rdropWhile_eq_nil_iff]
          intro y hy
          rcases List.mem_cons.mp hy with h | h
          · rw [h]; exact hc
          · exact hall y h
        have h2 : rest.rdropWhile p = [] := by
          rw [List.rdropWhile_eq_nil_iff]
          exact hall
        rw [h1, h2]
      · have hrest : rest = b.reverse ++ x :: (rest.reverse.takeWhile p).reverse := by
          have := List.takeWhile_append_dropWhile p rest.reverse
          rw [hxb] at this
          have h2 := congrArg List.reverse this
          simp only [List.reverse_append, List.reverse_cons, List.reverse_reverse,
            List.append_assoc, List.singleton_append] at h2
          exact h2.symm
        have hdrop : ((rest.reverse.takeWhile p).reverse).rdropWhile p = [] := by
          rw [List.rdropWhile_eq_nil_iff]
          intro y hy
          exact List.mem_takeWhile_imp (List.mem_reverse.mp hy)
        have h1 : rest.rdropWhile p = b.reverse ++ [x] := by
          conv_lhs => rw [hrest]
          rw [rdropWhile_append_cons p _ x _ hx, hdrop]
        have h2 : (c :: rest).rdropWhile p = c :: (b.reverse ++ [x]) := by
          conv_lhs => rw [hrest]
          rw [← List.cons_append, rdropWhile_append_cons p _ x _ hx, hdrop]
          rfl
        rw [h1, h2]
        simp [List.dropWhile_cons, hc]

theorem trim_chars_dropWhile (l : List Char) :
    trim_chars (l.dropWhile is_trim_char) = trim_chars l := by
  simp [trim_chars, List.dropWhile_idempotent]

theorem trim_chars_rdropWhile (l : List Char) :
    trim_chars (l.rdropWhile is_trim_char) = trim_chars l := by
  simp only [trim_chars]
  rw [dropWhile_rdropWhile_comm, List.rdropWhile_idempotent]

theorem takeWhile_append_cons {α : Type} (p : α → Bool) (a : List α) (x : α) (r : List α)
    (ha : ∀ y ∈ a, p y = true) (hx : p x = false) :
    (a ++ x :: r).takeWhile p = a ∧ (a ++ x :: r).dropWhile p = x :: r := by
  induction a with
  | nil => simp [List.takeWhile_cons, List.dropWhile_cons, hx]
  | cons y ys ih =>
    have hy : p y = true := ha y (List.mem_cons_self _ _)
    have h := ih (fun z hz => ha z (List.mem_cons_of_mem _ hz))
    simp [List.takeWhile_cons, List.dropWhile_cons, hy, h.1, h.2]

theorem mem_dropWhile_of_neg {α : Type} (p : α → Bool) (l : List α) (x : α)
    (hmem : x ∈ l) (hx : p x = false) : x ∈ l.dropWhile p := by
  induction l with
  | nil => simp at hmem
  | cons c rest ih =>
    cases hc : p c
    · simpa [List.dropWhile_cons, hc] using hmem
    · simp only [List.dropWhile_cons, hc, if_true]
      rcases List.mem_cons.mp hmem with h | h
      · rw [h, hc] at hx
        exact Bool.noConfusion hx
      · exact ih h

/-- A list with an `=` splits at its first `=`. -/
theorem split_at_first_eq (d : List Char) (h : '=' ∈ d) :
    ∃ b, d.dropWhile (fun c => c != '=') = '=' :: b ∧
      d = d.takeWhile (fun c => c != '=') ++ '=' :: b := by
  rcases dropWhile_eq_nil_or_cons (fun c => c != '=') d with hnil | ⟨x, b, hxb, hx⟩
  · have := (List.dropWhile_eq_nil_iff.mp hnil) '=' h
    simp at this
  · have hxe : x = '=' := by simpa using hx
    subst hxe
    refine ⟨b, hxb, ?_⟩
    have := List.takeWhile_append_dropWhile (fun c => c != '=') d
    rw [hxb] at this
    exact this.symm

/-- The trimmed line splits at its first `=` as the line does, up to white
space at the two ends. -/
theorem split_trimmed (raw : List Char) (h : '=' ∈ raw) :
    '=' ∈ trim_chars raw ∧
    (trim_chars raw).takeWhile (fun c => c != '=') =
      (raw.takeWhile (fun c => c != '=')).dropWhile is_trim_char ∧
    ((trim_chars raw).dropWhile (fun c => c != '=')).drop 1 =
      ((raw.dropWhile (fun c => c != '=')).drop 1).rdropWhile is_trim_char := by
  have hd : '=' ∈ raw.dropWhile is_trim_char :=
    mem_dropWhile_of_neg is_trim_char raw '=' h not_trim_char_eq
  rcases split_at_first_eq _ hd with ⟨b, hb, hsplit⟩
  have htrim : trim_chars raw =
      (raw.dropWhile is_trim_char).takeWhile (fun c => c != '=') ++
        '=' :: b.rdropWhile is_trim_char := by
    unfold trim_chars
    conv_lhs => rw [hsplit]
    exact rdropWhile_append_cons is_trim_char _ '=' b not_trim_char_eq
  have hall : ∀ y ∈ (raw.dropWhile is_trim_char).takeWhile (fun c => c != '='),
      (fun c => c != '=') y = true :=
    fun y hy => List.mem_takeWhile_imp (p := fun c => c != '=') hy
  have hsp := takeWhile_append_cons (fun c => c != '=') _ '=' (b.rdropWhile is_trim_char) hall
    (by simp)
  rw [← htrim] at hsp
  refine ⟨?_, ?_, ?_⟩
  · rw [htrim]
    simp
  · rw [hsp.1, takeWhile_dropWhile_trim]
  · rw [hsp.2, ← dropWhile_dropWhile_trim raw, hb]
    rfl

theorem mem_of_mem_trim_chars (raw : List Char) (c : Char) (h : c ∈ trim_chars raw) :
    c ∈ raw := by
  have h1 : c ∈ raw.dropWhile is_trim_char :=
    (List.rdropWhile_prefix is_trim_char _).subset h
  exact (List.dropWhile_suffix is_trim_char).subset h1

/-- The first character of the trimmed line is the first character of the line
that is not white space. -/
theorem head_trim_chars (raw : List Char) :
    (trim_chars raw = [] ↔ raw.dropWhile is_trim_char = []) ∧
    (trim_chars raw).head? = (raw.dropWhile is_trim_char).head? := by
  rcases dropWhile_eq_nil_or_cons is_trim_char raw with hnil | ⟨x, b, hxb, hx⟩
  · simp [trim_chars, hnil]
  · have : trim_chars raw = x :: b.rdropWhile is_trim_char := by
      rw [trim_chars, hxb, rdropWhile_cons_of_neg is_trim_char x b hx]
    simp [this, hxb]

/-- The quotes are stripped by the code as the description says. -/
theorem strip_quotes (value : List Char) :
    String.mk (if string_front value = '"' ∧ string_back value = '"' then
        (value.drop 1).take (length_minus_two value.length) else value)
      = spec_unquote (String.mk value) := by
  have hfront : string_front value = '"' ↔ value.head? = some '"' := by
    cases value with
    | nil => simp [string_front]
    | cons c cs => simp [string_front]
  have hback : string_back value = '"' ↔ value.getLast? = some '"' := by
    rw [string_back, List.getLastD_eq_getLast?]
    cases hl : value.getLast? with
    | none => simp
    | some c => simp
  simp only [spec_unquote, hfront, hback]
  by_cases hq : value.head? = some '"' ∧ value.getLast? = some '"'
  · simp only [hq, and_self, if_true]
    congr 1
    cases value with
    | nil => simp at hq
    | cons c cs =>
      simp only [List.drop_succ_cons, List.drop_zero, List.length_cons]
      cases cs with
      | nil => simp [length_minus_two]
      | cons e es =>
        have : length_minus_two ((e :: es).length + 1) = (e :: es).length - 1 := by
          simp [length_minus_two]
        rw [this, List.dropLast_eq_take]
  · simp only [hq, if_false]

/-- One line does to the configuration what its description says. -/
theorem load_line_config (acc : Loading) (raw : String) :
    (Config.load_line acc raw).config = spec_load_line acc.config raw := by
  have hhead := head_trim_chars raw.data
  cases ht : trim_chars raw.data with
  | nil =>
    have hd : raw.data.dropWhile is_trim_char = [] := hhead.1.mp ht
    simp [Config.load_line, ht, spec_load_line, hd]
  | cons first tl =>
    have hd : raw.data.dropWhile is_trim_char ≠ [] := by
      intro h
      rw [hhead.1.mpr h] at ht
      exact List.noConfusion ht
    have hfirst : (raw.data.dropWhile is_trim_char).head? = some first := by
      rw [← hhead.2, ht]; rfl
    by_cases hc : first = '#'
    · simp [Config.load_line, ht, spec_load_line, hfirst, hc]
    · have hspec : ¬ (raw.data.dropWhile is_trim_char = [] ∨
          (raw.data.dropWhile is_trim_char).head? = some '#') := by
        rintro (h | h)
        · exact hd h
        · rw [hfirst] at h
          exact hc (Option.some.inj h)
      by_cases heq : '=' ∈ raw.data
      · have hsp := split_trimmed raw.data heq
        rw [ht] at hsp
        have hcontains : (first :: tl).contains '=' = true := by
          simpa using hsp.1
        have hkey : trim_chars ((first :: tl).takeWhile (fun c => c != '=')) =
            trim_chars (raw.data.takeWhile (fun c => c != '=')) := by
          rw [hsp.2.1, trim_chars_dropWhile]
        have hval : trim_chars (((first :: tl).dropWhile (fun c => c != '=')).drop 1) =
            trim_chars ((raw.data.dropWhile (fun c => c != '=')).drop 1) := by
          rw [hsp.2.2, trim_chars_rdropWhile]
        simp only [Config.load_line, ht, hc, if_false, hcontains, if_true, spec_load_line, hspec,
          heq, hkey, hval, strip_quotes]
        rfl
      · have hcontains : (first :: tl).contains '=' = false := by
          have : '=' ∉ first :: tl := by
            intro hm
            rw [← ht] at hm
            exact heq (mem_of_mem_trim_chars raw.data '=' hm)
          simpa using this
        simp only [Config.load_line, ht, hc, if_false, hcontains, Bool.false_eq_true,
          spec_load_line, hspec, heq]

theorem foldl_load_line_config (lines : List String) (acc : Loading) :
    (lines.foldl Config.load_line acc).config = lines.foldl spec_load_line acc.config := by
  induction lines generalizing acc with
  | nil => rfl
  | cons line rest ih =>
    simp only [List.foldl_cons]
    rw [ih, load_line_config]

/-- C24: loading a file that opens answers `true` and does to the
configuration, line after line, what the description of a line says: a blank
line and a line whose first character that is not white space is `#` change
nothing, nor does a line without `=`; any other line stores, under the trimmed
text before its first `=`, the trimmed text after it, without its first and
last character when both are double quotes.  A line that stores a key
overrides what earlier lines stored under it.  A file that does not open
answers `false` and changes nothing. -/
theorem load_from_file_lines (c : Config) (open_file : String → Option String)
    (filename : String) :
    (∀ text, open_file filename = some text →
      (c.loadFromFile open_file filename).1 = true ∧
      (c.loadFromFile open_file filename).2.config = (getlines text).foldl spec_load_line c) ∧
    (open_file filename = none →
      (c.loadFromFile open_file filename).1 = false ∧
      (c.loadFromFile open_file filename).2.config = c) ∧
    (∀ (before : List String) (line : String),
      line.data.dropWhile is_trim_char ≠ [] →
      (line.data.dropWhile is_trim_char).head? ≠ some '#' → '=' ∈ line.data →
      ((before ++ [line]).foldl spec_load_line c).find (spec_key line)
        = some (spec_value line)) ∧
    (∀ (cfg : Config) (line : String),
      (line.data.dropWhile is_trim_char = [] ∨
        (line.data.dropWhile is_trim_char).head? = some '#' ∨ '=' ∉ line.data) →
      spec_load_line cfg line = cfg) := by
  refine ⟨?_, ?_, ?_, ?_⟩
  · intro text hopen
    refine ⟨by simp [Config.loadFromFile, hopen], ?_⟩
    simp only [Config.loadFromFile, hopen]
    exact foldl_load_line_config _ _
  · intro hopen
    simp [Config.loadFromFile, hopen]
  · intro before line h1 h2 h3
    have hspec : ¬ (line.data.dropWhile is_trim_char = [] ∨
        (line.data.dropWhile is_trim_char).head? = some '#') := by
      rintro (h | h)
      · exact h1 h
      · exact h2 h
    rw [List.foldl_append]
    simp only [List.foldl_cons, List.foldl_nil, spec_load_line, hspec, if_false, h3, if_true]
    exact find_set_self _ _ _
  · intro cfg line h
    rcases h with h | h | h
    · rw [spec_load_line, if_pos (Or.inl h)]
    · rw [spec_load_line, if_pos (Or.inr h)]
    · by_cases hb : line.data.dropWhile is_trim_char = [] ∨
          (line.data.dropWhile is_trim_char).head? = some '#'
      · rw [spec_load_line, if_pos hb]
      · rw [spec_load_line, if_neg hb, if_neg h]

theorem load_from_file_lines_witness :
    ((⟨[]⟩ : Config).loadFromFile (fun _ => some testConfigFile) "test_config.conf").1 = true ∧
    ((⟨[]⟩ : Config).loadFromFile (fun _ => some testConfigFile) "test_config.conf").2.config
      = (getlines testConfigFile).foldl spec_load_line ⟨[]⟩ ∧
    ((getlines testConfigFile).foldl spec_load_line ⟨[]⟩).find "output_dir"
      = some "./test_output" ∧
    ((getlines testConfigFile).foldl spec_load_line ⟨[]⟩).find "max_threads" = some "8" :=
  have h := (load_from_file_lines ⟨[]⟩ (fun _ => some testConfigFile) "test_config.conf").1
    testConfigFile rfl
  ⟨h.1, h.2, by decide, by decide⟩


/-! ## Theorems on the statistics of a text -/

theorem string_isEmpty_data (s : String) : s.isEmpty = true ↔ s.data = [] := by
  cases s with
  | mk d =>
    cases d with
    | nil => simp [String.isEmpty, String.endPos, String.utf8ByteSize]
    | cons c cs =>
      simp only [String.isEmpty, String.endPos, String.utf8ByteSize, String.utf8ByteSize.go]
      have := Char.utf8Size_pos c
      simp [String.Pos.ext_iff]
      omega

theorem getlines_from_length (current rest : List Char) :
    (getlines_from current rest).length =
      rest.count '\n' +
        (if rest.getLast? = some '\n' ∨ (rest = [] ∧ current = []) then 0 else 1) := by
  induction rest generalizing current with
  | nil =>
    cases current with
    | nil => simp [getlines_from]
    | cons c cs => simp [getlines_from]
  | cons c rest ih =>
    by_cases hc : c = '\n'
    · subst hc
      rw [getlines_from, if_pos rfl, List.length_cons, ih [], List.count_cons_self]
      cases rest with
      | nil => simp
      | cons d ds => simp [List.getLast?_cons_cons]; omega
    · have hne : (c == '\n') = false := by simpa using hc
      rw [getlines_from, if_neg hc, ih (current ++ [c]), List.count_cons, hne]
      cases rest with
      | nil => simp [hc]
      | cons d ds => simp [List.getLast?_cons_cons]

/-- The lines read from a content are as many as its description counts. -/
theorem getlines_length (content : String) :
    (getlines content).length = spec_line_count content := by
  rw [getlines, List.length_map, getlines_from_length, spec_line_count]
  congr 1
  by_cases h : content.data = []
  · simp [h]
  · by_cases hl : content.data.getLast? = some '\n'
    · simp [h, hl]
    · simp [h, hl]

/-- The fold of `analyze_line` over lines: the counters it leaves. -/
theorem analyze_lines_fold (lines : List String) (acc : TextStats × Bool) :
    (lines.foldl analyze_line acc).1.lines = acc.1.lines + lines.length ∧
    (lines.foldl analyze_line acc).1.words
      = acc.1.words + (lines.map (fun l => (tokenize l).length)).sum ∧
    (lines.foldl analyze_line acc).1.characters = acc.1.characters ∧
    (lines.foldl analyze_line acc).1.word_frequency
      = (lines.flatMap tokenize).foldl (fun freq word => count_word freq (to_lower word))
          acc.1.word_frequency := by
  induction lines generalizing acc with
  | nil => simp
  | cons line rest ih =>
    have h := ih (analyze_line acc line)
    simp only [List.foldl_cons, List.length_cons, List.map_cons, List.sum_cons,
      List.flatMap_cons, List.foldl_append]
    by_cases hempty : line.isEmpty = true
    · have htok : tokenize line = [] := by
        have hd : line.data = [] := (string_isEmpty_data line).mp hempty
        simp [tokenize, hd, tokenize_from]
      have hacc : (analyze_line acc line).1.lines = acc.1.lines + 1 ∧
          (analyze_line acc line).1.words = acc.1.words ∧
          (analyze_line acc line).1.characters = acc.1.characters ∧
          (analyze_line acc line).1.word_frequency = acc.1.word_frequency := by
        cases hflag : acc.2 <;> simp [analyze_line, hempty, hflag]
      rw [h.1, h.2.1, h.2.2.1, h.2.2.2, hacc.1, hacc.2.1, hacc.2.2.1, hacc.2.2.2, htok]
      refine ⟨by omega, by simp, rfl, rfl⟩
    · have hacc : (analyze_line acc line).1.lines = acc.1.lines + 1 ∧
          (analyze_line acc line).1.words = acc.1.words + (tokenize line).length ∧
          (analyze_line acc line).1.characters = acc.1.characters ∧
          (analyze_line acc line).1.word_frequency =
            (tokenize line).foldl (fun freq word => count_word freq (to_lower word))
              acc.1.word_frequency := by
        simp [analyze_line, hempty]
      rw [h.1, h.2.1, h.2.2.1, h.2.2.2, hacc.1, hacc.2.1, hacc.2.2.1, hacc.2.2.2]
      refine ⟨by omega, by omega, rfl, rfl⟩

/-- The counters of `analyze_text`. -/
theorem analyze_text_counters (content : String) :
    (analyze_text content).lines = (getlines content).length ∧
    (analyze_text content).words = ((getlines content).map (fun l => (tokenize l).length)).sum ∧
    (analyze_text content).characters = content.length ∧
    (analyze_text content).word_frequency
      = ((getlines content).flatMap tokenize).foldl
          (fun freq word => count_word freq (to_lower word)) [] := by
  have h := analyze_lines_fold (getlines content)
    ({ lines := 0, words := 0, characters := content.length, paragraphs := 0,
       word_frequency := [] }, false)
  simp only [Nat.zero_add] at h
  unfold analyze_text
  simp only []
  split
  · exact ⟨h.1, h.2.1, h.2.2.1, h.2.2.2⟩
  · exact ⟨h.1, h.2.1, h.2.2.1, h.2.2.2⟩

/-- C27: on a file that opens with content `c`, `process_impl` returns a record
with `success = true`, the message `Text processing completed` and exactly the
four metadata keys `lines`, `words`, `characters`, `output_file`.  Their values
are, in decimal, the length of `c`; the number of lines of `c`, one for each
newline and one more for what follows the last newline when that is not
empty; and the number of tokens summed over the lines; the output file is the
path given by `get_output_path`. -/
theorem text_process_impl_record (tp : TextProcessor) (te : TextEnv) (filepath : String)
    (content : String) (total_bytes : Nat)
    (hopen : te.open_file filepath = some content)
    (hsz : te.fs.file_size filepath = .ok total_bytes) :
    ∃ r, (tp.process_impl te filepath).outcome = .ok r ∧
      r.success = true ∧ r.message = "Text processing completed" ∧
      r.metadata.map Prod.fst = ["lines", "words", "characters", "output_file"] ∧
      r.metadata.lookup "characters" = some (toString content.length) ∧
      r.metadata.lookup "lines" = some (toString (spec_line_count content)) ∧
      r.metadata.lookup "words" =
        some (toString ((getlines content).map (fun l => (tokenize l).length)).sum) ∧
      r.metadata.lookup "output_file" = some (tp.get_output_path te filepath "_analysis") := by
  have hc := analyze_text_counters content
  have hout : (tp.process_impl te filepath).outcome = .ok
      { ProcessResult.default with
        success := true
        message := "Text processing completed"
        metadata :=
          [("lines", toString (analyze_text content).lines),
            ("words", toString (analyze_text content).words),
            ("characters", toString (analyze_text content).characters),
            ("output_file", tp.get_output_path te filepath "_analysis")] } := by
    simp only [TextProcessor.process_impl, hopen, hsz]
  refine ⟨_, hout, rfl, rfl, rfl, ?_, ?_, ?_, ?_⟩
  · simp [List.lookup, hc.2.2.1]
  · simp [List.lookup, hc.1, getlines_length]
  · simp [List.lookup, hc.2.1]
  · simp [List.lookup]

theorem text_process_impl_record_witness :
    unterminatedDisk.open_file "a.txt" = some "ab\ncd" ∧
    unterminatedDisk.fs.file_size "a.txt" = .ok 5 ∧
    ∃ r, (smallChunks.process_impl unterminatedDisk "a.txt").outcome = .ok r ∧
      r.metadata.lookup "lines" = some "2" ∧ r.metadata.lookup "characters" = some "5" :=
  have h := text_process_impl_record smallChunks unterminatedDisk "a.txt" "ab\ncd" 5 rfl rfl
  ⟨rfl, rfl, h.choose, h.choose_spec.1,
    h.choose_spec.2.2.2.2.2.1.trans (by decide), h.choose_spec.2.2.2.2.1.trans (by decide)⟩


/-! ## Theorems on the word frequencies and the paragraphs -/

theorem count_word_sum (freq : List (String × Nat)) (word : String) :
    ((count_word freq word).map Prod.snd).sum = (freq.map Prod.snd).sum + 1 := by
  induction freq with
  | nil => simp [count_word]
  | cons entry rest ih =>
    obtain ⟨key, n⟩ := entry
    by_cases h : key = word
    · simp [count_word, h]; omega
    · simp [count_word, h, ih]; omega

theorem count_words_sum (words : List String) (freq : List (String × Nat)) :
    ((words.foldl (fun f word => count_word f (to_lower word)) freq).map Prod.snd).sum
      = (freq.map Prod.snd).sum + words.length := by
  induction words generalizing freq with
  | nil => simp
  | cons w ws ih =>
    rw [List.foldl_cons, ih, count_word_sum, List.length_cons]
    omega

theorem count_word_keys (freq : List (String × Nat)) (word key : String)
    (h : key ∈ (count_word freq word).map Prod.fst) :
    key ∈ freq.map Prod.fst ∨ key = word := by
  induction freq with
  | nil => simpa [count_word] using h
  | cons entry rest ih =>
    obtain ⟨k, n⟩ := entry
    by_cases hk : k = word
    · simp only [count_word, hk, if_true, List.map_cons, List.mem_cons] at h
      simp only [List.map_cons, List.mem_cons, hk]
      tauto
    · simp only [count_word, hk, if_false, List.map_cons, List.mem_cons] at h
      simp only [List.map_cons, List.mem_cons]
      rcases h with h | h
      · exact Or.inl (Or.inl h)
      · rcases ih h with h | h
        · exact Or.inl (Or.inr h)
        · exact Or.inr h

theorem count_words_keys (words : List String) (freq : List (String × Nat)) (key : String)
    (h : key ∈ (words.foldl (fun f word => count_word f (to_lower word)) freq).map Prod.fst) :
    key ∈ freq.map Prod.fst ∨ ∃ word ∈ words, key = to_lower word := by
  induction words generalizing freq with
  | nil => exact Or.inl h
  | cons w ws ih =>
    rw [List.foldl_cons] at h
    rcases ih _ h with h | ⟨word, hw, hkey⟩
    · rcases count_word_keys _ _ _ h with h | h
      · exact Or.inl h
      · exact Or.inr ⟨w, List.mem_cons_self _ _, h⟩
    · exact Or.inr ⟨word, List.mem_cons_of_mem _ hw, hkey⟩

/-- A character that is not a word character ends the word under way. -/
theorem tokenize_from_break (text : List Char) (c : Char) (rest : List Char)
    (hc : is_word_char c = false) (word : List Char) :
    tokenize_from word (text ++ c :: rest) = tokenize_from word text ++ tokenize_from [] rest := by
  induction text generalizing word with
  | nil =>
    cases word with
    | nil => simp [tokenize_from, hc]
    | cons w ws => simp [tokenize_from, hc]
  | cons x xs ih =>
    by_cases hx : is_word_char x = true
    · simp only [List.cons_append, tokenize_from, hx, if_true]
      exact ih _
    · cases word with
      | nil =>
        simp only [List.cons_append, tokenize_from, hx, if_false, List.isEmpty_nil, if_true]
        exact ih _
      | cons w ws =>
        simp only [List.cons_append, tokenize_from, hx, if_false, List.isEmpty_cons,
          Bool.false_eq_true, List.cons_append, List.cons.injEq, true_and]
        exact ih _

/-- The tokens of the lines, one line after the other, are the tokens of the
whole text. -/
theorem tokens_of_lines (rest current : List Char) :
    (getlines_from current rest).flatMap (fun line => tokenize_from [] line)
      = tokenize_from [] (current ++ rest) := by
  induction rest generalizing current with
  | nil =>
    cases current with
    | nil => simp [getlines_from, tokenize_from]
    | cons c cs => simp [getlines_from]
  | cons c rest ih =>
    by_cases hc : c = '\n'
    · subst hc
      rw [getlines_from, if_pos rfl, List.flatMap_cons, ih [], List.nil_append]
      exact (tokenize_from_break current '\n' rest (by decide) []).symm
    · rw [getlines_from, if_neg hc, ih (current ++ [c])]
      simp

theorem tokens_of_content (content : String) :
    (getlines content).flatMap tokenize = tokenize content := by
  have h := tokens_of_lines content.data []
  rw [List.nil_append] at h
  rw [getlines, tokenize, ← h]
  simp only [List.flatMap, List.map_map]
  rfl

/-- Every token is a maximal run of word characters of the text read. -/
theorem tokenize_from_runs (rest : List Char) :
    ∀ (pre word : List Char) (token : String),
      (∀ c, pre.getLast? = some c → is_word_char c = false) →
      (∀ c ∈ word, is_word_char c = true) →
      token ∈ tokenize_from word rest → MaximalRun token.data (pre ++ word ++ rest) := by
  induction rest with
  | nil =>
    intro pre word token hpre hword h
    cases word with
    | nil => simp [tokenize_from] at h
    | cons w ws =>
      simp only [tokenize_from, List.isEmpty_cons, Bool.false_eq_true, if_false,
        List.mem_singleton] at h
      subst h
      exact ⟨by simp, hword, pre, [], by simp, hpre, by simp⟩
  | cons c r ih =>
    intro pre word token hpre hword h
    by_cases hc : is_word_char c = true
    · rw [tokenize_from, if_pos hc] at h
      have hrun := ih pre (word ++ [c]) token hpre
        (by
          intro x hx
          rcases List.mem_append.mp hx with hx | hx
          · exact hword x hx
          · rw [List.mem_singleton.mp hx]; exact hc) h
      simpa using hrun
    · have hc' : is_word_char c = false := by simpa using hc
      cases word with
      | nil =>
        simp only [tokenize_from, hc, if_false, List.isEmpty_nil, if_true] at h
        have hrun := ih (pre ++ [c]) [] token
          (by
            intro x hx
            rw [List.getLast?_concat, Option.some.injEq] at hx
            rw [← hx]; exact hc') (by simp) h
        simpa using hrun
      | cons w ws =>
        simp only [tokenize_from, hc, if_false, List.isEmpty_cons, Bool.false_eq_true,
          List.mem_cons] at h
        rcases h with h | h
        · subst h
          refine ⟨by simp, hword, pre, c :: r, rfl, hpre, ?_⟩
          intro x hx
          simp at hx
          rw [← hx]; exact hc'
        · have hrun := ih (pre ++ (w :: ws) ++ [c]) [] token
            (by
            intro x hx
            rw [List.getLast?_concat, Option.some.injEq] at hx
            rw [← hx]; exact hc') (by simp) h
          simpa using hrun

theorem tokenize_runs (content token : String) (h : token ∈ tokenize content) :
    MaximalRun token.data content.data := by
  have hrun := tokenize_from_runs content.data [] [] token (by simp) (by simp) h
  simpa using hrun

theorem toLower_not_upper (c : Char) : (Char.toLower c).isUpper = false := by
  by_cases h : c.toNat ≥ 65 ∧ c.toNat ≤ 90
  · have hl : c.toLower = Char.ofNat (c.toNat + 32) := by simp [Char.toLower, h]
    rw [hl]
    obtain ⟨h1, h2⟩ := h
    generalize c.toNat = n at h1 h2
    interval_cases n <;> rfl
  · have hl : c.toLower = c := by
      unfold Char.toLower
      simp only [h, if_false]
    rw [hl]
    have h3 : ¬ (65 ≤ c.val.toNat ∧ c.val.toNat ≤ 90) := h
    simp only [Char.isUpper, ge_iff_le, UInt32.le_def, BitVec.le_def]
    have e1 : (UInt32.toBitVec 65).toNat = 65 := rfl
    have e2 : (UInt32.toBitVec 90).toNat = 90 := rfl
    have e3 : c.val.toBitVec.toNat = c.val.toNat := rfl
    rw [e1, e2, e3]
    simpa using h3

/-- The paragraphs counted over some lines: with the one under way, as many as
before plus the lines that start one. -/
theorem analyze_lines_paragraphs (lines : List String) :
    ∀ (acc : TextStats × Bool) (previous : String), acc.2 = !previous.isEmpty →
      (lines.foldl analyze_line acc).1.paragraphs
          + (if (lines.foldl analyze_line acc).2 then 1 else 0)
        = acc.1.paragraphs + (if acc.2 then 1 else 0)
          + ((previous :: lines).zip lines).countP
              (fun pair => pair.1.isEmpty && !pair.2.isEmpty) := by
  induction lines with
  | nil => intro acc previous _; simp
  | cons line rest ih =>
    intro acc previous hacc
    have hflag : (analyze_line acc line).2 = !line.isEmpty := by
      cases hl : line.isEmpty <;> cases ha : acc.2 <;> simp [analyze_line, hl, ha]
    rw [List.foldl_cons, ih (analyze_line acc line) line hflag, List.zip_cons_cons,
      List.countP_cons]
    have hstep : (analyze_line acc line).1.paragraphs
          + (if (analyze_line acc line).2 then 1 else 0)
        = acc.1.paragraphs + (if acc.2 then 1 else 0)
          + (if (previous.isEmpty && !line.isEmpty) = true then 1 else 0) := by
      rw [hacc]
      cases hl : line.isEmpty <;> cases hp : previous.isEmpty <;> simp [analyze_line, hl, hp, hacc]
    dsimp only
    omega

theorem analyze_text_paragraphs (content : String) :
    (analyze_text content).paragraphs = spec_paragraphs (getlines content) := by
  have h := analyze_lines_paragraphs (getlines content)
    ({ lines := 0, words := 0, characters := content.length, paragraphs := 0,
       word_frequency := [] }, false) "" rfl
  unfold analyze_text spec_paragraphs
  simp only []
  split
  · rename_i hflag
    rw [hflag] at h
    simpa using h
  · rename_i hflag
    have hf : ((getlines content).foldl analyze_line
        ({ lines := 0, words := 0, characters := content.length, paragraphs := 0,
           word_frequency := [] }, false)).2 = false := by simpa using hflag
    rw [hf] at h
    simpa using h

/-- C28: the statistics of `analyze_text`: the values of `word_frequency` sum
to `words`; every key of `word_frequency` is not empty, has no upper-case
letter and is `to_lower` of a maximal run of word characters of the content;
`characters` is the length of the content; `paragraphs` is the number of
maximal runs of consecutive non-empty lines, which is at most `lines`. -/
theorem analyze_text_invariants (content : String) :
    (((analyze_text content).word_frequency).map Prod.snd).sum = (analyze_text content).words ∧
    (∀ key ∈ ((analyze_text content).word_frequency).map Prod.fst,
      key ≠ "" ∧ (∀ c ∈ key.data, c.isUpper = false) ∧
      ∃ run : List Char, MaximalRun run content.data ∧ key = to_lower (String.mk run)) ∧
    (analyze_text content).characters = content.length ∧
    (analyze_text content).paragraphs = spec_paragraphs (getlines content) ∧
    (analyze_text content).paragraphs ≤ (analyze_text content).lines := by
  have hc := analyze_text_counters content
  refine ⟨?_, ?_, hc.2.2.1, analyze_text_paragraphs content, ?_⟩
  · rw [hc.2.2.2, hc.2.1, count_words_sum, List.length_flatMap]
    simp [Function.comp_def]
  · intro key hkey
    rw [hc.2.2.2, tokens_of_content] at hkey
    rcases count_words_keys _ _ _ hkey with h | ⟨word, hword, hk⟩
    · simp at h
    · have hrun := tokenize_runs content word hword
      have hdata : key.data = word.data.map Char.toLower := by
        rw [hk, to_lower, String.map_eq]
      refine ⟨?_, ?_, word.data, hrun, hk⟩
      · intro hempty
        rw [hempty] at hdata
        have hnil : word.data = [] := by
          cases hw : word.data with
          | nil => rfl
          | cons x xs => rw [hw] at hdata; simp at hdata
        exact hrun.1 hnil
      · intro c hcmem
        rw [hdata] at hcmem
        obtain ⟨x, _, hx⟩ := List.mem_map.mp hcmem
        rw [← hx]
        exact toLower_not_upper x
  · rw [analyze_text_paragraphs, hc.1, spec_paragraphs]
    refine le_trans (List.countP_le_length _) ?_
    rw [List.length_zip]
    exact min_le_right _ _


/-! ## The pool after the stop flag is seen -/

theorem worker_step_other {α : Type} (i j : Nat) (s : ThreadPool α) (h : j ≠ i) :
    (s.worker_step j).workers_[i]? = s.workers_[i]? := by
  unfold ThreadPool.worker_step
  split
  · rfl
  · split <;> simp [List.getElem?_set_ne h]
  · split <;> simp [List.getElem?_set_ne h]
  · simp [List.getElem?_set_ne h]
  · split <;> simp [List.getElem?_set_ne h]
  · simp [List.getElem?_set_ne h]
  · rfl

theorem enqueue_workers {α : Type} (s : ThreadPool α) (work : Outcome α) :
    (s.enqueue work).2.workers_ = s.workers_ := by
  unfold ThreadPool.enqueue
  split <;> rfl

theorem act_exited {α : Type} (s : ThreadPool α) (a : Action α) (i : Nat)
    (h : s.workers_[i]? = some Worker.exited) : (s.act a).workers_[i]? = some Worker.exited := by
  cases a with
  | submit work =>
    simp only [ThreadPool.act]
    rw [enqueue_workers]
    exact h
  | step j =>
    simp only [ThreadPool.act]
    by_cases hj : j = i
    · subst hj
      rw [step_exited j s h]
      exact h
    · rw [worker_step_other i j s hj]
      exact h

theorem run_exited {α : Type} (actions : List (Action α)) (s : ThreadPool α) (i : Nat)
    (h : s.workers_[i]? = some Worker.exited) :
    (s.run actions).workers_[i]? = some Worker.exited := by
  induction actions generalizing s with
  | nil => exact h
  | cons a rest ih =>
    simp only [ThreadPool.run, List.foldl_cons] at ih ⊢
    exact ih (s.act a) (act_exited s a i h)

theorem act_stop {α : Type} (s : ThreadPool α) (a : Action α) : (s.act a).stop_ = s.stop_ := by
  cases a with
  | submit work =>
    simp only [ThreadPool.act, ThreadPool.enqueue]
    split <;> rfl
  | step j => exact worker_step_stop j s

/-- A stopped pool whose workers have all left their loop does nothing more. -/
theorem act_all_exited {α : Type} (s : ThreadPool α) (a : Action α) (hstop : s.stop_ = true)
    (hall : ∀ w ∈ s.workers_, w = Worker.exited) : s.act a = s := by
  cases a with
  | submit work => simp [ThreadPool.act, ThreadPool.enqueue, hstop]
  | step j =>
    simp only [ThreadPool.act]
    cases hw : s.workers_[j]? with
    | none => exact step_none j s hw
    | some w =>
      have hex := hall w (List.getElem?_mem hw)
      subst hex
      exact step_exited j s hw

theorem run_all_exited {α : Type} (actions : List (Action α)) (s : ThreadPool α)
    (hstop : s.stop_ = true) (hall : ∀ w ∈ s.workers_, w = Worker.exited) :
    s.run actions = s := by
  induction actions with
  | nil => rfl
  | cons a rest ih =>
    simp only [ThreadPool.run, List.foldl_cons] at ih ⊢
    rw [act_all_exited s a hstop hall]
    exact ih

/-- An action of a worker moves a handle from one place to the next and loses
none. -/
theorem worker_step_handles {α : Type} (i : Nat) (s : ThreadPool α) :
    (s.worker_step i).handles = s.handles := by
  cases hw : s.workers_[i]? with
  | none => rw [step_none i s hw]
  | some w =>
    cases w with
    | loop_head =>
      cases hstop : s.stop_ with
      | false =>
        rw [step_loop_head i s hw hstop]
        have hset := in_flight_handles_set s.workers_ i _ Worker.try_pop hw
        simp only [Worker.held, List.map_nil, Multiset.coe_nil, add_zero] at hset
        simp only [ThreadPool.handles, ThreadPool.in_flight, hset]
      | true =>
        rw [step_loop_head_stopped i s hw hstop]
        have hset := in_flight_handles_set s.workers_ i _ Worker.exited hw
        simp only [Worker.held, List.map_nil, Multiset.coe_nil, add_zero] at hset
        simp only [ThreadPool.handles, ThreadPool.in_flight, hset]
    | try_pop =>
      cases hq : s.tasks_.queue_ with
      | nil =>
        rw [step_try_pop_nil i s hw hq]
        have hset := in_flight_handles_set s.workers_ i _ Worker.loop_head hw
        simp only [Worker.held, List.map_nil, Multiset.coe_nil, add_zero] at hset
        simp only [ThreadPool.handles, ThreadPool.in_flight, hset]
      | cons t rest =>
        rw [step_try_pop_cons i s t rest hw hq]
        have hset := in_flight_handles_set s.workers_ i _ (Worker.call t) hw
        simp only [Worker.held, List.map_nil, Multiset.coe_nil, add_zero, List.map_cons,
          Multiset.coe_singleton] at hset
        simp only [ThreadPool.handles, ThreadPool.in_flight, hq, hset, List.map_cons,
          ← Multiset.cons_coe, ← Multiset.singleton_add]
        abel
    | call t =>
      rw [step_call i s t hw]
      have hset := in_flight_handles_set s.workers_ i _ (Worker.invoke t) hw
      simp only [Worker.held] at hset
      have hx := add_right_cancel hset
      simp only [ThreadPool.handles, ThreadPool.in_flight, hx]
    | invoke t =>
      rw [step_invoke i s t hw]
      have hset := in_flight_handles_set s.workers_ i _ Worker.finish hw
      simp only [Worker.held, List.map_nil, Multiset.coe_nil, add_zero, List.map_cons,
        Multiset.coe_singleton] at hset
      simp only [ThreadPool.handles, ThreadPool.in_flight, ← hset, List.map_append,
        List.map_cons, List.map_nil, ← Multiset.coe_add, Multiset.coe_singleton]
      abel
    | finish =>
      rw [step_finish i s hw]
      have hset := in_flight_handles_set s.workers_ i _ Worker.loop_head hw
      simp only [Worker.held, List.map_nil, Multiset.coe_nil, add_zero] at hset
      simp only [ThreadPool.handles, ThreadPool.in_flight, hset]
    | exited => rw [step_exited i s hw]

/-- The callables run stay those resolved. -/
theorem worker_step_executed {α : Type} (i : Nat) (s : ThreadPool α)
    (h : s.executed = s.shared.map Prod.fst) :
    (s.worker_step i).executed = (s.worker_step i).shared.map Prod.fst := by
  unfold ThreadPool.worker_step
  split
  · exact h
  · split <;> exact h
  · split <;> exact h
  · exact h
  · split <;> simp [h]
  · exact h
  · exact h

/-- On a stopped pool every handle stays in one place only, and the callables
run stay those resolved. -/
theorem stopped_run_accounts {α : Type} (actions : List (Action α)) (s : ThreadPool α)
    (hstop : s.stop_ = true) (hn : s.handles.Nodup) (he : s.executed = s.shared.map Prod.fst) :
    (s.run actions).stop_ = true ∧ (s.run actions).handles.Nodup ∧
    (s.run actions).executed = (s.run actions).shared.map Prod.fst := by
  induction actions generalizing s with
  | nil => exact ⟨hstop, hn, he⟩
  | cons a rest ih =>
    simp only [ThreadPool.run, List.foldl_cons] at ih ⊢
    cases a with
    | submit work =>
      have hsame : s.act (Action.submit work) = s := by
        simp [ThreadPool.act, ThreadPool.enqueue, hstop]
      rw [hsame]
      exact ih s hstop hn he
    | step j =>
      refine ih (s.act (Action.step j)) ?_ ?_ ?_
      · exact (worker_step_stop j s).trans hstop
      · simp only [ThreadPool.act]
        rw [worker_step_handles]
        exact hn
      · exact worker_step_executed j s he

/-- A queued handle of a pool that accounts for its handles has not been
resolved. -/
theorem queued_not_executed {α : Type} (s : ThreadPool α) (hn : s.handles.Nodup)
    (he : s.executed = s.shared.map Prod.fst) (t : Task α) (ht : t ∈ s.tasks_.queue_) :
    t.handle ∉ s.executed ∧ s.future_get t.handle = none := by
  have hdisj := (Multiset.nodup_add.mp hn).2.2
  have hq : t.handle ∈ (s.tasks_.queue_.map Task.handle : Multiset Nat)
      + (s.in_flight.map Task.handle : Multiset Nat) :=
    Multiset.mem_add.mpr (Or.inl (Multiset.mem_coe.mpr (List.mem_map_of_mem _ ht)))
  have hnot : t.handle ∉ s.shared.map Prod.fst := fun hmem =>
    Multiset.disjoint_left.mp hdisj hq (Multiset.mem_coe.mpr hmem)
  refine ⟨by rw [he]; exact hnot, ?_⟩
  have hfind : s.shared.find? (fun r => r.1 == t.handle) = none := by
    rw [List.find?_eq_none]
    intro r hr hrt
    exact hnot (List.mem_map.mpr ⟨r, hr, by simpa using hrt⟩)
  simp [ThreadPool.future_get, hfind]

/-- C29: the pool drops what is queued at shutdown.  A worker that tests the
stop flag when it is set leaves its loop without touching the queue or the
items run, and a worker that has left its loop stays there whatever happens
next, its own actions changing nothing.  Once the flag is set on a consistent
pool and every worker has seen it, nothing changes any more: every item then
queued stays queued, is never run and its future is never resolved, and
`pending_count` never decreases. -/
theorem drop_policy_on_shutdown {α : Type} (s stopped : ThreadPool α) (after : List (Action α))
    (hs : s.Consistent)
    (hstopped : stopped = ({ s with stop_ := true } : ThreadPool α).run after)
    (hall : ∀ w ∈ stopped.workers_, w = Worker.exited) :
    (∀ (p : ThreadPool α) (i : Nat), p.workers_[i]? = some Worker.loop_head → p.stop_ = true →
      (p.worker_step i).workers_[i]? = some Worker.exited ∧
      (p.worker_step i).tasks_ = p.tasks_ ∧ (p.worker_step i).executed = p.executed) ∧
    (∀ (p : ThreadPool α) (i : Nat) (actions : List (Action α)),
      p.workers_[i]? = some Worker.exited →
      (p.run actions).workers_[i]? = some Worker.exited ∧
      (p.run actions).worker_step i = p.run actions) ∧
    (∀ later : List (Action α), stopped.run later = stopped) ∧
    (∀ t ∈ stopped.tasks_.queue_, ∀ later : List (Action α),
      t ∈ (stopped.run later).tasks_.queue_ ∧ t.handle ∉ (stopped.run later).executed ∧
      (stopped.run later).future_get t.handle = none) ∧
    (∀ later more : List (Action α),
      (stopped.run later).pending_count ≤ (stopped.run (later ++ more)).pending_count) := by
  have hacc := stopped_run_accounts after ({ s with stop_ := true } : ThreadPool α) rfl
    (by
      have h : ({ s with stop_ := true } : ThreadPool α).handles = s.handles := rfl
      rw [h, hs.each_once]
      exact Multiset.nodup_range _)
    hs.executed_shared
  rw [← hstopped] at hacc
  have hfix : ∀ later : List (Action α), stopped.run later = stopped :=
    fun later => run_all_exited later stopped hacc.1 hall
  refine ⟨?_, ?_, hfix, ?_, ?_⟩
  · intro p i hw hstop
    rw [step_loop_head_stopped i p hw hstop]
    exact ⟨set_getElem?_self _ _ _ _ hw, rfl, rfl⟩
  · intro p i actions hw
    have hex := run_exited actions p i hw
    exact ⟨hex, step_exited i _ hex⟩
  · intro t ht later
    rw [hfix later]
    have h := queued_not_executed stopped hacc.2.1 hacc.2.2 t ht
    exact ⟨ht, h.1, h.2⟩
  · intro later more
    rw [hfix later, hfix (later ++ more)]

theorem drop_policy_on_shutdown_witness :
    queuedPool.Consistent ∧
    (∀ w ∈ (({ queuedPool with stop_ := true } : ThreadPool Nat).run [Action.step 0]).workers_,
      w = Worker.exited) ∧
    (({ queuedPool with stop_ := true } : ThreadPool Nat).run [Action.step 0]).pending_count = 2 ∧
    ∀ later : List (Action Nat),
      (({ queuedPool with stop_ := true } : ThreadPool Nat).run [Action.step 0]).run later
        = ({ queuedPool with stop_ := true } : ThreadPool Nat).run [Action.step 0] :=
  have hc : queuedPool.Consistent :=
    (consistent_run_actions _ (ThreadPool.create 1) (consistent_create 1)).1
  have hall : ∀ w ∈ (({ queuedPool with stop_ := true } : ThreadPool Nat).run
      [Action.step 0]).workers_, w = Worker.exited := by decide
  ⟨hc, hall, by decide,
    (drop_policy_on_shutdown queuedPool _ [Action.step 0] hc rfl hall).2.2.1⟩


/-! ## Where the short and the long options do agree -/

theorem long_form_dash (arg : String) : starts_with_dash (long_form arg) = starts_with_dash arg := by
  unfold long_form
  split_ifs with h1 h2 h3 h4 h5 h6 h7
  · subst h1; decide
  · subst h2; decide
  · subst h3; decide
  · subst h4; decide
  · subst h5; decide
  · subst h6; decide
  · subst h7; decide
  · rfl

theorem long_form_of_no_dash (arg : String) (h : starts_with_dash arg = false) :
    long_form arg = arg := by
  unfold long_form
  split_ifs with h1 h2 h3 h4 h5 h6 h7
  · subst h1; exact absurd h (by decide)
  · subst h2; exact absurd h (by decide)
  · subst h3; exact absurd h (by decide)
  · subst h4; exact absurd h (by decide)
  · subst h5; exact absurd h (by decide)
  · subst h6; exact absurd h (by decide)
  · subst h7; exact absurd h (by decide)
  · rfl

/-- An argument `--key` without `=` takes its value from what follows. -/
theorem long_option_takes_value (arg : String) (key : List Char)
    (harg : arg.data = '-' :: '-' :: key) (hkey : '=' ∉ key) :
    (∀ c, Config.loadFromCommandLine [arg] c = c.set (String.mk key) "true") ∧
    (∀ next after c, starts_with_dash next = false →
      Config.loadFromCommandLine (arg :: next :: after) c
        = Config.loadFromCommandLine after (c.set (String.mk key) next)) ∧
    (∀ next after c, starts_with_dash next = true →
      Config.loadFromCommandLine (arg :: next :: after) c
        = Config.loadFromCommandLine (next :: after) (c.set (String.mk key) "true")) := by
  refine ⟨?_, ?_, ?_⟩
  · intro c
    simp [Config.loadFromCommandLine, harg, hkey]
  · intro next after c hnext
    simp [Config.loadFromCommandLine, harg, hkey, hnext]
  · intro next after c hnext
    simp [Config.loadFromCommandLine, harg, hkey, hnext]

/-- An argument `-x` takes its value from what follows. -/
theorem short_option_takes_value (arg : String) (opt : Char)
    (harg : arg.data = ['-', opt]) (hopt : opt ≠ '-') :
    (∀ c, Config.loadFromCommandLine [arg] c = set_short_option c opt "true") ∧
    (∀ next after c, starts_with_dash next = false →
      Config.loadFromCommandLine (arg :: next :: after) c
        = Config.loadFromCommandLine after (set_short_option c opt next)) ∧
    (∀ next after c, starts_with_dash next = true →
      Config.loadFromCommandLine (arg :: next :: after) c
        = Config.loadFromCommandLine (next :: after) (set_short_option c opt "true")) := by
  have hlen : arg.length = 2 := by
    rw [String.length, harg]; rfl
  have hopt' : ¬ '-' = opt := fun h => hopt h.symm
  refine ⟨?_, ?_, ?_⟩
  · intro c
    simp [Config.loadFromCommandLine, harg, starts_with_dash, hlen, hopt']
  · intro next after c hnext
    simp only [starts_with_dash] at hnext
    simp [Config.loadFromCommandLine, harg, starts_with_dash, hlen, hopt', hnext]
  · intro next after c hnext
    simp only [starts_with_dash] at hnext
    simp [Config.loadFromCommandLine, harg, starts_with_dash, hlen, hopt', hnext]

/-- Two arguments that take their value the same way give the same
configuration in front of lists that do. -/
theorem forms_agree_step (n : Nat)
    (ih : ∀ (args : List String) (c : Config), args.length ≤ n →
      (∀ a ∈ args, a ≠ "-v" ∧ a ≠ "-s" ∧ a ≠ "-h") →
      Config.loadFromCommandLine (args.map long_form) c = Config.loadFromCommandLine args c)
    (g : Config → String → Config) (long short : String)
    (hlong : (∀ c, Config.loadFromCommandLine [long] c = g c "true") ∧
      (∀ next after c, starts_with_dash next = false →
        Config.loadFromCommandLine (long :: next :: after) c
          = Config.loadFromCommandLine after (g c next)) ∧
      (∀ next after c, starts_with_dash next = true →
        Config.loadFromCommandLine (long :: next :: after) c
          = Config.loadFromCommandLine (next :: after) (g c "true")))
    (hshort : (∀ c, Config.loadFromCommandLine [short] c = g c "true") ∧
      (∀ next after c, starts_with_dash next = false →
        Config.loadFromCommandLine (short :: next :: after) c
          = Config.loadFromCommandLine after (g c next)) ∧
      (∀ next after c, starts_with_dash next = true →
        Config.loadFromCommandLine (short :: next :: after) c
          = Config.loadFromCommandLine (next :: after) (g c "true")))
    (rest : List String) (c : Config) (hlen : rest.length ≤ n)
    (hrest : ∀ a ∈ rest, a ≠ "-v" ∧ a ≠ "-s" ∧ a ≠ "-h") :
    Config.loadFromCommandLine (long :: rest.map long_form) c
      = Config.loadFromCommandLine (short :: rest) c := by
  cases rest with
  | nil => rw [List.map_nil, hlong.1, hshort.1]
  | cons next after =>
    cases hd : starts_with_dash next with
    | false =>
      rw [List.map_cons, long_form_of_no_dash next hd, hlong.2.1 _ _ _ hd, hshort.2.1 _ _ _ hd]
      exact ih after _ (by simp at hlen; omega)
        (fun a ha => hrest a (List.mem_cons_of_mem _ ha))
    | true =>
      rw [List.map_cons, hlong.2.2 _ _ _ ((long_form_dash next).trans hd), hshort.2.2 _ _ _ hd,
        ← List.map_cons]
      exact ih (next :: after) _ hlen hrest

theorem forms_agree_upto (n : Nat) :
    ∀ (args : List String) (c : Config), args.length ≤ n →
      (∀ a ∈ args, a ≠ "-v" ∧ a ≠ "-s" ∧ a ≠ "-h") →
      Config.loadFromCommandLine (args.map long_form) c = Config.loadFromCommandLine args c := by
  induction n with
  | zero =>
    intro args c hlen _
    have hnil : args = [] := List.length_eq_zero.mp (Nat.le_zero.mp hlen)
    subst hnil
    rfl
  | succ n ih =>
    intro args c hlen hargs
    cases args with
    | nil => rfl
    | cons arg rest =>
      have hrlen : rest.length ≤ n := by simp at hlen; omega
      have hrest : ∀ a ∈ rest, a ≠ "-v" ∧ a ≠ "-s" ∧ a ≠ "-h" :=
        fun a ha => hargs a (List.mem_cons_of_mem _ ha)
      have harg := hargs arg (List.mem_cons_self _ _)
      rw [List.map_cons]
      by_cases hi : arg = "-i"
      · subst hi
        exact forms_agree_step n ih (fun c v => c.set "input" v) "--input" "-i"
          (long_option_takes_value "--input" "input".data rfl (by decide))
          (short_option_takes_value "-i" 'i' rfl (by decide)) rest c hrlen hrest
      by_cases ho : arg = "-o"
      · subst ho
        exact forms_agree_step n ih (fun c v => c.set "output" v) "--output" "-o"
          (long_option_takes_value "--output" "output".data rfl (by decide))
          (short_option_takes_value "-o" 'o' rfl (by decide)) rest c hrlen hrest
      by_cases ht : arg = "-t"
      · subst ht
        exact forms_agree_step n ih (fun c v => c.set "threads" v) "--threads" "-t"
          (long_option_takes_value "--threads" "threads".data rfl (by decide))
          (short_option_takes_value "-t" 't' rfl (by decide)) rest c hrlen hrest
      by_cases hc : arg = "-c"
      · subst hc
        exact forms_agree_step n ih (fun c v => c.set "config" v) "--config" "-c"
          (long_option_takes_value "--config" "config".data rfl (by decide))
          (short_option_takes_value "-c" 'c' rfl (by decide)) rest c hrlen hrest
      have hsame : long_form arg = arg := by
        simp [long_form, hi, ho, ht, hc, harg.1, harg.2.1, harg.2.2]
      rw [hsame]
      by_cases hlongp : ['-', '-'].isPrefixOf arg.data = true
      · obtain ⟨key, hkey⟩ : ∃ key, arg.data = '-' :: '-' :: key := by
          rcases List.isPrefixOf_iff_prefix.mp hlongp with ⟨key, hk⟩
          exact ⟨key, hk.symm⟩
        by_cases heq : '=' ∈ key
        · have hskip : ∀ (tail : List String),
              Config.loadFromCommandLine (arg :: tail) c =
                Config.loadFromCommandLine tail
                  (c.set (String.mk (key.takeWhile (fun ch => ch != '=')))
                    (String.mk ((key.dropWhile (fun ch => ch != '=')).drop 1))) := by
            intro tail
            cases tail <;> simp [Config.loadFromCommandLine, hkey, heq]
          rw [hskip, hskip]
          exact ih rest _ hrlen hrest
        · have h := long_option_takes_value arg key hkey heq
          exact forms_agree_step n ih (fun c v => c.set (String.mk key) v) arg arg h h rest c
            hrlen hrest
      · by_cases hshortp : starts_with_dash arg = true ∧ arg.length = 2
        · obtain ⟨opt, hopt, hne⟩ : ∃ opt, arg.data = ['-', opt] ∧ opt ≠ '-' := by
            obtain ⟨hdash, hlen2⟩ := hshortp
            rw [String.length] at hlen2
            simp only [starts_with_dash] at hdash
            match hd : arg.data, hlen2 with
            | [x, y], _ =>
              rw [hd] at hdash hlongp
              have hx : x = '-' := by
                simp at hdash
                exact hdash.symm
              subst hx
              refine ⟨y, rfl, ?_⟩
              intro hy
              subst hy
              exact hlongp rfl
          have h := short_option_takes_value arg opt hopt hne
          exact forms_agree_step n ih (fun c v => set_short_option c opt v) arg arg h h rest c
            hrlen hrest
        · have hskip : ∀ (tail : List String),
              Config.loadFromCommandLine (arg :: tail) c = Config.loadFromCommandLine tail c := by
            intro tail
            cases tail with
            | nil => simp only [Config.loadFromCommandLine, if_neg hlongp, if_neg hshortp]
            | cons next after =>
              simp only [Config.loadFromCommandLine, if_neg hlongp, if_neg hshortp]
          rw [hskip, hskip]
          exact ih rest _ hrlen hrest

/-- The options that take a value have synonymous forms: on an argument list
without the flags `-v`, `-s` and `-h`, replacing every short option by its long
form leaves the configuration as it is. -/
theorem long_form_of_valued_options (args : List String) (c : Config)
    (hargs : ∀ a ∈ args, a ≠ "-v" ∧ a ≠ "-s" ∧ a ≠ "-h") :
    Config.loadFromCommandLine (args.map long_form) c = Config.loadFromCommandLine args c :=
  forms_agree_upto args.length args c (le_refl _) hargs


end FileProcessorSpec
